import Mathlib

/-! # johnweldon/weather: request construction and response decoding

A shallow embedding of `weather.go`.  The program is a thin client over the Go
standard library, so the file first models the library functions the program
calls (`fmt.Sprintf("%f")`, `net/url`, `encoding/json`), then the program
itself (`apiCall`, `currentWeather`, `forecast`, `main`), then the theorems.

Go strings are byte sequences; they are modelled as `List UInt8`.
-/

set_option autoImplicit false

deriving instance DecidableEq for Except

namespace WeatherGo

/-! ## Bytes and Go strings -/

/-- A Go `byte`. -/
abbrev Byte := UInt8

/-- A Go `string`: an immutable sequence of bytes (not necessarily UTF-8). -/
abbrev GoString := List Byte

/-- The byte of an ASCII character literal. -/
def B (c : Char) : Byte := c.toNat.toUInt8

/-- Go `utf8.AppendRune` / `utf8.EncodeRune`: the UTF-8 encoding of a rune;
surrogates and values above U+10FFFF are encoded as U+FFFD. -/
def encodeRune (r : Nat) : GoString :=
  if r < 0x80 then [r.toUInt8]
  else if r < 0x800 then [(0xC0 + r / 64).toUInt8, (0x80 + r % 64).toUInt8]
  else if r > 0x10FFFF ∨ (0xD800 ≤ r ∧ r ≤ 0xDFFF) then [0xEF, 0xBF, 0xBD]
  else if r < 0x10000 then
    [(0xE0 + r / 4096).toUInt8, (0x80 + r / 64 % 64).toUInt8, (0x80 + r % 64).toUInt8]
  else
    [(0xF0 + r / 262144).toUInt8, (0x80 + r / 4096 % 64).toUInt8,
     (0x80 + r / 64 % 64).toUInt8, (0x80 + r % 64).toUInt8]

/-- The bytes of a Go string literal (Go source text is UTF-8). -/
def bytes (s : String) : GoString := s.toList.flatMap (fun c => encodeRune c.toNat)

/-- Go `strings.HasPrefix`. -/
def startsWith : GoString → GoString → Bool
  | _, [] => true
  | [], _ :: _ => false
  | c :: s, d :: p => c == d && startsWith s p

/-- Go `strings.Index(s, sep)` for a non-empty `sep`: the offset of the first
occurrence of `sep` in `s`, or `none` for Go's `-1`. -/
def indexOf (sep : GoString) : GoString → Option Nat
  | [] => if sep = [] then some 0 else none
  | c :: s =>
    if startsWith (c :: s) sep then some 0
    else (indexOf sep s).map (· + 1)

/-- Go `strings.LastIndex(s, sep)`: the offset of the last occurrence. -/
def lastIndexOf (sep : GoString) : GoString → Option Nat
  | [] => if sep = [] then some 0 else none
  | c :: s =>
    match lastIndexOf sep s with
    | some i => some (i + 1)
    | none => if startsWith (c :: s) sep then some 0 else none

/-- Go `strings.Contains`. -/
def containsStr (s sep : GoString) : Bool := (indexOf sep s).isSome

/-- Go `strings.Cut(s, sep)`: the text before and after the first `sep`, and
whether `sep` was found; `(s, "", false)` when it does not occur. -/
def cut (s sep : GoString) : GoString × GoString × Bool :=
  match indexOf sep s with
  | some i => (s.take i, s.drop (i + sep.length), true)
  | none => (s, [], false)

/-- Go `strings.Count(s, sep)` for a one-byte separator. -/
def countByte (s : GoString) (c : Byte) : Nat := s.count c

/-- Go `strings.HasSuffix`. -/
def endsWith (s suffix : GoString) : Bool :=
  startsWith s.reverse suffix.reverse

/-- Go string comparison `a < b`: bytewise lexicographic. -/
def strLt : GoString → GoString → Bool
  | [], [] => false
  | [], _ :: _ => true
  | _ :: _, [] => false
  | a :: s, b :: t => a < b || (a == b && strLt s t)

/-- Go string comparison `a <= b`. -/
def strLe (a b : GoString) : Bool := !strLt b a

/-- ASCII lower-casing of one byte. -/
def lowerByte (c : Byte) : Byte :=
  if B 'A' ≤ c ∧ c ≤ B 'Z' then c + 32 else c

/-! ## float64 and `fmt.Sprintf("%f", x)` -/

/-- A Go `float64`, as the exact value it denotes: a finite value is
`(-1)^neg * mant * 2^exp` (IEEE binary64 has `mant < 2^53` and
`-1074 ≤ exp ≤ 971`), or an infinity, or NaN. -/
inductive Float64
  | finite (neg : Bool) (mant : Nat) (exp : Int)
  | inf (neg : Bool)
  | nan
  deriving DecidableEq

/-- The representation binary64 gives each value: a normal number has
`2^52 ≤ mant < 2^53` and `-1074 ≤ exp ≤ 971`, a subnormal number or a zero has
`mant < 2^52` and `exp = -1074`. -/
def Float64.isBinary64 : Float64 → Bool
  | .finite _ m e =>
    (decide (2 ^ 52 ≤ m) && decide (m < 2 ^ 53) && decide (-1074 ≤ e) && decide (e ≤ 971)) ||
      (decide (m < 2 ^ 52) && decide (e = -1074))
  | _ => true

/-- Whether the value is finite (neither an infinity nor NaN). -/
def Float64.isFinite : Float64 → Bool
  | .finite _ _ _ => true
  | _ => false

/-- The integer nearest to `num / den`, ties to the even one. -/
def roundHalfEven (num den : Nat) : Nat :=
  let q := num / den
  let r := num % den
  if 2 * r > den ∨ (2 * r = den ∧ q % 2 = 1) then q + 1 else q

/-- The magnitude `mant * 2^exp` in millionths, rounded to nearest-even:
what `strconv.FormatFloat(x, 'f', 6, 64)` rounds to. -/
def scaled6 (mant : Nat) (exp : Int) : Nat :=
  if 0 ≤ exp then mant * 2 ^ exp.toNat * 10 ^ 6
  else roundHalfEven (mant * 10 ^ 6) (2 ^ (-exp).toNat)

/-- The ASCII digit of `d % 10`. -/
def digitByte (d : Nat) : Byte := (48 + d % 10).toUInt8

/-- Decimal digits of `n`, most significant first, prepended to `acc`. -/
def natDecAux : Nat → Nat → GoString → GoString
  | 0, _, acc => acc
  | fuel + 1, n, acc =>
    if n / 10 = 0 then digitByte n :: acc
    else natDecAux fuel (n / 10) (digitByte n :: acc)

/-- The decimal numeral of `n` (no leading zeros, `"0"` for zero). -/
def natDec (n : Nat) : GoString := natDecAux (n + 1) n []

/-- Exactly six decimal digits of `n % 10^6`, zero padded. -/
def frac6 (n : Nat) : GoString :=
  [digitByte (n / 100000), digitByte (n / 10000), digitByte (n / 1000),
   digitByte (n / 100), digitByte (n / 10), digitByte n]

/-- Go `fmt.Sprintf("%f", x)` for a `float64`: fixed-point with the default
precision 6; `NaN`, `+Inf`, `-Inf` for the non-finite values. -/
def sprintfF : Float64 → GoString
  | .nan => bytes "NaN"
  | .inf false => bytes "+Inf"
  | .inf true => bytes "-Inf"
  | .finite neg m e =>
    let n := scaled6 m e
    (if neg then [B '-'] else []) ++ natDec (n / 10 ^ 6) ++ [B '.'] ++ frac6 n

/-! ## net/url -/

/-- The escaping modes of `net/url` (`encoding`). -/
inductive Encoding
  | encodePath | encodePathSegment | encodeHost | encodeZone
  | encodeUserPassword | encodeQueryComponent | encodeFragment
  deriving DecidableEq

/-- The errors `url.Parse` and `url.QueryUnescape` produce. -/
inductive URLError
  | controlCharacter          -- "net/url: invalid control character in URL"
  | missingScheme             -- "missing protocol scheme"
  | colonInFirstSegment       -- "first path segment in URL cannot contain colon"
  | escape (s : GoString)     -- EscapeError: invalid URL escape
  | invalidHost (s : GoString) -- InvalidHostError
  | missingBracket            -- "missing ']' in host"
  | invalidPort (s : GoString) -- "invalid port ... after host"
  | invalidUserinfo           -- "net/url: invalid userinfo"
  | semicolon                 -- "invalid semicolon separator in query"
  deriving DecidableEq

/-- Go `ishex`. -/
def ishex (c : Byte) : Bool :=
  (B '0' ≤ c && c ≤ B '9') || (B 'a' ≤ c && c ≤ B 'f') || (B 'A' ≤ c && c ≤ B 'F')

/-- Go `unhex`. -/
def unhex (c : Byte) : Byte :=
  if B '0' ≤ c ∧ c ≤ B '9' then c - B '0'
  else if B 'a' ≤ c ∧ c ≤ B 'f' then c - B 'a' + 10
  else if B 'A' ≤ c ∧ c ≤ B 'F' then c - B 'A' + 10
  else 0

/-- Go `upperhex[i]`, the table "0123456789ABCDEF". -/
def upperhex (i : Byte) : Byte :=
  if i < 10 then B '0' + i else B 'A' + (i - 10)

/-- Go `shouldEscape(c, mode)`: whether `c` must be percent-escaped in the
given part of a URL. -/
def shouldEscape (c : Byte) (mode : Encoding) : Bool :=
  if (B 'a' ≤ c && c ≤ B 'z') || (B 'A' ≤ c && c ≤ B 'Z') || (B '0' ≤ c && c ≤ B '9') then
    false
  else if (mode = .encodeHost ∨ mode = .encodeZone) ∧ c ∈ bytes "!$&'()*+,;=:[]<>\"" then
    false
  else if c ∈ bytes "-_.~" then
    false
  else if c ∈ bytes "$&+,/:;=?@" ∧ mode = .encodePath then
    c == B '?'
  else if c ∈ bytes "$&+,/:;=?@" ∧ mode = .encodePathSegment then
    c == B '/' || c == B ';' || c == B ',' || c == B '?'
  else if c ∈ bytes "$&+,/:;=?@" ∧ mode = .encodeUserPassword then
    c == B '@' || c == B '/' || c == B '?' || c == B ':'
  else if c ∈ bytes "$&+,/:;=?@" ∧ mode = .encodeQueryComponent then
    true
  else if c ∈ bytes "$&+,/:;=?@" ∧ mode = .encodeFragment then
    false
  else if mode = .encodeFragment ∧ c ∈ bytes "!()*" then
    false
  else
    true

/-- The first pass of Go `unescape`: checks that every `%` starts a
well-formed escape that the mode allows; `none` when the string is fine. -/
def unescapeCheck (mode : Encoding) : GoString → Option URLError
  | [] => none
  | c :: s =>
    if c = B '%' then
      match s with
      | a :: b :: rest =>
        if !ishex a || !ishex b then some (.escape [c, a, b])
        else if mode = .encodeHost ∧ unhex a < 8 ∧ [c, a, b] ≠ bytes "%25" then
          some (.escape [c, a, b])
        else if mode = .encodeZone ∧ [c, a, b] ≠ bytes "%25" ∧
            (unhex a <<< 4 ||| unhex b) ≠ B ' ' ∧
            shouldEscape (unhex a <<< 4 ||| unhex b) .encodeHost then
          some (.escape [c, a, b])
        else unescapeCheck mode rest
      | short => some (.escape (c :: short))
    else if c = B '+' then unescapeCheck mode s
    else if (mode = .encodeHost ∨ mode = .encodeZone) ∧ c < 0x80 ∧ shouldEscape c mode then
      some (.invalidHost [c])
    else unescapeCheck mode s

/-- The second pass of Go `unescape`: replaces each `%XX` by its byte and, in
query components, `+` by a space.  Runs only after `unescapeCheck` passed, so
the short-escape case is not reached. -/
def unescapeBuild (mode : Encoding) : GoString → GoString
  | [] => []
  | c :: s =>
    if c = B '%' then
      match s with
      | a :: b :: rest => (unhex a <<< 4 ||| unhex b) :: unescapeBuild mode rest
      | _ => []
    else if c = B '+' then
      (if mode = .encodeQueryComponent then B ' ' else B '+') :: unescapeBuild mode s
    else c :: unescapeBuild mode s

/-- Go `unescape(s, mode)`. -/
def unescape (s : GoString) (mode : Encoding) : Except URLError GoString :=
  match unescapeCheck mode s with
  | some e => .error e
  | none => .ok (unescapeBuild mode s)

/-- Go `escape(s, mode)`: a space becomes `+` in a query component, every
other byte that `shouldEscape` selects becomes `%XX` in upper-case hex. -/
def escape (s : GoString) (mode : Encoding) : GoString :=
  s.flatMap fun c =>
    if c = B ' ' ∧ mode = .encodeQueryComponent then [B '+']
    else if shouldEscape c mode then [B '%', upperhex (c >>> 4), upperhex (c &&& 15)]
    else [c]

/-- Go `url.QueryEscape`. -/
def QueryEscape (s : GoString) : GoString := escape s .encodeQueryComponent

/-- Go `url.QueryUnescape`. -/
def QueryUnescape (s : GoString) : Except URLError GoString :=
  unescape s .encodeQueryComponent

/-- Go `url.Userinfo`. -/
structure Userinfo where
  username : GoString
  password : GoString
  passwordSet : Bool
  deriving DecidableEq

/-- Go `url.URL`. -/
structure URL where
  Scheme : GoString := []
  Opaque : GoString := []
  User : Option Userinfo := none
  Host : GoString := []
  Path : GoString := []
  RawPath : GoString := []
  OmitHost : Bool := false
  ForceQuery : Bool := false
  RawQuery : GoString := []
  Fragment : GoString := []
  RawFragment : GoString := []
  deriving DecidableEq

/-- Go `stringContainsCTLByte`: some byte is an ASCII control character. -/
def stringContainsCTLByte (s : GoString) : Bool :=
  s.any fun b => b < B ' ' || b == 0x7f

/-- The loop of Go `getScheme`, at offset `i` with `rest` still to scan. -/
def getSchemeAux (rawURL : GoString) : Nat → GoString → Except URLError (GoString × GoString)
  | _, [] => .ok ([], rawURL)
  | i, c :: rest =>
    if (B 'a' ≤ c ∧ c ≤ B 'z') ∨ (B 'A' ≤ c ∧ c ≤ B 'Z') then
      getSchemeAux rawURL (i + 1) rest
    else if (B '0' ≤ c ∧ c ≤ B '9') ∨ c = B '+' ∨ c = B '-' ∨ c = B '.' then
      if i = 0 then .ok ([], rawURL) else getSchemeAux rawURL (i + 1) rest
    else if c = B ':' then
      if i = 0 then .error .missingScheme else .ok (rawURL.take i, rest)
    else .ok ([], rawURL)

/-- Go `getScheme(rawURL)`: splits off a leading `scheme:`. -/
def getScheme (rawURL : GoString) : Except URLError (GoString × GoString) :=
  getSchemeAux rawURL 0 rawURL

/-- Go `validOptionalPort`: empty, or a colon followed by decimal digits. -/
def validOptionalPort : GoString → Bool
  | [] => true
  | c :: ds => c == B ':' && ds.all fun b => !(b < B '0' || b > B '9')

/-- Go `validUserinfo`. -/
def validUserinfo (s : GoString) : Bool :=
  s.all fun r =>
    (B 'A' ≤ r && r ≤ B 'Z') || (B 'a' ≤ r && r ≤ B 'z') || (B '0' ≤ r && r ≤ B '9') ||
      decide (r ∈ bytes "-._:~!$&'()*+,;=%@")

/-- Go `parseHost`: validates the port and unescapes the host. -/
def parseHost (host : GoString) : Except URLError GoString :=
  let plain : Except URLError GoString := unescape host .encodeHost
  if startsWith host (bytes "[") then
    match lastIndexOf (bytes "]") host with
    | none => .error .missingBracket
    | some i =>
      let colonPort := host.drop (i + 1)
      if !validOptionalPort colonPort then .error (.invalidPort colonPort)
      else
        match indexOf (bytes "%25") (host.take i) with
        | some zone =>
          match unescape (host.take zone) .encodeHost with
          | .error e => .error e
          | .ok host1 =>
            match unescape ((host.take i).drop zone) .encodeZone with
            | .error e => .error e
            | .ok host2 =>
              match unescape (host.drop i) .encodeHost with
              | .error e => .error e
              | .ok host3 => .ok (host1 ++ host2 ++ host3)
        | none => plain
  else
    match lastIndexOf (bytes ":") host with
    | some i =>
      let colonPort := host.drop i
      if !validOptionalPort colonPort then .error (.invalidPort colonPort) else plain
    | none => plain

/-- Go `parseAuthority`: splits `user:password@host`. -/
def parseAuthority (authority : GoString) : Except URLError (Option Userinfo × GoString) :=
  let i := lastIndexOf (bytes "@") authority
  let hostPart := match i with
    | none => authority
    | some i => authority.drop (i + 1)
  match parseHost hostPart with
  | .error e => .error e
  | .ok host =>
    match i with
    | none => .ok (none, host)
    | some i =>
      let userinfo := authority.take i
      if !validUserinfo userinfo then .error .invalidUserinfo
      else if !containsStr userinfo (bytes ":") then
        match unescape userinfo .encodeUserPassword with
        | .error e => .error e
        | .ok name => .ok (some ⟨name, [], false⟩, host)
      else
        let (username, password, _) := cut userinfo (bytes ":")
        match unescape username .encodeUserPassword with
        | .error e => .error e
        | .ok username =>
          match unescape password .encodeUserPassword with
          | .error e => .error e
          | .ok password => .ok (some ⟨username, password, true⟩, host)

/-- Go `(*URL).setPath`. -/
def URL.setPath (u : URL) (p : GoString) : Except URLError URL :=
  match unescape p .encodePath with
  | .error e => .error e
  | .ok path =>
    .ok { u with Path := path, RawPath := if p = escape path .encodePath then [] else p }

/-- Go `(*URL).setFragment`. -/
def URL.setFragment (u : URL) (f : GoString) : Except URLError URL :=
  match unescape f .encodeFragment with
  | .error e => .error e
  | .ok frag =>
    .ok { u with Fragment := frag,
                 RawFragment := if f = escape frag .encodeFragment then [] else f }

/-- Go `parse(rawURL, viaRequest)` with `viaRequest = false`, as `url.Parse`
calls it: scheme, query, authority and path of a URL without its fragment. -/
def parse (rawURL : GoString) : Except URLError URL :=
  if stringContainsCTLByte rawURL then .error .controlCharacter
  else if rawURL = bytes "*" then .ok { Path := bytes "*" }
  else
    match getScheme rawURL with
    | .error e => .error e
    | .ok (scheme, rest0) =>
      let scheme := scheme.map lowerByte
      let forceQuery := endsWith rest0 (bytes "?") && countByte rest0 (B '?') == 1
      let rest := if forceQuery then rest0.take (rest0.length - 1) else (cut rest0 (bytes "?")).1
      let rawQuery := if forceQuery then [] else (cut rest0 (bytes "?")).2.1
      let url : URL := { Scheme := scheme, ForceQuery := forceQuery, RawQuery := rawQuery }
      if !startsWith rest (bytes "/") ∧ scheme ≠ [] then
        .ok { url with Opaque := rest }
      else if !startsWith rest (bytes "/") ∧
          containsStr (cut rest (bytes "/")).1 (bytes ":") then
        .error .colonInFirstSegment
      else if (scheme ≠ [] ∨ !startsWith rest (bytes "///")) ∧ startsWith rest (bytes "//") then
        let authority0 := rest.drop 2
        let authority := match indexOf (bytes "/") authority0 with
          | some i => authority0.take i
          | none => authority0
        let rest := match indexOf (bytes "/") authority0 with
          | some i => authority0.drop i
          | none => []
        match parseAuthority authority with
        | .error e => .error e
        | .ok (user, host) => { url with User := user, Host := host }.setPath rest
      else if scheme ≠ [] ∧ startsWith rest (bytes "/") then
        { url with OmitHost := true }.setPath rest
      else url.setPath rest

/-- Go `url.Parse(rawURL)`: cuts off `#fragment`, parses the rest, then sets
the fragment.  Errors are those of `*url.Error` with `Op = "parse"`. -/
def Parse (rawURL : GoString) : Except URLError URL :=
  let (u, frag, _) := cut rawURL (bytes "#")
  match parse u with
  | .error e => .error e
  | .ok url => if frag = [] then .ok url else url.setFragment frag

/-- Go `url.Values`, a `map[string][]string`: an association list with at
most one entry per key. -/
abbrev Values := List (GoString × List GoString)

/-- The map read `v[key]`: the values of `key`, empty when absent. -/
def Values.lookup (v : Values) (key : GoString) : List GoString :=
  match v with
  | [] => []
  | (k, vs) :: rest => if k = key then vs else Values.lookup rest key

/-- The map write `v[key] = vs`. -/
def Values.put (v : Values) (key : GoString) (vs : List GoString) : Values :=
  match v with
  | [] => [(key, vs)]
  | (k, old) :: rest => if k = key then (k, vs) :: rest else (k, old) :: Values.put rest key vs

/-- Go `Values.Set`: `v[key] = []string{value}`. -/
def Values.Set (v : Values) (key value : GoString) : Values := v.put key [value]

/-- Go `Values.Get`: the first value of `key`, or the empty string. -/
def Values.Get (v : Values) (key : GoString) : GoString := (v.lookup key).headD []

/-- The loop of Go `parseQuery`: one `&`-separated piece per iteration. -/
def parseQueryLoop : Nat → Values → Option URLError → GoString → Values × Option URLError
  | 0, m, err, _ => (m, err)
  | fuel + 1, m, err, query =>
    if query = [] then (m, err)
    else
      let (key, query, _) := cut query (bytes "&")
      if containsStr key (bytes ";") then parseQueryLoop fuel m (some .semicolon) query
      else if key = [] then parseQueryLoop fuel m err query
      else
        let (key, value, _) := cut key (bytes "=")
        match QueryUnescape key with
        | .error err1 => parseQueryLoop fuel m (if err.isNone then some err1 else err) query
        | .ok key =>
          match QueryUnescape value with
          | .error err1 => parseQueryLoop fuel m (if err.isNone then some err1 else err) query
          | .ok value => parseQueryLoop fuel (m.put key (m.lookup key ++ [value])) err query

/-- Go `url.ParseQuery`: the map of all well-formed pairs, and the first
error met (the loop runs at most once per byte of the query). -/
def ParseQuery (query : GoString) : Values × Option URLError :=
  parseQueryLoop query.length [] none query

/-- Go `(*URL).Query`: `ParseQuery(u.RawQuery)` with the error dropped. -/
def URL.Query (u : URL) : Values := (ParseQuery u.RawQuery).1

/-- Go `Values.Encode`: the pairs `key=value`, query-escaped, sorted by key
and joined by `&`. -/
def Values.Encode (v : Values) : GoString :=
  let keys := (v.map Prod.fst).insertionSort (fun a b => strLe a b = true)
  (bytes "&").intercalate
    (keys.flatMap fun k =>
      (v.lookup k).map fun value => QueryEscape k ++ bytes "=" ++ QueryEscape value)

/-! ## unicode/utf8 and unicode/utf16 -/

/-- Go `utf8.RuneError`, U+FFFD. -/
def RuneError : Nat := 0xFFFD

/-- Go `utf8.DecodeRune`: the first rune of `p` and its width in bytes;
`(RuneError, 1)` for an invalid encoding, `(RuneError, 0)` for empty input. -/
def decodeRune (p : GoString) : Nat × Nat :=
  match p with
  | [] => (RuneError, 0)
  | p0 :: rest =>
    let x := p0.toNat
    if x < 0x80 then (x, 1)
    else if x < 0xC2 ∨ 0xF4 < x then (RuneError, 1)
    else
      let sz := if x < 0xE0 then 2 else if x < 0xF0 then 3 else 4
      let lo := if x = 0xE0 then 0xA0 else if x = 0xF0 then 0x90 else 0x80
      let hi := if x = 0xED then 0x9F else if x = 0xF4 then 0x8F else 0xBF
      if p.length < sz then (RuneError, 1)
      else
        let b1 := (rest.getD 0 0).toNat
        let b2 := (rest.getD 1 0).toNat
        let b3 := (rest.getD 2 0).toNat
        if b1 < lo ∨ hi < b1 then (RuneError, 1)
        else if sz ≤ 2 then (x % 32 * 64 + b1 % 64, 2)
        else if b2 < 0x80 ∨ 0xBF < b2 then (RuneError, 1)
        else if sz ≤ 3 then (x % 16 * 4096 + b1 % 64 * 64 + b2 % 64, 3)
        else if b3 < 0x80 ∨ 0xBF < b3 then (RuneError, 1)
        else (x % 8 * 262144 + b1 % 64 * 4096 + b2 % 64 * 64 + b3 % 64, 4)

/-- Go `utf8.ValidString`, run for at most `fuel` runes: every rune decodes
without `RuneError` of width 1. -/
def validUTF8Aux : Nat → GoString → Bool
  | _, [] => true
  | 0, _ :: _ => false
  | fuel + 1, c :: s =>
    let (r, size) := decodeRune (c :: s)
    if r = RuneError ∧ size = 1 then false else validUTF8Aux fuel ((c :: s).drop size)

/-- Go `utf8.ValidString`. -/
def validUTF8 (s : GoString) : Bool := validUTF8Aux s.length s

/-- Go `utf16.IsSurrogate`. -/
def isSurrogate (r : Nat) : Bool := 0xD800 ≤ r && r < 0xE000

/-- Go `utf16.DecodeRune(r1, r2)`: the rune of a surrogate pair, U+FFFD when
the pair is not valid. -/
def utf16DecodeRune (r1 r2 : Nat) : Nat :=
  if 0xD800 ≤ r1 ∧ r1 < 0xDC00 ∧ 0xDC00 ≤ r2 ∧ r2 < 0xE000 then
    (r1 - 0xD800) * 1024 + (r2 - 0xDC00) + 0x10000
  else RuneError

/-! ## encoding/json: syntax -/

/-- A JSON value as `encoding/json` reads it: numbers keep their literal
text, strings and object keys are unquoted, object members keep their order
and their duplicates. -/
inductive JSON
  | null
  | bool (b : Bool)
  | num (lit : GoString)
  | str (s : GoString)
  | arr (items : List JSON)
  | obj (members : List (GoString × JSON))

/-- Go `isSpace` of the JSON scanner. -/
def isSpace (c : Byte) : Bool := c == B ' ' || c == 9 || c == 13 || c == 10

/-- Drops leading JSON white space. -/
def skipSpace : GoString → GoString
  | [] => []
  | c :: s => if isSpace c then skipSpace s else c :: s

/-- Go `getu4`: the value of the four hex digits of a `\uXXXX` escape at the
start of `s`, or `none` (Go's `-1`). -/
def getu4 (s : GoString) : Option Nat :=
  match s with
  | b :: u :: h1 :: h2 :: h3 :: h4 :: _ =>
    if b = 0x5C ∧ u = B 'u' ∧ ishex h1 ∧ ishex h2 ∧ ishex h3 ∧ ishex h4 then
      some ((unhex h1).toNat * 4096 + (unhex h2).toNat * 256 + (unhex h3).toNat * 16 +
        (unhex h4).toNat)
    else none
  | _ => none

/-- The body of a JSON string literal, after its opening quote: the scanner's
check and Go `unquoteBytes` in one pass.  Returns the unquoted bytes and the
input after the closing quote; `none` when the scanner rejects the literal
(a control character, a bad escape, no closing quote).  Invalid UTF-8 is
coerced to U+FFFD, as are unpaired surrogate escapes. -/
def parseStringBody : Nat → GoString → Option (GoString × GoString)
  | 0, _ => none
  | _ + 1, [] => none
  | fuel + 1, c :: s =>
    if c = 0x22 then some ([], s)
    else if c = 0x5C then
      match s with
      | [] => none
      | e :: s1 =>
        let simple (b : Byte) : Option (GoString × GoString) :=
          (parseStringBody fuel s1).map fun (t, rest) => (b :: t, rest)
        if e = 0x22 ∨ e = 0x5C ∨ e = B '/' then simple e
        else if e = B 'b' then simple 8
        else if e = B 'f' then simple 12
        else if e = B 'n' then simple 10
        else if e = B 'r' then simple 13
        else if e = B 't' then simple 9
        else if e = B 'u' then
          match getu4 (c :: s) with
          | none => none
          | some rr =>
            let after := s.drop 5
            if isSurrogate rr then
              let dec := utf16DecodeRune rr ((getu4 after).getD 0)
              if (getu4 after).isSome ∧ dec ≠ RuneError then
                (parseStringBody fuel (after.drop 6)).map fun (t, rest) =>
                  (encodeRune dec ++ t, rest)
              else
                (parseStringBody fuel after).map fun (t, rest) =>
                  (encodeRune RuneError ++ t, rest)
            else
              (parseStringBody fuel after).map fun (t, rest) => (encodeRune rr ++ t, rest)
        else none
    else if c < B ' ' then none
    else if c < 0x80 then
      (parseStringBody fuel s).map fun (t, rest) => (c :: t, rest)
    else
      let (rr, size) := decodeRune (c :: s)
      (parseStringBody fuel ((c :: s).drop size)).map fun (t, rest) =>
        (encodeRune rr ++ t, rest)

/-- Splits off a maximal run of ASCII digits. -/
def spanDigits : GoString → GoString × GoString
  | [] => ([], [])
  | c :: s =>
    if B '0' ≤ c ∧ c ≤ B '9' then
      let (ds, rest) := spanDigits s
      (c :: ds, rest)
    else ([], c :: s)

/-- The optional minus sign of a number literal. -/
def takeSign (s : GoString) : GoString × GoString :=
  match s with
  | c :: r => if c = B '-' then ([c], r) else ([], s)
  | [] => ([], s)

/-- The integer part of a number literal: `0`, or digits that do not start
with `0`. -/
def takeInt (s : GoString) : Option (GoString × GoString) :=
  match spanDigits s with
  | ([], _) => none
  | (d :: ds, r) => if d = B '0' then some ([d], ds ++ r) else some (d :: ds, r)

/-- The optional fraction of a number literal: a point and at least one
digit. -/
def takeFrac (s : GoString) : Option (GoString × GoString) :=
  match s with
  | c :: r =>
    if c = B '.' then
      match spanDigits r with
      | ([], _) => none
      | (d :: ds, r1) => some (c :: d :: ds, r1)
    else some ([], s)
  | [] => some ([], s)

/-- The optional exponent of a number literal: `e` or `E`, an optional sign
and at least one digit. -/
def takeExp (s : GoString) : Option (GoString × GoString) :=
  match s with
  | c :: r =>
    if c = B 'e' ∨ c = B 'E' then
      let signed : GoString × GoString := match r with
        | c1 :: r0 => if c1 = B '+' ∨ c1 = B '-' then ([c1], r0) else ([], r)
        | [] => ([], r)
      match spanDigits signed.2 with
      | ([], _) => none
      | (d :: ds, r2) => some (c :: signed.1 ++ d :: ds, r2)
    else some ([], s)
  | [] => some ([], s)

/-- A JSON number literal at the start of the input, as the scanner accepts
it: `-? (0 | [1-9][0-9]*) (. [0-9]+)? ([eE] [+-]? [0-9]+)?`.  Returns the
literal text and the input after it. -/
def parseNumber (s : GoString) : Option (GoString × GoString) :=
  match takeInt (takeSign s).2 with
  | none => none
  | some (int, s2) =>
    match takeFrac s2 with
    | none => none
    | some (frac, s3) =>
      match takeExp s3 with
      | none => none
      | some (ex, s4) => some ((takeSign s).1 ++ int ++ frac ++ ex, s4)

/-- Go `maxNestingDepth` of the JSON scanner. -/
def maxNestingDepth : Nat := 10000

mutual
/-- One JSON value at the start of the input (no leading white space), at
nesting depth `depth`; returns the value and the input after it. -/
def parseValue : Nat → Nat → GoString → Option (JSON × GoString)
  | 0, _, _ => none
  | _ + 1, _, [] => none
  | fuel + 1, depth, c :: s =>
    if c = B '{' then
      if maxNestingDepth < depth + 1 then none
      else
        match skipSpace s with
        | c1 :: s1 =>
          if c1 = B '}' then some (.obj [], s1)
          else (parseMembers fuel (depth + 1) (c1 :: s1)).map fun (ms, rest) => (.obj ms, rest)
        | [] => none
    else if c = B '[' then
      if maxNestingDepth < depth + 1 then none
      else
        match skipSpace s with
        | c1 :: s1 =>
          if c1 = B ']' then some (.arr [], s1)
          else (parseElems fuel (depth + 1) (c1 :: s1)).map fun (js, rest) => (.arr js, rest)
        | [] => none
    else if c = 0x22 then
      (parseStringBody (s.length + 1) s).map fun (t, rest) => (.str t, rest)
    else if startsWith (c :: s) (bytes "true") then some (.bool true, s.drop 3)
    else if startsWith (c :: s) (bytes "false") then some (.bool false, s.drop 4)
    else if startsWith (c :: s) (bytes "null") then some (.null, s.drop 3)
    else (parseNumber (c :: s)).map fun (lit, rest) => (.num lit, rest)
/-- The elements of an array after `[`, up to and including the closing `]`;
the input starts at the first element. -/
def parseElems : Nat → Nat → GoString → Option (List JSON × GoString)
  | 0, _, _ => none
  | fuel + 1, depth, s =>
    match parseValue fuel depth s with
    | none => none
    | some (j, rest) =>
      match skipSpace rest with
      | c :: r =>
        if c = B ',' then
          (parseElems fuel depth (skipSpace r)).map fun (js, rest) => (j :: js, rest)
        else if c = B ']' then some ([j], r)
        else none
      | [] => none
/-- The members of an object after `{`, up to and including the closing `}`;
the input starts at the first key. -/
def parseMembers : Nat → Nat → GoString → Option (List (GoString × JSON) × GoString)
  | 0, _, _ => none
  | fuel + 1, depth, s =>
    match s with
    | q :: s0 =>
      if q = 0x22 then
        match parseStringBody (s0.length + 1) s0 with
        | none => none
        | some (key, r0) =>
          match skipSpace r0 with
          | colon :: r1 =>
            if colon = B ':' then
              match parseValue fuel depth (skipSpace r1) with
              | none => none
              | some (j, rest) =>
                match skipSpace rest with
                | c :: r =>
                  if c = B ',' then
                    (parseMembers fuel depth (skipSpace r)).map fun (ms, rest) =>
                      ((key, j) :: ms, rest)
                  else if c = B '}' then some ([(key, j)], r)
                  else none
                | [] => none
            else none
          | [] => none
      else none
    | [] => none
end

/-- The scanner's `checkValid` together with the reading of the value: the
input must be exactly one JSON value between optional white space. -/
def parseJSON (data : GoString) : Option JSON :=
  match parseValue (data.length + 1) 0 (skipSpace data) with
  | some (j, rest) => if skipSpace rest = [] then some j else none
  | none => none

/-! ## strconv: reading numbers -/

/-- The value of a run of ASCII digits. -/
def decValue (ds : GoString) : Nat :=
  ds.foldl (fun n d => n * 10 + (d.toNat - 48)) 0

/-- Whether every byte is an ASCII digit. -/
def allDigits (ds : GoString) : Bool := ds.all fun c => B '0' ≤ c && c ≤ B '9'

/-- Go `strconv.ParseInt(lit, 10, 64)` on a JSON number literal, followed by
the `OverflowInt` check for Go `int` (64 bits): the literal must be an
optional minus sign and digits only, and its value must fit in 64 bits. -/
def parseInt (lit : GoString) : Option Int :=
  let neg := startsWith lit (bytes "-")
  let ds := if neg then lit.drop 1 else lit
  if ds = [] ∨ !allDigits ds then none
  else
    let n : Int := if neg then -(decValue ds : Int) else (decValue ds : Int)
    if -(2 : Int) ^ 63 ≤ n ∧ n < (2 : Int) ^ 63 then some n else none

/-- The number of binary digits of `n`, computed with `fuel` halvings. -/
def bitLenAux : Nat → Nat → Nat
  | 0, _ => 0
  | fuel + 1, n => if n = 0 then 0 else bitLenAux fuel (n / 2) + 1

/-- The number of binary digits of `n` (0 for 0). -/
def bitLen (n : Nat) : Nat := bitLenAux n n

/-- Whether `2^k ≤ num / den`. -/
def geTwoPow (num den : Nat) (k : Int) : Bool :=
  if 0 ≤ k then decide (den * 2 ^ k.toNat ≤ num) else decide (den ≤ num * 2 ^ (-k).toNat)

/-- The binary64 value nearest to `num / den` (ties to even), with the given
sign; `none` when it overflows to an infinity, which `strconv.ParseFloat`
reports as a range error. -/
def roundFloat (neg : Bool) (num den : Nat) : Option Float64 :=
  if num = 0 then some (.finite neg 0 (-1074))
  else
    let k0 : Int := (bitLen num : Int) - (bitLen den : Int)
    let k : Int := if geTwoPow num den k0 then k0 else k0 - 1
    let e : Int := max (k - 52) (-1074)
    let m : Nat :=
      if 0 ≤ e then roundHalfEven num (den * 2 ^ e.toNat)
      else roundHalfEven (num * 2 ^ (-e).toNat) den
    let m1 : Nat := if m = 2 ^ 53 then 2 ^ 52 else m
    let e1 : Int := if m = 2 ^ 53 then e + 1 else e
    if 971 < e1 then none else some (.finite neg m1 e1)

/-- Go `strconv.ParseFloat(lit, 64)` on a JSON number literal: the nearest
binary64 value, `none` for a value out of range. -/
def parseFloat (lit : GoString) : Option Float64 :=
  let neg := startsWith lit (bytes "-")
  let s1 := if neg then lit.drop 1 else lit
  let (int, s2) := spanDigits s1
  let (frac, s3) := if startsWith s2 (bytes ".") then spanDigits (s2.drop 1) else ([], s2)
  let eneg := startsWith (s3.drop 1) (bytes "-")
  let eds := if eneg ∨ startsWith (s3.drop 1) (bytes "+") then s3.drop 2 else s3.drop 1
  let ex : Int := if eneg then -(decValue eds : Int) else (decValue eds : Int)
  let exp10 : Int := ex - (frac.length : Int)
  let digits := decValue (int ++ frac)
  if 0 ≤ exp10 then roundFloat neg (digits * 10 ^ exp10.toNat) 1
  else roundFloat neg digits (10 ^ (-exp10).toNat)

/-! ## encoding/json: decoding into Go values -/

/-- The Go types of the program, as `reflect` shows them to `encoding/json`.
A struct field is its Go name, the name in its `json` tag, whether the tag
has `omitempty`, and its type. -/
inductive Ty
  | int
  | float64
  | string
  | slice (elem : Ty)
  | struct (name : String) (fields : List (String × String × Bool × Ty))

/-- A struct field declaration: Go name, JSON name, `omitempty`, type. -/
abbrev FieldDecl := String × String × Bool × Ty

/-- The JSON name of a field. -/
def FieldDecl.tag (f : FieldDecl) : String := f.2.1

/-- The type of a field. -/
def FieldDecl.ty (f : FieldDecl) : Ty := f.2.2.2

/-- Go `reflect.Type.String()`. -/
def Ty.name : Ty → String
  | .int => "int"
  | .float64 => "float64"
  | .string => "string"
  | .slice e => "[]" ++ e.name
  | .struct n _ => "main." ++ n

/-- A Go value of one of these types.  A slice is its nil flag, its elements
and `spare`, the elements of its backing array beyond its length (they are
not visible in the slice, but `encoding/json` decodes into them when it
extends the slice); a struct is the list of its field values. -/
inductive Val
  | int (i : Int)
  | float (f : Float64)
  | str (s : GoString)
  | slice (isNil : Bool) (elems : List Val) (spare : List Val)
  | struct (fields : List Val)

mutual
/-- The zero value of a type. -/
def Ty.zero : Ty → Val
  | .int => .int 0
  | .float64 => .float (.finite false 0 (-1074))
  | .string => .str []
  | .slice _ => .slice true [] []
  | .struct _ fs => .struct (Ty.zeros fs)
/-- The zero values of the fields of a struct. -/
def Ty.zeros : List (String × String × Bool × Ty) → List Val
  | [] => []
  | (_, _, _, t) :: fs => t.zero :: Ty.zeros fs
end

/-- The errors `json.Unmarshal` returns. -/
inductive JSONError
  | syntax_ -- *json.SyntaxError: the input is not one well-formed JSON value
  | unmarshalType (value : GoString) (type : String) -- *json.UnmarshalTypeError
  deriving DecidableEq

/-- Go `(*decodeState).saveError`: keeps the first error. -/
def saveError (saved : Option JSONError) (e : JSONError) : Option JSONError :=
  match saved with
  | some e0 => some e0
  | none => some e

/-- Simple case folding on the runes whose orbit meets ASCII: the Kelvin sign
folds to `K` and the long s to `S`.  On every other non-ASCII rune Go's
`foldRune` returns the least rune of its orbit, which is again non-ASCII; the
model keeps the rune itself, which decides equality with an ASCII name in the
same way. -/
def foldRune (r : Nat) : Nat :=
  if r = 0x212A then 0x4B else if r = 0x17F then 0x53 else r

/-- Go `foldName` (`appendFoldedName`), run for at most `fuel` runes: ASCII
letters to upper case, other runes folded by `foldRune`. -/
def foldNameAux : Nat → GoString → GoString
  | _, [] => []
  | 0, _ :: _ => []
  | fuel + 1, c :: s =>
    if c < 0x80 then
      (if B 'a' ≤ c ∧ c ≤ B 'z' then c - 32 else c) :: foldNameAux fuel s
    else
      let (r, n) := decodeRune (c :: s)
      encodeRune (foldRune r) ++ foldNameAux fuel ((c :: s).drop n)

/-- Go `foldName`. -/
def foldName (s : GoString) : GoString := foldNameAux s.length s

/-- The field a JSON object key selects: the field with exactly that JSON
name, else the first field whose folded name equals the folded key. -/
def findField (fs : List FieldDecl) (key : GoString) : Option Nat :=
  match fs.findIdx? (fun f => decide (bytes f.tag = key)) with
  | some i => some i
  | none => fs.findIdx? (fun f => decide (foldName (bytes f.tag) = foldName key))

mutual
/-- Go `(*decodeState).value`: decodes one JSON value into the Go value `v`
of type `ty`.  A value of the wrong kind records an `UnmarshalTypeError` and
leaves `v` as it is; decoding goes on, and the first error is kept. -/
def decodeValue : Ty → JSON → Val → Option JSONError → Val × Option JSONError
  | ty, .null, v, err =>
    match ty with
    | .slice _ => (.slice true [] [], err)
    | _ => (v, err)
  | ty, .bool _, v, err => (v, saveError err (.unmarshalType (bytes "bool") ty.name))
  | ty, .str s, v, err =>
    match ty with
    | .string => (.str s, err)
    | _ => (v, saveError err (.unmarshalType (bytes "string") ty.name))
  | ty, .num lit, v, err =>
    match ty with
    | .int =>
      match parseInt lit with
      | some n => (.int n, err)
      | none => (v, saveError err (.unmarshalType (bytes "number " ++ lit) ty.name))
    | .float64 =>
      match parseFloat lit with
      | some f => (.float f, err)
      | none => (v, saveError err (.unmarshalType (bytes "number " ++ lit) ty.name))
    | _ => (v, saveError err (.unmarshalType (bytes "number") ty.name))
  | ty, .arr items, v, err =>
    match ty with
    | .slice elem =>
      let backing := match v with
        | .slice _ elems spare => elems ++ spare
        | _ => []
      match items with
      | [] => (.slice false [] [], err)
      | _ :: _ =>
        let r := decodeElems elem items backing err
        (.slice false r.1 (backing.drop items.length), r.2)
    | _ => (v, saveError err (.unmarshalType (bytes "array") ty.name))
  | ty, .obj members, v, err =>
    match ty with
    | .struct _ fs =>
      let old := match v with
        | .struct vs => vs
        | _ => Ty.zeros fs
      let r := decodeMembers fs members old err
      (.struct r.1, r.2)
    | _ => (v, saveError err (.unmarshalType (bytes "object") ty.name))
/-- The loop of Go `(*decodeState).array` on a slice: the i-th item is
decoded into the i-th element of the backing array, or into a zero element
when the slice has to grow. -/
def decodeElems : Ty → List JSON → List Val → Option JSONError → List Val × Option JSONError
  | _, [], _, err => ([], err)
  | elem, j :: js, backing, err =>
    let r1 := decodeValue elem j (backing.headD elem.zero) err
    let r2 := decodeElems elem js backing.tail r1.2
    (r1.1 :: r2.1, r2.2)
/-- The loop of Go `(*decodeState).object` on a struct: each member whose key
selects a field is decoded into that field, in the order of the input; the
value of any other member is skipped. -/
def decodeMembers : List FieldDecl → List (GoString × JSON) → List Val → Option JSONError →
    List Val × Option JSONError
  | _, [], vs, err => (vs, err)
  | fs, (key, j) :: ms, vs, err =>
    match findField fs key with
    | some i =>
      let r := decodeValue ((fs.getD i ("", "", false, .int)).ty) j (vs.getD i (.int 0)) err
      decodeMembers fs ms (vs.set i r.1) r.2
    | none => decodeMembers fs ms vs err
end

/-- Go `json.Unmarshal(data, &v)` for `v` of type `ty`: the new contents of
`v` and the error returned.  The input is checked first; when it is not valid
JSON, `v` is not touched. -/
def Unmarshal (data : GoString) (ty : Ty) (v : Val) : Val × Option JSONError :=
  match parseJSON data with
  | none => (v, some .syntax_)
  | some j => decodeValue ty j v none

/-! ## weather.go: the types -/

/-- Go `type Coordinates struct { Lat, Lon float64 }`, as the request
parameters hold it. -/
structure Coordinates where
  Lat : Float64
  Lon : Float64
  deriving DecidableEq

/-- Go `type weatherParams struct`. -/
structure weatherParams where
  BaseURL : GoString
  APPID : GoString
  Coord : Coordinates
  deriving DecidableEq

/-- Go `type Coordinates struct` with its `json` tags. -/
def Ty.Coordinates : Ty :=
  .struct "Coordinates" [("Lat", "lat", false, .float64), ("Lon", "lon", false, .float64)]

/-- Go `type Info struct`. -/
def Ty.Info : Ty :=
  .struct "Info" [("ID", "id", false, .int), ("Main", "main", false, .string),
    ("Description", "description", false, .string), ("Icon", "icon", false, .string)]

/-- Go `type Reading struct`. -/
def Ty.Reading : Ty :=
  .struct "Reading" [("Temp", "temp", false, .float64), ("Pressure", "pressure", false, .int),
    ("Humidity", "humidity", false, .int), ("TempMin", "temp_min", false, .float64),
    ("TempMax", "temp_max", false, .float64)]

/-- Go `type Wind struct`. -/
def Ty.Wind : Ty :=
  .struct "Wind" [("Speed", "speed", false, .float64), ("Deg", "deg", false, .float64)]

/-- Go `type Clouds struct`. -/
def Ty.Clouds : Ty := .struct "Clouds" [("All", "all", false, .int)]

/-- Go `type Sys2 struct`. -/
def Ty.Sys2 : Ty :=
  .struct "Sys2" [("Type", "type", false, .int), ("ID", "id", false, .int),
    ("Message", "message", false, .float64), ("Country", "country", false, .string),
    ("Sunrise", "sunrise", false, .int), ("Sunset", "sunset", false, .int)]

/-- Go `type CurrentWeather struct`. -/
def Ty.CurrentWeather : Ty :=
  .struct "CurrentWeather" [("Coord", "coord", false, Ty.Coordinates),
    ("Weather", "weather", false, .slice Ty.Info), ("Base", "base", false, .string),
    ("Main", "main", false, Ty.Reading), ("Visibility", "visibility", false, .int),
    ("Wind", "wind", false, Ty.Wind), ("Clouds", "clouds", false, Ty.Clouds),
    ("Dt", "dt", false, .int), ("Sys", "sys", false, Ty.Sys2), ("ID", "id", false, .int),
    ("Name", "name", false, .string), ("Cod", "cod", false, .int)]

/-- Go `type Main struct`. -/
def Ty.Main : Ty :=
  .struct "Main" [("Temp", "temp", false, .float64), ("TempMin", "temp_min", false, .float64),
    ("TempMax", "temp_max", false, .float64), ("Pressure", "pressure", false, .float64),
    ("SeaLevel", "sea_level", false, .float64), ("GrndLevel", "grnd_level", false, .float64),
    ("Humidity", "humidity", false, .int), ("TempKf", "temp_kf", false, .float64)]

/-- Go `type Weather struct`. -/
def Ty.Weather : Ty :=
  .struct "Weather" [("ID", "id", false, .int), ("Main", "main", false, .string),
    ("Description", "description", false, .string), ("Icon", "icon", false, .string)]

/-- Go `type Sys struct`. -/
def Ty.Sys : Ty := .struct "Sys" [("Pod", "pod", false, .string)]

/-- Go `type Rain struct`. -/
def Ty.Rain : Ty := .struct "Rain" [("ThreeH", "3h", false, .float64)]

/-- Go `type Item struct`; `Rain` is tagged `json:"rain,omitempty"`. -/
def Ty.Item : Ty :=
  .struct "Item" [("Dt", "dt", false, .int), ("Main", "main", false, Ty.Main),
    ("Weather", "weather", false, .slice Ty.Weather), ("Clouds", "clouds", false, Ty.Clouds),
    ("Wind", "wind", false, Ty.Wind), ("Sys", "sys", false, Ty.Sys),
    ("DtTxt", "dt_txt", false, .string), ("Rain", "rain", true, Ty.Rain)]

/-- Go `type City struct`. -/
def Ty.City : Ty :=
  .struct "City" [("ID", "id", false, .int), ("Name", "name", false, .string),
    ("Coord", "coord", false, Ty.Coordinates), ("Country", "country", false, .string),
    ("Population", "population", false, .int)]

/-- Go `type Forecast struct`. -/
def Ty.Forecast : Ty :=
  .struct "Forecast" [("Cod", "cod", false, .string), ("Message", "message", false, .float64),
    ("Cnt", "cnt", false, .int), ("List", "list", false, .slice Ty.Item),
    ("City", "city", false, Ty.City)]

/-! ## weather.go: the HTTP exchange and the functions -/

/-- What the program sees of a Go `*http.Response`: the status, and what
`ioutil.ReadAll(resp.Body)` would return (the bytes, or a read error). -/
structure Response where
  StatusCode : Int
  Status : GoString
  Body : Except GoString GoString

/-- The Go `error` values the program returns. -/
inductive Error
  | url (e : URLError)          -- from `url.Parse`
  | request (msg : GoString)    -- from `http.NewRequest`
  | transport (msg : GoString)  -- from `client.Do`
  | status (status : GoString)  -- `fmt.Errorf("Got %q", resp.Status)`
  | read (msg : GoString)       -- from `ioutil.ReadAll`
  | json (e : JSONError)        -- from `json.Unmarshal`
  deriving DecidableEq

/-- The observable steps of a run, in order. -/
inductive Event
  | send (u : URL)        -- `client.Do(request)`: a GET request for `u` goes out
  | readAll               -- `ioutil.ReadAll(resp.Body)`
  | close                 -- the deferred `resp.Body.Close()`
  | print (record : Val)  -- `fmt.Printf("%+v\n", record)` on standard output
  | fatal (err : Error)   -- `log.Fatal(err)`: the error on standard error, exit status 1

/-- The network as the program meets it: whether `http.NewRequest("GET",
u.String(), nil)` accepts the URL, and what `client.Do` returns for a request
(with its 30 second timeout), given the events so far. -/
structure Net where
  newRequest : URL → Except GoString Unit
  roundTrip : List Event → URL → Except GoString Response

/-- Lines 87 to 97 of `apiCall`: the URL of the request, with its query. -/
def apiCallURL (p : weatherParams) (path : GoString) : Except URLError URL :=
  match Parse (p.BaseURL ++ path) with
  | .error err => .error err
  | .ok u =>
    let q := u.Query
    let q := q.Set (bytes "APPID") p.APPID
    let q := q.Set (bytes "lat") (sprintfF p.Coord.Lat)
    let q := q.Set (bytes "lon") (sprintfF p.Coord.Lon)
    .ok { u with RawQuery := q.Encode }

/-- The result of a Go function returning `(T, error)`, with the events of
the run so far. -/
structure Result (α : Type) where
  val : Option α
  err : Option Error
  log : List Event

/-- Go `func apiCall(p weatherParams, path string) ([]byte, error)`. -/
def apiCall (net : Net) (p : weatherParams) (path : GoString) (log : List Event) :
    Result GoString :=
  match apiCallURL p path with
  | .error err => ⟨none, some (.url err), log⟩
  | .ok u =>
    match net.newRequest u with
    | .error err => ⟨none, some (.request err), log⟩
    | .ok _ =>
      match net.roundTrip log u with
      | .error err => ⟨none, some (.transport err), log ++ [.send u]⟩
      | .ok resp =>
        if resp.StatusCode = 200 then
          match resp.Body with
          | .error err => ⟨none, some (.read err), log ++ [.send u, .readAll, .close]⟩
          | .ok raw => ⟨some raw, none, log ++ [.send u, .readAll, .close]⟩
        else ⟨none, some (.status resp.Status), log ++ [.send u, .close]⟩

/-- Go `func currentWeather(p weatherParams) (*CurrentWeather, error)`. -/
def currentWeather (net : Net) (p : weatherParams) (log : List Event) : Result Val :=
  let r := apiCall net p (bytes "weather") log
  match r.err with
  | some err => ⟨none, some err, r.log⟩
  | none =>
    let cur := Ty.CurrentWeather.zero
    let res := Unmarshal (r.val.getD []) Ty.CurrentWeather cur
    match res.2 with
    | some err => ⟨none, some (.json err), r.log⟩
    | none => ⟨some res.1, none, r.log⟩

/-- Go `func forecast(p weatherParams) (*Forecast, error)`. -/
def forecast (net : Net) (p : weatherParams) (log : List Event) : Result Val :=
  let r := apiCall net p (bytes "forecast") log
  match r.err with
  | some err => ⟨none, some err, r.log⟩
  | none =>
    let cur := Ty.Forecast.zero
    let res := Unmarshal (r.val.getD []) Ty.Forecast cur
    match res.2 with
    | some err => ⟨none, some (.json err), r.log⟩
    | none => ⟨some res.1, none, r.log⟩

/-- Go `func main()`, after `flag.Parse()` has set the four flag variables:
the events of the run and the exit status. -/
def main (net : Net) (baseURL appID : GoString) (latitude longitude : Float64) :
    List Event × Nat :=
  let p : weatherParams := { BaseURL := baseURL, APPID := appID,
                             Coord := { Lat := latitude, Lon := longitude } }
  let r := currentWeather net p []
  match r.err with
  | some err => (r.log ++ [.fatal err], 1)
  | none =>
    let log := r.log ++ [.print (r.val.getD Ty.CurrentWeather.zero)]
    let r := forecast net p log
    match r.err with
    | some err => (r.log ++ [.fatal err], 1)
    | none => (r.log ++ [.print (r.val.getD Ty.Forecast.zero)], 0)

/-! ## Definitions used by the statements -/

/-- The records a run printed on standard output, in order. -/
def printed : List Event → List Val
  | [] => []
  | .print r :: es => r :: printed es
  | _ :: es => printed es

/-- A server that answers the current-conditions request with status 200 and
the body `{}`, and every other request with status 500. -/
def netForecastDown : Net where
  newRequest := fun _ => .ok ()
  roundTrip := fun _ u =>
    if endsWith u.Path (bytes "weather") then
      .ok { StatusCode := 200, Status := bytes "200 OK", Body := .ok (bytes "\x7b\x7d") }
    else
      .ok { StatusCode := 500, Status := bytes "500 Internal Server Error", Body := .ok [] }

/-- A server that answers every request with status 404 and a JSON body. -/
def netNotFound : Net where
  newRequest := fun _ => .ok ()
  roundTrip := fun _ _ =>
    .ok { StatusCode := 404, Status := bytes "404 Not Found",
          Body := .ok (bytes "\x7b\"cod\":\"404\"\x7d") }

/-- The request parameters of the specification's example. -/
def exampleParams : weatherParams where
  BaseURL := bytes "https://api.example.com/data/2.5/"
  APPID := bytes "abc"
  Coord := { Lat := .finite true 5706332914180898 (-48),
             Lon := .finite false 8707249386458955 (-48) }

/-- The URL `apiCall` builds for the example and the path `weather`. -/
def exampleURL : URL where
  Scheme := bytes "https"
  Host := bytes "api.example.com"
  Path := bytes "/data/2.5/weather"
  RawQuery := bytes "APPID=abc&lat=-20.272967&lon=30.934364"

/-- The escaped form of one byte in a query component. -/
def escapeByte (c : Byte) : GoString :=
  if c = B ' ' ∧ Encoding.encodeQueryComponent = .encodeQueryComponent then [B '+']
  else if shouldEscape c .encodeQueryComponent then [B '%', upperhex (c >>> 4), upperhex (c &&& 15)]
  else [c]

/-- The text `key=value` of one pair in an encoded query. -/
def queryPiece (kv : GoString × GoString) : GoString :=
  QueryEscape kv.1 ++ B '=' :: QueryEscape kv.2

/-- Go `m[key] = append(m[key], value)`. -/
def Values.add (m : Values) (kv : GoString × GoString) : Values :=
  m.put kv.1 (m.lookup kv.1 ++ [kv.2])

/-- The pairs of a `Values` map in the order `Encode` writes them. -/
def encodePairs (v : Values) : List (GoString × GoString) :=
  ((v.map Prod.fst).insertionSort (fun a b => strLe a b = true)).flatMap fun k =>
    (v.lookup k).map fun value => (k, value)

/-- The values an encoded query string gives a key, as `url.ParseQuery` reads
them: one entry per occurrence of the key. -/
def queryValues (rawQuery key : GoString) : List GoString :=
  (ParseQuery rawQuery).1.lookup key

/-- Reads a numeral of the form `-?[0-9]+.[0-9]{6}`: its sign and its value
in millionths; `none` for any other text. -/
def readFixed6 (s : GoString) : Option (Bool × Nat) :=
  let neg := startsWith s (bytes "-")
  let body := if neg then s.drop 1 else s
  match spanDigits body with
  | (int, dot :: frac) =>
    if dot = B '.' ∧ int ≠ [] ∧ frac.length = 6 ∧ allDigits frac = true then
      some (neg, decValue int * 10 ^ 6 + decValue frac)
    else none
  | (_, []) => none

/-- The example parameters with a base URL that carries a query of its own. -/
def paramsWithQuery : weatherParams :=
  { exampleParams with BaseURL := bytes "https://api.example.com/data/2.5/?units=metric&q=" }

/-- The example parameters with the latitude NaN, as `-latitude NaN` sets
it. -/
def paramsNaN : weatherParams :=
  { exampleParams with Coord := { Lat := .nan, Lon := exampleParams.Coord.Lon } }

mutual
/-- Whether decoding `j` into a value of type `ty` meets a value of the wrong
kind: a non-null JSON value that is not what the type takes (a number that
`ParseInt` or `ParseFloat` rejects counts), in `j` itself, in an element of an
array decoded into a slice, or in a member of an object whose key selects a
struct field.  JSON `null` is never of the wrong kind, and the values of
members that select no field are not looked at. -/
def badAt : Ty → JSON → Bool
  | _, .null => false
  | ty, .bool _ => true
  | ty, .str _ =>
    match ty with
    | .string => false
    | _ => true
  | ty, .num lit =>
    match ty with
    | .int => (parseInt lit).isNone
    | .float64 => (parseFloat lit).isNone
    | _ => true
  | ty, .arr items =>
    match ty with
    | .slice elem => badAtElems elem items
    | _ => true
  | ty, .obj members =>
    match ty with
    | .struct _ fs => badAtMembers fs members
    | _ => true
/-- Whether some element of an array is of the wrong kind for `elem`. -/
def badAtElems : Ty → List JSON → Bool
  | _, [] => false
  | elem, j :: js => badAt elem j || badAtElems elem js
/-- Whether some member that selects a field is of the wrong kind for it. -/
def badAtMembers : List FieldDecl → List (GoString × JSON) → Bool
  | _, [] => false
  | fs, (key, j) :: ms =>
    (match findField fs key with
      | some i => badAt ((fs.getD i ("", "", false, .int)).ty) j
      | none => false) || badAtMembers fs ms
end

/-- The field declarations of a struct type (none for the other types). -/
def Ty.fields : Ty → List FieldDecl
  | .struct _ fs => fs
  | _ => []

/-- The field values of a struct value. -/
def Val.fields : Val → List Val
  | .struct vs => vs
  | _ => []

/-- The elements of a slice value. -/
def Val.elems : Val → List Val
  | .slice _ es _ => es
  | _ => []

/-- The field with Go name `goName` of a value `v` of the struct type `ty`. -/
def Val.get (ty : Ty) (goName : String) (v : Val) : Val :=
  match ty.fields.findIdx? (fun f => f.1 == goName) with
  | some i => v.fields.getD i (.int 0)
  | none => .int 0

/-- The type of the `i`-th field of a struct. -/
def fieldTy (fs : List FieldDecl) (i : Nat) : Ty := (fs.getD i ("", "", false, .int)).ty

/-- Whether no member of the object selects the `i`-th field. -/
def noneSelects (fs : List FieldDecl) (i : Nat) (ms : List (GoString × JSON)) : Prop :=
  ∀ m ∈ ms, findField fs m.1 ≠ some i

/-- The request for `path` is answered: the URL `u` is built, the request is
accepted and sent, and the response has status 200 and the body `body`. -/
def answered (net : Net) (p : weatherParams) (path : GoString) (log : List Event) (u : URL)
    (body : GoString) : Prop :=
  apiCallURL p path = .ok u ∧ net.newRequest u = .ok () ∧
    ∃ resp, net.roundTrip log u = .ok resp ∧ resp.StatusCode = 200 ∧ resp.Body = .ok body

/-- A server that answers every request with status 200 and the given
body. -/
def netBody (body : GoString) : Net where
  newRequest := fun _ => .ok ()
  roundTrip := fun _ _ => .ok { StatusCode := 200, Status := bytes "200 OK", Body := .ok body }

/-- Whether the object key `key` selects the field with Go name `goName` of
the struct type `ty`. -/
def selects (ty : Ty) (goName : String) (key : GoString) : Bool :=
  match findField ty.fields key, ty.fields.findIdx? (fun f => f.1 == goName) with
  | some i, some k => i == k
  | _, _ => false

/-! ## encoding/json: encoding Go values -/

/-- Go `strconv.AppendInt(i, 10)`. -/
def formatInt (i : Int) : GoString :=
  if i < 0 then B '-' :: natDec (-i).toNat else natDec i.toNat

/-- The exact decimal expansion of `mant * 2^exp`: `(E, t)` with
`mant * 2^exp = E / 10^t`. -/
def expansion (mant : Nat) (exp : Int) : Nat × Nat :=
  if 0 ≤ exp then (mant * 2 ^ exp.toNat, 0) else (mant * 5 ^ (-exp).toNat, (-exp).toNat)

/-- Whether `strconv.ParseFloat` reads the decimal `c * 10^i / 10^t` as the
float `mant * 2^exp`. -/
def readsBack (mant : Nat) (exp : Int) (t c i : Nat) : Bool :=
  decide (roundFloat false (c * 10 ^ i) (10 ^ t) = some (.finite false mant exp))

/-- The search of `strconv` for the shortest decimal that reads back as the
float: `E / 10^t` is the exact expansion; dropping the last `i` digits of `E`
gives the candidates `lo` (rounded down) and `lo + 1` (rounded up).  The first
`i`, from the largest down, at which a candidate reads back is taken; when
both do, the one nearer to the exact value (on a tie the even one).  Returns
the digits as a number and the count of dropped digits. -/
def shortestAux (mant : Nat) (exp : Int) (E t : Nat) : Nat → Nat × Nat
  | 0 => (E, 0)
  | i + 1 =>
    let p := 10 ^ (i + 1)
    let lo := E / p
    let r := E % p
    let okdown := readsBack mant exp t lo (i + 1)
    let okup := decide (r ≠ 0) && readsBack mant exp t (lo + 1) (i + 1)
    if okdown && okup then
      if 2 * r > p ∨ (2 * r = p ∧ lo % 2 = 1) then (lo + 1, i + 1) else (lo, i + 1)
    else if okdown then (lo, i + 1)
    else if okup then (lo + 1, i + 1)
    else shortestAux mant exp E t i

/-- Drops trailing ASCII zeros. -/
def trimZeros (ds : GoString) : GoString :=
  (ds.reverse.dropWhile (· == B '0')).reverse

/-- The shortest decimal digits of the non-zero float `mant * 2^exp` and the
position `dp` of the decimal point: the value reads `0.d1d2...dn * 10^dp`. -/
def shortest (mant : Nat) (exp : Int) : GoString × Int :=
  let (E, t) := expansion mant exp
  let (c, i) := shortestAux mant exp E t ((natDec E).length - 1)
  (trimZeros (natDec c), ((natDec c).length : Int) + (i : Int) - (t : Int))

/-- Go `fmtF` with the shortest precision: `ddd.ddd`, no exponent. -/
def fmtF (ds : GoString) (dp : Int) : GoString :=
  let nd : Int := ds.length
  let int : GoString :=
    if 0 < dp then ds.take dp.toNat ++ List.replicate (dp.toNat - ds.length) (B '0')
    else [B '0']
  let frac : GoString :=
    if dp < nd then
      B '.' :: (List.replicate (-dp).toNat (B '0') ++ ds.drop dp.toNat)
    else []
  int ++ frac

/-- Go `fmtE` with the shortest precision, after the clean-up of
`encoding/json` that writes `e-07` as `e-7`: `d.ddde±dd`. -/
def fmtE (ds : GoString) (dp : Int) : GoString :=
  let first := ds.take 1
  let more := if 1 < ds.length then B '.' :: ds.drop 1 else []
  let ex : Int := dp - 1
  let sign := if ex < 0 then B '-' else B '+'
  let mag := ex.natAbs
  let digits :=
    if mag < 10 then [B '0', digitByte mag]
    else natDec mag
  let cleaned := if mag < 10 then [digitByte mag] else digits
  first ++ more ++ [B 'e', sign] ++ cleaned

/-- Whether `mant * 2^exp < a * 2^b`. -/
def ltDyadic (mant : Nat) (exp : Int) (a : Nat) (b : Int) : Bool :=
  let lo := min exp b
  decide (mant * 2 ^ (exp - lo).toNat < a * 2 ^ (b - lo).toNat)

/-- The float encoder of `encoding/json` (`floatEncoder`) for a finite
`float64`: the shortest decimal that reads back, without exponent unless the
magnitude is below `1e-6` or at least `1e21`. -/
def formatFloat (neg : Bool) (mant : Nat) (exp : Int) : GoString :=
  let sign := if neg then [B '-'] else []
  if mant = 0 then sign ++ [B '0']
  else
    let (ds, dp) := shortest mant exp
    let useE := ltDyadic mant exp 4722366482869645 (-72) ||
      !ltDyadic mant exp 7629394531250000 17
    sign ++ (if useE then fmtE ds dp else fmtF ds dp)

/-- Go `hex` of `encoding/json`, the table "0123456789abcdef". -/
def lowerhex (i : Byte) : Byte :=
  if i < 10 then B '0' + i else B 'a' + (i - 10)

/-- Go `htmlSafeSet`: the ASCII bytes that a JSON string holds as they are
when HTML escaping is on. -/
def htmlSafe (c : Byte) : Bool :=
  decide (0x20 ≤ c) && decide (c < 0x80) && !(c == 0x22 || c == 0x5C || c == B '<' ||
    c == B '>' || c == B '&')

/-- What Go `appendString(dst, src, escapeHTML = true)` writes for one ASCII
byte: the byte itself when it is HTML-safe, else a short escape or `\u00XX`. -/
def escapeASCII (b : Byte) : GoString :=
  if htmlSafe b then [b]
  else if b = 0x5C ∨ b = 0x22 then [0x5C, b]
  else if b = 8 then [0x5C, B 'b']
  else if b = 12 then [0x5C, B 'f']
  else if b = 10 then [0x5C, B 'n']
  else if b = 13 then [0x5C, B 'r']
  else if b = 9 then [0x5C, B 't']
  else [0x5C, B 'u', B '0', B '0', lowerhex (b >>> 4), lowerhex (b &&& 0xF)]

/-- The body of Go `appendString(dst, src, escapeHTML = true)`, between the
quotes, for at most `fuel` runes: quotes, backslashes and control characters
are escaped, as are `<`, `>`, `&`, U+2028 and U+2029; invalid UTF-8 becomes
the escape of U+FFFD. -/
def encodeStringAux : Nat → GoString → GoString
  | _, [] => []
  | 0, _ :: _ => []
  | fuel + 1, b :: s =>
    if b < 0x80 then escapeASCII b ++ encodeStringAux fuel s
    else
      let (c, size) := decodeRune (b :: s)
      if c = RuneError ∧ size = 1 then
        [0x5C] ++ bytes "ufffd" ++ encodeStringAux fuel s
      else if c = 0x2028 ∨ c = 0x2029 then
        [0x5C] ++ bytes "u202" ++ [lowerhex (c % 16).toUInt8] ++
          encodeStringAux fuel ((b :: s).drop size)
      else (b :: s).take size ++ encodeStringAux fuel ((b :: s).drop size)

/-- Go `appendString`: the quoted JSON string. -/
def encodeString (s : GoString) : GoString :=
  [0x22] ++ encodeStringAux s.length s ++ [0x22]

mutual
/-- The compact JSON text of a value, as `encoding/json` writes it. -/
def render : JSON → GoString
  | .null => bytes "null"
  | .bool b => if b then bytes "true" else bytes "false"
  | .num lit => lit
  | .str s => encodeString s
  | .arr items => [B '['] ++ renderElems items ++ [B ']']
  | .obj members => [B '{'] ++ renderMembers members ++ [B '}']
/-- The elements of an array, separated by commas. -/
def renderElems : List JSON → GoString
  | [] => []
  | [j] => render j
  | j :: js => render j ++ [B ','] ++ renderElems js
/-- The members of an object, separated by commas. -/
def renderMembers : List (GoString × JSON) → GoString
  | [] => []
  | [(k, j)] => encodeString k ++ [B ':'] ++ render j
  | (k, j) :: ms => encodeString k ++ [B ':'] ++ render j ++ [B ','] ++ renderMembers ms
end

/-- The errors `json.Marshal` returns. -/
inductive MarshalError
  | unsupportedValue -- *json.UnsupportedValueError: NaN or an infinity
  | badValue         -- a value that does not have the type (not reached for typed values)
  deriving DecidableEq

/-- Go `isEmptyValue`: what `omitempty` leaves out. -/
def isEmptyValue : Val → Bool
  | .int i => i == 0
  | .float f =>
    match f with
    | .finite _ m _ => m == 0
    | _ => false
  | .str s => s.isEmpty
  | .slice _ es _ => es.isEmpty
  | .struct _ => false

mutual
/-- What `json.Marshal` writes for a Go value of type `ty`, as a JSON value:
a nil slice is `null`, a struct is an object with its fields in order under
their JSON names (an empty `omitempty` field is left out), NaN and the
infinities are an error. -/
def encode : Ty → Val → Except MarshalError JSON
  | .int, .int i => .ok (.num (formatInt i))
  | .float64, .float f =>
    match f with
    | .finite neg m e => .ok (.num (formatFloat neg m e))
    | _ => .error .unsupportedValue
  | .string, .str s => .ok (.str s)
  | .slice elem, .slice isNil es _ =>
    if isNil then .ok .null
    else
      match encodeElems elem es with
      | .ok js => .ok (.arr js)
      | .error err => .error err
  | .struct _ fs, .struct vs =>
    match encodeFields fs vs with
    | .ok ms => .ok (.obj ms)
    | .error err => .error err
  | _, _ => .error .badValue
/-- The elements of a slice. -/
def encodeElems : Ty → List Val → Except MarshalError (List JSON)
  | _, [] => .ok []
  | elem, v :: vs =>
    match encode elem v with
    | .error err => .error err
    | .ok j =>
      match encodeElems elem vs with
      | .error err => .error err
      | .ok js => .ok (j :: js)
/-- The fields of a struct. -/
def encodeFields : List (String × String × Bool × Ty) → List Val →
    Except MarshalError (List (GoString × JSON))
  | [], _ => .ok []
  | _ :: _, [] => .error .badValue
  | (_, tag, omitEmpty, ty) :: fs, v :: vs =>
    if omitEmpty ∧ isEmptyValue v then encodeFields fs vs
    else
      match encode ty v with
      | .error err => .error err
      | .ok j =>
        match encodeFields fs vs with
        | .error err => .error err
        | .ok ms => .ok ((bytes tag, j) :: ms)
end

/-- Go `json.Marshal(v)` for `v` of type `ty`. -/
def Marshal (ty : Ty) (v : Val) : Except MarshalError GoString :=
  match encode ty v with
  | .ok j => .ok (render j)
  | .error err => .error err

/-! ## Encoding and decoding again -/

mutual
/-- A value as Go code sees it: the spare capacity of its slices, which no
Go comparison looks at, is dropped. -/
def Val.visible : Val → Val
  | .int i => .int i
  | .float f => .float f
  | .str s => .str s
  | .slice isNil es _ => .slice isNil (Val.visibles es) []
  | .struct vs => .struct (Val.visibles vs)
/-- The values of a list, each without spare capacity. -/
def Val.visibles : List Val → List Val
  | [] => []
  | v :: vs => v.visible :: Val.visibles vs
end

mutual
/-- A Go value of type `ty` whose parts `encoding/json` writes without loss:
an `int` is in the range of 64 bits, a string is valid UTF-8, a float is
finite (and held as binary64 holds it), a nil slice has no elements, a struct
has one value for each field. -/
def encodable : Ty → Val → Bool
  | .int, .int i => decide (-(2 : Int) ^ 63 ≤ i ∧ i < (2 : Int) ^ 63)
  | .float64, .float f => f.isFinite && f.isBinary64
  | .string, .str s => validUTF8 s
  | .slice elem, .slice isNil es _ => (!isNil || es.isEmpty) && encodableElems elem es
  | .struct _ fs, .struct vs => encodableFields fs vs
  | _, _ => false
/-- Whether every element is encodable. -/
def encodableElems : Ty → List Val → Bool
  | _, [] => true
  | elem, v :: vs => encodable elem v && encodableElems elem vs
/-- Whether the values are encodable values of the fields, one for each. -/
def encodableFields : List (String × String × Bool × Ty) → List Val → Bool
  | [], [] => true
  | (_, _, _, ty) :: fs, v :: vs => encodable ty v && encodableFields fs vs
  | _, _ => false
end

mutual
/-- Whether the struct types in `ty` have JSON names that are valid UTF-8 and
differ from each other, and no `omitempty`. -/
def Ty.plainTags : Ty → Bool
  | .int => true
  | .float64 => true
  | .string => true
  | .slice elem => elem.plainTags
  | .struct _ fs => Ty.plainFields fs
/-- The same for a list of fields. -/
def Ty.plainFields : List (String × String × Bool × Ty) → Bool
  | [] => true
  | (_, tag, omitEmpty, ty) :: fs =>
    !omitEmpty && validUTF8 (bytes tag) &&
      fs.all (fun g => decide (bytes tag ≠ bytes g.2.1)) &&
      ty.plainTags && Ty.plainFields fs
end

mutual
/-- How deep the JSON text of a value of the type nests. -/
def Ty.depth : Ty → Nat
  | .int => 0
  | .float64 => 0
  | .string => 0
  | .slice elem => elem.depth + 1
  | .struct _ fs => Ty.depthFields fs + 1
/-- The greatest depth among the fields. -/
def Ty.depthFields : List (String × String × Bool × Ty) → Nat
  | [] => 0
  | (_, _, _, ty) :: fs => max ty.depth (Ty.depthFields fs)
end

/-- The decision tree of `utf8.DecodeRune` on a lead byte `x ≥ 0x80` followed
by the bytes `b1`, `b2`, `b3` (0 where the input ends), with `len` bytes in
all. -/
def decodeTree (x len b1 b2 b3 : Nat) : Nat × Nat :=
  if x < 0xC2 ∨ 0xF4 < x then (RuneError, 1)
  else
    let sz := if x < 0xE0 then 2 else if x < 0xF0 then 3 else 4
    let lo := if x = 0xE0 then 0xA0 else if x = 0xF0 then 0x90 else 0x80
    let hi := if x = 0xED then 0x9F else if x = 0xF4 then 0x8F else 0xBF
    if len < sz then (RuneError, 1)
    else if b1 < lo ∨ hi < b1 then (RuneError, 1)
    else if sz ≤ 2 then (x % 32 * 64 + b1 % 64, 2)
    else if b2 < 0x80 ∨ 0xBF < b2 then (RuneError, 1)
    else if sz ≤ 3 then (x % 16 * 4096 + b1 % 64 * 64 + b2 % 64, 3)
    else if b3 < 0x80 ∨ 0xBF < b3 then (RuneError, 1)
    else (x % 8 * 262144 + b1 % 64 * 4096 + b2 % 64 * 64 + b3 % 64, 4)

/-! ### JSON numbers -/

/-- What may follow a value in compact JSON text: the end of the input, a
comma, or a closing bracket or brace. -/
def terminated (rest : GoString) : Prop :=
  match rest with
  | [] => True
  | c :: _ => c = B ',' ∨ c = B ']' ∨ c = B '}'

/-! ### Reading back compact JSON text -/

mutual
/-- Whether the scanner reads the text of the value back as the value: every
number is a JSON number literal, every string and key is valid UTF-8. -/
def printable : JSON → Bool
  | .null => true
  | .bool _ => true
  | .num lit => decide (parseNumber lit = some (lit, []))
  | .str s => validUTF8 s
  | .arr items => printableElems items
  | .obj members => printableMembers members
/-- Whether every element is printable. -/
def printableElems : List JSON → Bool
  | [] => true
  | j :: js => printable j && printableElems js
/-- Whether every key and member value is printable. -/
def printableMembers : List (GoString × JSON) → Bool
  | [] => true
  | (k, j) :: ms => validUTF8 k && printable j && printableMembers ms
end

mutual
/-- The nesting depth of a value: 0 for a scalar. -/
def depthOf : JSON → Nat
  | .arr items => depthElems items + 1
  | .obj members => depthMembers members + 1
  | _ => 0
/-- The greatest depth among the elements. -/
def depthElems : List JSON → Nat
  | [] => 0
  | j :: js => max (depthOf j) (depthElems js)
/-- The greatest depth among the member values. -/
def depthMembers : List (GoString × JSON) → Nat
  | [] => 0
  | (_, j) :: ms => max (depthOf j) (depthMembers ms)
end

/-- A current-conditions record: the readings of one station. -/
def sampleRecord : Val :=
  .struct [
    .struct [.float (.finite true 5706332914180898 (-48)),
      .float (.finite false 8707249386458955 (-48))],
    .slice false [.struct [.int 800, .str (bytes "Clear"), .str (bytes "clear sky"),
      .str (bytes "01d")]] [],
    .str (bytes "stations"),
    .struct [.float (.finite false 5157149338920550 (-44)), .int 1013, .int 40,
      .float (.finite false 5157149338920550 (-44)),
      .float (.finite false 5157149338920550 (-44))],
    .int 10000,
    .struct [.float (.finite false 8106479329266893 (-51)), .float (.finite false 0 (-1074))],
    .struct [.int 0],
    .int 1560350645,
    .struct [.int 1, .int 5122, .float (.finite false 4683743612465316 (-55)),
      .str (bytes "ZW"), .int 1560343627, .int 1560396563],
    .int 890422,
    .str (bytes "Gweru"),
    .int 200]

/-- The zero record with `Main.Temp` set to NaN. -/
def recordNaN : Val :=
  .struct [Ty.Coordinates.zero, .slice true [] [], .str [],
    .struct [.float .nan, .int 0, .int 0, .float (.finite false 0 (-1074)),
      .float (.finite false 0 (-1074))],
    .int 0, Ty.Wind.zero, Ty.Clouds.zero, .int 0, Ty.Sys2.zero, .int 0, .str [], .int 0]

/-- The zero record with `Name` set to the one byte 0xFF, which is not valid
UTF-8. -/
def recordBadName : Val :=
  .struct [Ty.Coordinates.zero, .slice true [] [], .str [], Ty.Reading.zero,
    .int 0, Ty.Wind.zero, Ty.Clouds.zero, .int 0, Ty.Sys2.zero, .int 0, .str [0xFF], .int 0]

/-- What `json.Marshal` writes for `recordBadName`: the name is the escape of
U+FFFD. -/
def textBadName : GoString :=
  bytes ("\x7b\"coord\":\x7b\"lat\":0,\"lon\":0\x7d,\"weather\":null,\"base\":\"\"," ++
    "\"main\":\x7b\"temp\":0,\"pressure\":0,\"humidity\":0,\"temp_min\":0,\"temp_max\":0\x7d," ++
    "\"visibility\":0,\"wind\":\x7b\"speed\":0,\"deg\":0\x7d,\"clouds\":\x7b\"all\":0\x7d," ++
    "\"dt\":0,\"sys\":\x7b\"type\":0,\"id\":0,\"message\":0,\"country\":\"\",\"sunrise\":0," ++
    "\"sunset\":0\x7d,\"id\":0,\"name\":\"\\ufffd\",\"cod\":0\x7d")

/-- The zero record with `Name` set to U+FFFD, the replacement character. -/
def recordReplaced : Val :=
  .struct [Ty.Coordinates.zero, .slice true [] [], .str [], Ty.Reading.zero,
    .int 0, Ty.Wind.zero, Ty.Clouds.zero, .int 0, Ty.Sys2.zero, .int 0,
    .str [0xEF, 0xBF, 0xBD], .int 0]

/-- The JSON value the scanner reads from `textBadName`: the name is U+FFFD. -/
def jsonReplaced : JSON :=
  .obj [(bytes "coord", .obj [(bytes "lat", .num (bytes "0")), (bytes "lon", .num (bytes "0"))]),
    (bytes "weather", .null), (bytes "base", .str []),
    (bytes "main", .obj [(bytes "temp", .num (bytes "0")), (bytes "pressure", .num (bytes "0")),
      (bytes "humidity", .num (bytes "0")), (bytes "temp_min", .num (bytes "0")),
      (bytes "temp_max", .num (bytes "0"))]),
    (bytes "visibility", .num (bytes "0")),
    (bytes "wind", .obj [(bytes "speed", .num (bytes "0")), (bytes "deg", .num (bytes "0"))]),
    (bytes "clouds", .obj [(bytes "all", .num (bytes "0"))]),
    (bytes "dt", .num (bytes "0")),
    (bytes "sys", .obj [(bytes "type", .num (bytes "0")), (bytes "id", .num (bytes "0")),
      (bytes "message", .num (bytes "0")), (bytes "country", .str []),
      (bytes "sunrise", .num (bytes "0")), (bytes "sunset", .num (bytes "0"))]),
    (bytes "id", .num (bytes "0")), (bytes "name", .str [0xEF, 0xBF, 0xBD]),
    (bytes "cod", .num (bytes "0"))]

/-- The float `roundFloat` builds once the binary exponent `k` is known. -/
def roundAt (neg : Bool) (num den : Nat) (k : Int) : Option Float64 :=
  let e : Int := max (k - 52) (-1074)
  let m : Nat :=
    if 0 ≤ e then roundHalfEven num (den * 2 ^ e.toNat)
    else roundHalfEven (num * 2 ^ (-e).toNat) den
  let m1 : Nat := if m = 2 ^ 53 then 2 ^ 52 else m
  let e1 : Int := if m = 2 ^ 53 then e + 1 else e
  if 971 < e1 then none else some (.finite neg m1 e1)

/-- The text of a number: sign, integer digits, fraction digits (none for
no fraction) and exponent (its sign and digits, if any). -/
def numText (neg : Bool) (int frac : GoString) (ex : Option (Bool × GoString)) : GoString :=
  (if neg then [B '-'] else []) ++ int ++ (if frac = [] then [] else B '.' :: frac) ++
    (match ex with
      | none => []
      | some (eneg, ds) => B 'e' :: (if eneg then B '-' else B '+') :: ds)

/-- The float of the decimal `digits * 10^x`, as `parseFloat` computes it. -/
def decimalFloat (neg : Bool) (digits : Nat) (x : Int) : Option Float64 :=
  if 0 ≤ x then roundFloat neg (digits * 10 ^ x.toNat) 1
  else roundFloat neg digits (10 ^ (-x).toNat)

/-- The exponent part of a number text. -/
def expText (ex : Option (Bool × GoString)) : GoString :=
  match ex with
  | none => []
  | some (eneg, ds) => B 'e' :: (if eneg then B '-' else B '+') :: ds

/-- The value of the exponent part. -/
def expValue (ex : Option (Bool × GoString)) : Int :=
  match ex with
  | none => 0
  | some (eneg, ds) => if eneg then -(decValue ds : Int) else (decValue ds : Int)

/-- A float with the sign `neg`. -/
def Float64.withSign (neg : Bool) : Float64 → Float64
  | .finite _ m e => .finite neg m e
  | f => f

/-! ## Theorems -/

/-! ### Control flow of `apiCall`, `currentWeather`, `forecast`, `main` -/

theorem printed_append (xs ys : List Event) : printed (xs ++ ys) = printed xs ++ printed ys := by
  induction xs with
  | nil => rfl
  | cons e es ih => cases e <;> simp [printed, ih]

theorem printed_apiCall (net : Net) (p : weatherParams) (path : GoString) (log : List Event) :
    printed (apiCall net p path log).log = printed log := by
  unfold apiCall
  repeat' split
  all_goals simp [printed_append, printed]

theorem currentWeather_log (net : Net) (p : weatherParams) (log : List Event) :
    (currentWeather net p log).log = (apiCall net p (bytes "weather") log).log := by
  simp only [currentWeather]
  split
  · rfl
  · split <;> rfl

theorem forecast_log (net : Net) (p : weatherParams) (log : List Event) :
    (forecast net p log).log = (apiCall net p (bytes "forecast") log).log := by
  simp only [forecast]
  split
  · rfl
  · split <;> rfl

theorem printed_currentWeather (net : Net) (p : weatherParams) (log : List Event) :
    printed (currentWeather net p log).log = printed log := by
  rw [currentWeather_log, printed_apiCall]

theorem printed_forecast (net : Net) (p : weatherParams) (log : List Event) :
    printed (forecast net p log).log = printed log := by
  rw [forecast_log, printed_apiCall]

/-- C3: when the response to the request has a status code other than 200,
whatever its body, `apiCall` returns no bytes and the error `Got <status>`,
and the only events it adds are the request and the closing of the body (the
body is not read); `currentWeather` and `forecast` return that same error with
a nil record, so the body is not decoded either. -/
theorem non200_yields_status_error (net : Net) (p : weatherParams) (log : List Event)
    (path : GoString) (u : URL) (resp : Response)
    (hu : apiCallURL p path = .ok u) (hreq : net.newRequest u = .ok ())
    (hdo : net.roundTrip log u = .ok resp) (hs : resp.StatusCode ≠ 200) :
    apiCall net p path log = ⟨none, some (.status resp.Status), log ++ [.send u, .close]⟩ ∧
    (path = bytes "weather" →
      currentWeather net p log =
        ⟨none, some (.status resp.Status), log ++ [.send u, .close]⟩) ∧
    (path = bytes "forecast" →
      forecast net p log = ⟨none, some (.status resp.Status), log ++ [.send u, .close]⟩) := by
  have h : apiCall net p path log =
      ⟨none, some (.status resp.Status), log ++ [.send u, .close]⟩ := by
    simp [apiCall, hu, hreq, hdo, hs]
  refine ⟨h, ?_, ?_⟩
  · rintro rfl
    simp [currentWeather, h]
  · rintro rfl
    simp [forecast, h]

/-- C3 at a concrete input: a 404 answer to the example request. -/
theorem non200_yields_status_error_witness :
    apiCallURL exampleParams (bytes "weather") = .ok exampleURL ∧
      currentWeather netNotFound exampleParams [] =
        ⟨none, some (.status (bytes "404 Not Found")), [.send exampleURL, .close]⟩ :=
  ⟨by decide,
    (non200_yields_status_error netNotFound exampleParams [] (bytes "weather") exampleURL
      { StatusCode := 404, Status := bytes "404 Not Found",
        Body := .ok (bytes "\x7b\"cod\":\"404\"\x7d") } (by decide) rfl rfl (by decide)).2.1 rfl⟩

/-- C10 as stated fails: when the current-conditions call succeeds and the
forecast call fails, the run has already printed the current-conditions
record, so it prints one record, not both and not none. -/
theorem main_prints_one_record_counterexample :
    ∃ cur, printed (main netForecastDown (bytes "https://api.example.com/data/2.5/")
        (bytes "abc") (.finite true 5706332914180898 (-48))
        (.finite false 8707249386458955 (-48))).1 = [cur] ∧
      (main netForecastDown (bytes "https://api.example.com/data/2.5/")
        (bytes "abc") (.finite true 5706332914180898 (-48))
        (.finite false 8707249386458955 (-48))).2 = 1 :=
  ⟨_, rfl, rfl⟩

/-- C10, amended: a run of `main` aborts at the first error with exit status
1.  When the current-conditions call fails nothing is printed and the forecast
call is not made; when it succeeds its record is printed before the forecast
call, and a forecast error then leaves that one record printed; when both
succeed, both records are printed, in order, and the exit status is 0. -/
theorem main_aborts_at_first_error (net : Net) (baseURL appID : GoString)
    (latitude longitude : Float64) :
    let p : weatherParams := { BaseURL := baseURL, APPID := appID,
                               Coord := { Lat := latitude, Lon := longitude } }
    let r1 := currentWeather net p []
    let run := main net baseURL appID latitude longitude
    (∀ err, r1.err = some err →
      run = (r1.log ++ [.fatal err], 1) ∧ printed run.1 = []) ∧
    (∀ cur, r1.err = none → r1.val = some cur →
      let r2 := forecast net p (r1.log ++ [.print cur])
      (∀ err, r2.err = some err →
        run = (r2.log ++ [.fatal err], 1) ∧ printed run.1 = [cur]) ∧
      (∀ fore, r2.err = none → r2.val = some fore →
        run = (r2.log ++ [.print fore], 0) ∧ printed run.1 = [cur, fore])) := by
  intro p r1 run
  refine ⟨?_, ?_⟩
  · intro err h
    have hrun : run = (r1.log ++ [.fatal err], 1) := by
      simp only [run, main]
      simp only [r1, p] at h
      rw [h]
    refine ⟨hrun, ?_⟩
    rw [hrun]
    simp [printed_append, printed, r1, printed_currentWeather]
  · intro cur h1 h2 r2
    refine ⟨?_, ?_⟩
    · intro err h
      have hrun : run = (r2.log ++ [.fatal err], 1) := by
        simp only [run, main]
        simp only [r1, p] at h1 h2
        simp only [r2, r1, p] at h
        rw [h1, h2]
        simp only [Option.getD_some]
        rw [h]
      refine ⟨hrun, ?_⟩
      rw [hrun]
      simp [printed_append, printed, r2, r1, printed_currentWeather, printed_forecast]
    · intro fore h3 h4
      have hrun : run = (r2.log ++ [.print fore], 0) := by
        simp only [run, main]
        simp only [r1, p] at h1 h2
        simp only [r2, r1, p] at h3 h4
        rw [h1, h2]
        simp only [Option.getD_some]
        rw [h3, h4]
        simp
      refine ⟨hrun, ?_⟩
      rw [hrun]
      simp [printed_append, printed, r2, r1, printed_currentWeather, printed_forecast]

/-- C10, amended, at a concrete run: the forecast request is answered with
status 500 after the current conditions were printed. -/
theorem main_aborts_at_first_error_witness :
    ∃ cur, (currentWeather netNotFound exampleParams []).err =
        some (.status (bytes "404 Not Found")) ∧
      printed (main netNotFound exampleParams.BaseURL exampleParams.APPID
        exampleParams.Coord.Lat exampleParams.Coord.Lon).1 = [] ∧
      (currentWeather netForecastDown exampleParams []).val = some cur ∧
      printed (main netForecastDown exampleParams.BaseURL exampleParams.APPID
        exampleParams.Coord.Lat exampleParams.Coord.Lon).1 = [cur] :=
  ⟨_, rfl,
    ((main_aborts_at_first_error netNotFound exampleParams.BaseURL exampleParams.APPID
      exampleParams.Coord.Lat exampleParams.Coord.Lon).1 _ rfl).2,
    rfl,
    (((main_aborts_at_first_error netForecastDown exampleParams.BaseURL exampleParams.APPID
      exampleParams.Coord.Lat exampleParams.Coord.Lon).2 _ rfl rfl).1 _ rfl).2⟩

/-! ### Query strings: `Values.Encode` and `ParseQuery` -/

set_option maxRecDepth 100000 in
theorem escapeByte_cases (c : Byte) :
    (c = B ' ' ∧ escapeByte c = [B '+']) ∨
    (escapeByte c = [B '%', upperhex (c >>> 4), upperhex (c &&& 15)] ∧
      ishex (upperhex (c >>> 4)) = true ∧ ishex (upperhex (c &&& 15)) = true ∧
      (unhex (upperhex (c >>> 4)) <<< 4 ||| unhex (upperhex (c &&& 15))) = c) ∨
    (escapeByte c = [c] ∧ c ≠ B '%' ∧ c ≠ B '+') := by
  cases c with | mk v => revert v; decide

set_option maxRecDepth 100000 in
theorem escapeByte_clean (c : Byte) :
    B '&' ∉ escapeByte c ∧ B '=' ∉ escapeByte c ∧ B ';' ∉ escapeByte c := by
  cases c with | mk v => revert v; decide

theorem QueryEscape_cons (c : Byte) (s : GoString) :
    QueryEscape (c :: s) = escapeByte c ++ QueryEscape s := by
  simp [QueryEscape, escape, escapeByte, List.flatMap_cons]

theorem QueryEscape_nil : QueryEscape [] = [] := rfl

theorem QueryEscape_clean (s : GoString) :
    B '&' ∉ QueryEscape s ∧ B '=' ∉ QueryEscape s ∧ B ';' ∉ QueryEscape s := by
  induction s with
  | nil => simp [QueryEscape_nil]
  | cons c s ih =>
    have h := escapeByte_clean c
    simp only [QueryEscape_cons, List.mem_append, not_or]
    exact ⟨⟨h.1, ih.1⟩, ⟨h.2.1, ih.2.1⟩, ⟨h.2.2, ih.2.2⟩⟩

theorem unescapeCheck_query_plain (c : Byte) (s : GoString) (h : c ≠ B '%') :
    unescapeCheck .encodeQueryComponent (c :: s) = unescapeCheck .encodeQueryComponent s := by
  rcases s with _ | ⟨a, _ | ⟨b, rest⟩⟩ <;> simp [unescapeCheck, h]

theorem unescapeCheck_query_pct (a b : Byte) (rest : GoString)
    (ha : ishex a = true) (hb : ishex b = true) :
    unescapeCheck .encodeQueryComponent (B '%' :: a :: b :: rest) =
      unescapeCheck .encodeQueryComponent rest := by
  simp [unescapeCheck, ha, hb]

theorem unescapeBuild_query_plain (c : Byte) (s : GoString) (h1 : c ≠ B '%') (h2 : c ≠ B '+') :
    unescapeBuild .encodeQueryComponent (c :: s) = c :: unescapeBuild .encodeQueryComponent s := by
  rcases s with _ | ⟨a, _ | ⟨b, rest⟩⟩ <;> simp [unescapeBuild, h1, h2]

theorem unescapeBuild_query_plus (s : GoString) :
    unescapeBuild .encodeQueryComponent (B '+' :: s) =
      B ' ' :: unescapeBuild .encodeQueryComponent s := by
  rcases s with _ | ⟨a, _ | ⟨b, rest⟩⟩ <;>
    simp [unescapeBuild, show B '+' ≠ B '%' by decide]

theorem unescapeBuild_query_pct (a b : Byte) (rest : GoString) :
    unescapeBuild .encodeQueryComponent (B '%' :: a :: b :: rest) =
      (unhex a <<< 4 ||| unhex b) :: unescapeBuild .encodeQueryComponent rest := by
  simp [unescapeBuild]

theorem unescapeCheck_escape (s rest : GoString) :
    unescapeCheck .encodeQueryComponent (QueryEscape s ++ rest) =
      unescapeCheck .encodeQueryComponent rest := by
  induction s with
  | nil => simp [QueryEscape_nil]
  | cons c s ih =>
    rw [QueryEscape_cons, List.append_assoc]
    rcases escapeByte_cases c with ⟨_, h⟩ | ⟨h, ha, hb, _⟩ | ⟨h, h1, _⟩
    · rw [h]
      simp only [List.cons_append, List.nil_append]
      rw [unescapeCheck_query_plain _ _ (by decide), ih]
    · rw [h]
      simp only [List.cons_append, List.nil_append]
      rw [unescapeCheck_query_pct _ _ _ ha hb, ih]
    · rw [h]
      simp only [List.cons_append, List.nil_append]
      rw [unescapeCheck_query_plain _ _ h1, ih]

theorem unescapeBuild_escape (s rest : GoString) :
    unescapeBuild .encodeQueryComponent (QueryEscape s ++ rest) =
      s ++ unescapeBuild .encodeQueryComponent rest := by
  induction s with
  | nil => simp [QueryEscape_nil]
  | cons c s ih =>
    rw [QueryEscape_cons, List.append_assoc]
    rcases escapeByte_cases c with ⟨hc, h⟩ | ⟨h, _, _, hv⟩ | ⟨h, h1, h2⟩
    · rw [h]
      simp only [List.cons_append, List.nil_append]
      rw [unescapeBuild_query_plus, ih, hc]
    · rw [h]
      simp only [List.cons_append, List.nil_append]
      rw [unescapeBuild_query_pct, ih, hv]
    · rw [h]
      simp only [List.cons_append, List.nil_append]
      rw [unescapeBuild_query_plain _ _ h1 h2, ih]

theorem QueryUnescape_QueryEscape (s : GoString) : QueryUnescape (QueryEscape s) = .ok s := by
  have h1 := unescapeCheck_escape s []
  have h2 := unescapeBuild_escape s []
  simp only [List.append_nil] at h1 h2
  simp [QueryUnescape, unescape, h1, h2, unescapeCheck, unescapeBuild]

theorem startsWith_single (x c : Byte) (s : GoString) :
    startsWith (c :: s) [x] = (c == x) := by
  cases s <;> simp [startsWith]

theorem indexOf_single_notMem (x : Byte) (s : GoString) (h : x ∉ s) : indexOf [x] s = none := by
  induction s with
  | nil => simp [indexOf]
  | cons c s ih =>
    simp only [List.mem_cons, not_or] at h
    have hc : (c == x) = false := by simpa using fun e => h.1 e.symm
    simp [indexOf, startsWith_single, hc, ih h.2]

theorem indexOf_single_append (x : Byte) (s t : GoString) (h : x ∉ s) :
    indexOf [x] (s ++ x :: t) = some s.length := by
  induction s with
  | nil => simp [indexOf, startsWith_single]
  | cons c s ih =>
    simp only [List.mem_cons, not_or] at h
    have hc : (c == x) = false := by simpa using fun e => h.1 e.symm
    simp [indexOf, startsWith_single, hc, ih h.2]

theorem cut_single_notMem (x : Byte) (s : GoString) (h : x ∉ s) : cut s [x] = (s, [], false) := by
  simp [cut, indexOf_single_notMem x s h]

theorem cut_single_append (x : Byte) (s t : GoString) (h : x ∉ s) :
    cut (s ++ x :: t) [x] = (s, t, true) := by
  simp [cut, indexOf_single_append x s t h]

theorem containsStr_single_notMem (x : Byte) (s : GoString) (h : x ∉ s) :
    containsStr s [x] = false := by
  simp [containsStr, indexOf_single_notMem x s h]

theorem queryPiece_clean (kv : GoString × GoString) :
    B '&' ∉ queryPiece kv ∧ B ';' ∉ queryPiece kv := by
  have h1 := QueryEscape_clean kv.1
  have h2 := QueryEscape_clean kv.2
  simp only [queryPiece, List.mem_append, List.mem_cons, not_or]
  exact ⟨⟨h1.1, by decide, h2.1⟩, ⟨h1.2.2, by decide, h2.2.2⟩⟩

theorem queryPiece_ne_nil (kv : GoString × GoString) : queryPiece kv ≠ [] := by
  simp [queryPiece]

theorem bytes_amp : bytes "&" = [B '&'] := by decide
theorem bytes_eq : bytes "=" = [B '='] := by decide
theorem bytes_semi : bytes ";" = [B ';'] := by decide

/-- One round of the `parseQuery` loop on a piece `key=value` that the encoder
wrote, followed by `rest`. -/
theorem parseQueryLoop_piece (fuel : Nat) (m : Values) (err : Option URLError)
    (kv : GoString × GoString) (query rest : GoString)
    (hcut : cut query [B '&'] = (queryPiece kv, rest, true) ∨
      cut query [B '&'] = (queryPiece kv, rest, false))
    (hq : query ≠ []) :
    parseQueryLoop (fuel + 1) m err query = parseQueryLoop fuel (m.add kv) err rest := by
  have hclean := queryPiece_clean kv
  have hk := QueryEscape_clean kv.1
  have hcut2 : cut (queryPiece kv) [B '='] = (QueryEscape kv.1, QueryEscape kv.2, true) := by
    rw [queryPiece]
    exact cut_single_append _ _ _ hk.2.1
  rw [parseQueryLoop]
  simp only [hq, if_false, bytes_amp, bytes_eq, bytes_semi]
  rcases hcut with h | h <;>
    simp [h, containsStr_single_notMem _ _ hclean.2, queryPiece_ne_nil, hcut2,
      QueryUnescape_QueryEscape, Values.add]

theorem intercalate_cons_cons (sep a b : GoString) (l : List GoString) :
    sep.intercalate (a :: b :: l) = a ++ sep ++ sep.intercalate (b :: l) := by
  simp [List.intercalate, List.intersperse]

theorem parseQueryLoop_encoded (pairs : List (GoString × GoString)) :
    ∀ (fuel : Nat) (m : Values) (err : Option URLError), pairs.length ≤ fuel →
      parseQueryLoop fuel m err ([B '&'].intercalate (pairs.map queryPiece)) =
        (pairs.foldl Values.add m, err) := by
  induction pairs with
  | nil =>
    intro fuel m err _
    cases fuel <;> simp [parseQueryLoop, List.intercalate]
  | cons kv rest ih =>
    intro fuel m err hfuel
    obtain ⟨fuel, rfl⟩ : ∃ f, fuel = f + 1 := ⟨fuel - 1, by simp at hfuel; omega⟩
    have hclean := queryPiece_clean kv
    cases rest with
    | nil =>
      have h1 : [B '&'].intercalate ([kv].map queryPiece) = queryPiece kv := by
        simp [List.intercalate, List.intersperse]
      rw [h1, parseQueryLoop_piece fuel m err kv _ []
        (Or.inr (cut_single_notMem _ _ hclean.1)) (queryPiece_ne_nil kv)]
      cases fuel <;> simp [parseQueryLoop]
    | cons kv2 rest2 =>
      have h1 : [B '&'].intercalate ((kv :: kv2 :: rest2).map queryPiece) =
          queryPiece kv ++ B '&' :: [B '&'].intercalate ((kv2 :: rest2).map queryPiece) := by
        simp [List.map_cons, intercalate_cons_cons]
      rw [h1, parseQueryLoop_piece fuel m err kv _ _
        (Or.inl (cut_single_append _ _ _ hclean.1)) (by simp [queryPiece])]
      rw [ih fuel (m.add kv) err (by simp at hfuel ⊢; omega)]
      simp

theorem Values.lookup_put (m : Values) (k k2 : GoString) (vs : List GoString) :
    (m.put k vs).lookup k2 = if k = k2 then vs else m.lookup k2 := by
  induction m with
  | nil => simp [Values.put, Values.lookup]
  | cons e m ih =>
    obtain ⟨k0, vs0⟩ := e
    by_cases h : k0 = k
    · subst h
      by_cases h2 : k0 = k2 <;> simp [Values.put, Values.lookup, h2]
    · by_cases h2 : k0 = k2
      · subst h2
        have h3 : ¬ k = k0 := fun e => h e.symm
        simp [Values.put, Values.lookup, h, h3]
      · simp [Values.put, Values.lookup, h, h2, ih]

theorem Values.lookup_notMem (m : Values) (k : GoString) (h : k ∉ m.map Prod.fst) :
    m.lookup k = [] := by
  induction m with
  | nil => rfl
  | cons e m ih =>
    obtain ⟨k0, vs0⟩ := e
    simp only [List.map_cons, List.mem_cons, not_or] at h
    have h1 : ¬ k0 = k := fun e => h.1 e.symm
    simp [Values.lookup, h1, ih h.2]

theorem Values.keys_put (m : Values) (k : GoString) (vs : List GoString) :
    (m.put k vs).map Prod.fst =
      if k ∈ m.map Prod.fst then m.map Prod.fst else m.map Prod.fst ++ [k] := by
  induction m with
  | nil => simp [Values.put]
  | cons e m ih =>
    obtain ⟨k0, vs0⟩ := e
    by_cases h : k0 = k
    · subst h
      simp [Values.put]
    · have h1 : ¬ k = k0 := fun e => h e.symm
      simp only [Values.put, h, if_false, List.map_cons, ih, List.mem_cons, h1, false_or]
      split <;> simp

theorem Values.nodup_put (m : Values) (k : GoString) (vs : List GoString)
    (h : (m.map Prod.fst).Nodup) : ((m.put k vs).map Prod.fst).Nodup := by
  rw [Values.keys_put]
  split
  · exact h
  · rename_i hk
    rw [List.nodup_append]
    refine ⟨h, by simp, ?_⟩
    intro a ha hb
    simp only [List.mem_singleton] at hb
    subst hb
    exact hk ha

theorem Values.lookup_foldl_add (pairs : List (GoString × GoString)) :
    ∀ (m : Values) (k : GoString), (pairs.foldl Values.add m).lookup k =
      m.lookup k ++ (pairs.filter (fun kv => decide (kv.1 = k))).map Prod.snd := by
  induction pairs with
  | nil => intro m k; simp
  | cons kv rest ih =>
    intro m k
    rw [List.foldl_cons, ih, Values.add, Values.lookup_put]
    by_cases h : kv.1 = k
    · subst h
      simp
    · simp [h]

theorem Values.Encode_eq (v : Values) :
    v.Encode = [B '&'].intercalate ((encodePairs v).map queryPiece) := by
  simp only [Values.Encode, encodePairs, bytes_amp, bytes_eq, List.map_flatMap, List.map_map]
  congr 1
  congr 1
  funext k
  congr 1
  funext value
  simp [queryPiece]

theorem filter_flatMap_key (f : GoString → List GoString) (k : GoString) (l : List GoString)
    (hl : l.Nodup) :
    ((l.flatMap fun k2 => (f k2).map fun value => (k2, value)).filter
      (fun kv => decide (kv.1 = k))).map Prod.snd = if k ∈ l then f k else [] := by
  induction l with
  | nil => simp
  | cons a l ih =>
    rw [List.nodup_cons] at hl
    rw [List.flatMap_cons, List.filter_append, List.map_append, ih hl.2]
    by_cases h : a = k
    · subst h
      simp [hl.1, List.filter_map, Function.comp_def]
    · have h2 : ¬ k = a := fun e => h e.symm
      simp [h, h2, List.filter_map, Function.comp_def]

theorem length_le_intercalate (sep : GoString) (l : List GoString) (h : ∀ p ∈ l, p ≠ []) :
    l.length ≤ (sep.intercalate l).length := by
  induction l with
  | nil => simp
  | cons a l ih =>
    have ha : 1 ≤ a.length := by
      have := h a (by simp)
      cases a <;> simp_all
    cases l with
    | nil => simp [List.intercalate, List.intersperse]; omega
    | cons b l =>
      rw [intercalate_cons_cons]
      have := ih (fun p hp => h p (by simp [hp]))
      simp only [List.length_cons, List.length_append] at this ⊢
      omega

/-- Reading an encoded query back: `ParseQuery` finds for every key exactly
the values the map held, and reports no error. -/
theorem ParseQuery_Encode (v : Values) (hv : (v.map Prod.fst).Nodup) :
    (ParseQuery v.Encode).2 = none ∧
      ∀ k, (ParseQuery v.Encode).1.lookup k = v.lookup k := by
  have hlen : (encodePairs v).length ≤ v.Encode.length := by
    rw [Values.Encode_eq]
    have := length_le_intercalate [B '&'] ((encodePairs v).map queryPiece)
      (by intro p hp; simp only [List.mem_map] at hp; obtain ⟨kv, _, rfl⟩ := hp
          exact queryPiece_ne_nil kv)
    simpa using this
  have h := parseQueryLoop_encoded (encodePairs v) v.Encode.length [] none hlen
  rw [← Values.Encode_eq] at h
  refine ⟨by simp [ParseQuery, h], ?_⟩
  intro k
  simp only [ParseQuery, h, Values.lookup_foldl_add]
  have hs : ((v.map Prod.fst).insertionSort (fun a b => strLe a b = true)).Nodup :=
    (List.perm_insertionSort _ _).nodup_iff.mpr hv
  rw [encodePairs, filter_flatMap_key v.lookup k _ hs]
  by_cases hk : k ∈ v.map Prod.fst
  · have : k ∈ (v.map Prod.fst).insertionSort (fun a b => strLe a b = true) :=
      (List.perm_insertionSort _ _).mem_iff.mpr hk
    simp [this, Values.lookup]
  · have : k ∉ (v.map Prod.fst).insertionSort (fun a b => strLe a b = true) :=
      fun h => hk ((List.perm_insertionSort _ _).mem_iff.mp h)
    simp [this, Values.lookup, Values.lookup_notMem v k hk]

theorem parseQueryLoop_nodup : ∀ (fuel : Nat) (m : Values) (err : Option URLError)
    (query : GoString), (m.map Prod.fst).Nodup →
    ((parseQueryLoop fuel m err query).1.map Prod.fst).Nodup := by
  intro fuel
  induction fuel with
  | zero => intro m err query h; simpa [parseQueryLoop] using h
  | succ fuel ih =>
    intro m err query h
    rw [parseQueryLoop]
    split
    · exact h
    · simp only []
      split
      · exact ih _ _ _ h
      · split
        · exact ih _ _ _ h
        · split
          · exact ih _ _ _ h
          · split
            · exact ih _ _ _ h
            · exact ih _ _ _ (Values.nodup_put _ _ _ h)

theorem URL.Query_nodup (u : URL) : (u.Query.map Prod.fst).Nodup :=
  parseQueryLoop_nodup _ _ _ _ (by simp)

theorem Values.lookup_Set (m : Values) (k v k2 : GoString) :
    (m.Set k v).lookup k2 = if k = k2 then [v] else m.lookup k2 :=
  Values.lookup_put m k k2 [v]

theorem Values.nodup_Set (m : Values) (k v : GoString) (h : (m.map Prod.fst).Nodup) :
    ((m.Set k v).map Prod.fst).Nodup :=
  Values.nodup_put m k [v] h

/-- The query of the URL that `apiCall` builds gives `APPID`, `lat` and `lon`
the three values set, and every other key the values it had in the query of
`BaseURL + path`. -/
theorem apiCallURL_queryValues (p : weatherParams) (path : GoString) (u0 : URL)
    (h0 : Parse (p.BaseURL ++ path) = .ok u0) :
    ∃ u, apiCallURL p path = .ok u ∧ ∀ k, queryValues u.RawQuery k =
      if k = bytes "lon" then [sprintfF p.Coord.Lon]
      else if k = bytes "lat" then [sprintfF p.Coord.Lat]
      else if k = bytes "APPID" then [p.APPID]
      else queryValues u0.RawQuery k := by
  refine ⟨_, by simp only [apiCallURL, h0]; rfl, ?_⟩
  intro k
  have hn := Values.nodup_Set _ (bytes "lon") (sprintfF p.Coord.Lon)
    (Values.nodup_Set _ (bytes "lat") (sprintfF p.Coord.Lat)
      (Values.nodup_Set _ (bytes "APPID") p.APPID u0.Query_nodup))
  simp only [queryValues]
  rw [(ParseQuery_Encode _ hn).2 k]
  simp only [Values.lookup_Set, URL.Query]
  have d1 : bytes "lon" ≠ bytes "lat" := by decide
  have d2 : bytes "lon" ≠ bytes "APPID" := by decide
  have d3 : bytes "lat" ≠ bytes "APPID" := by decide
  by_cases h1 : k = bytes "lon"
  · subst h1
    simp
  · by_cases h2 : k = bytes "lat"
    · subst h2
      simp [d1, h1]
    · by_cases h3 : k = bytes "APPID"
      · subst h3
        simp [d2, d3, h1, h2]
      · have a1 : ¬ bytes "lon" = k := fun e => h1 e.symm
        have a2 : ¬ bytes "lat" = k := fun e => h2 e.symm
        have a3 : ¬ bytes "APPID" = k := fun e => h3 e.symm
        simp [a1, a2, a3, h1, h2, h3]

theorem Encode_three (a b c : GoString) :
    Values.Encode (Values.Set (Values.Set (Values.Set [] (bytes "APPID") a) (bytes "lat") b)
      (bytes "lon") c) =
      bytes "APPID=" ++ QueryEscape a ++ bytes "&lat=" ++ QueryEscape b ++ bytes "&lon=" ++
        QueryEscape c := by
  have hs : (List.insertionSort (fun a b => strLe a b = true)
      [bytes "APPID", bytes "lat", bytes "lon"]) = [bytes "APPID", bytes "lat", bytes "lon"] := by
    decide
  have h1 : Values.Set (Values.Set (Values.Set [] (bytes "APPID") a) (bytes "lat") b)
      (bytes "lon") c = [(bytes "APPID", [a]), (bytes "lat", [b]), (bytes "lon", [c])] := by
    simp [Values.Set, Values.put, show bytes "APPID" ≠ bytes "lat" by decide,
      show bytes "APPID" ≠ bytes "lon" by decide, show bytes "lat" ≠ bytes "lon" by decide]
  rw [h1]
  simp only [Values.Encode, List.map_cons, List.map_nil, hs]
  simp [Values.lookup, List.intercalate, List.intersperse,
      show bytes "lat" ≠ bytes "APPID" by decide,
      show bytes "lon" ≠ bytes "APPID" by decide, show bytes "lon" ≠ bytes "lat" by decide,
      show bytes "APPID" ≠ bytes "lat" by decide,
      show bytes "APPID" ≠ bytes "lon" by decide, show bytes "lat" ≠ bytes "lon" by decide,
      show QueryEscape (bytes "APPID") = bytes "APPID" by decide,
      show QueryEscape (bytes "lat") = bytes "lat" by decide,
      show QueryEscape (bytes "lon") = bytes "lon" by decide,
      show bytes "APPID=" = bytes "APPID" ++ bytes "=" by decide,
      show bytes "&lat=" = bytes "&" ++ (bytes "lat" ++ bytes "=") by decide,
      show bytes "&lon=" = bytes "&" ++ (bytes "lon" ++ bytes "=") by decide]

/-! ### `fmt.Sprintf("%f")` writes six fractional digits -/

theorem digitByte_toNat (d : Nat) : (digitByte d).toNat = 48 + d % 10 := by
  have h : d % 10 < 10 := Nat.mod_lt _ (by decide)
  unfold digitByte
  generalize d % 10 = r at h
  interval_cases r <;> rfl

theorem digitByte_isDigit (d : Nat) : (B '0' ≤ digitByte d ∧ digitByte d ≤ B '9') := by
  have h : d % 10 < 10 := Nat.mod_lt _ (by decide)
  unfold digitByte
  generalize d % 10 = r at h
  interval_cases r <;> decide

theorem decValue_append (ds : GoString) (d : Byte) :
    decValue (ds ++ [d]) = decValue ds * 10 + (d.toNat - 48) := by
  simp [decValue, List.foldl_append]

theorem allDigits_append (a b : GoString) :
    allDigits (a ++ b) = (allDigits a && allDigits b) := by
  simp [allDigits, List.all_append]

theorem natDecAux_spec : ∀ (fuel n : Nat) (acc : GoString), n < fuel →
    ∃ ds, natDecAux fuel n acc = ds ++ acc ∧ ds ≠ [] ∧ allDigits ds = true ∧ decValue ds = n := by
  intro fuel
  induction fuel with
  | zero => intro n acc h; omega
  | succ fuel ih =>
    intro n acc h
    rw [natDecAux]
    by_cases h0 : n / 10 = 0
    · refine ⟨[digitByte n], by simp [h0], by simp, ?_, ?_⟩
      · simp [allDigits, digitByte_isDigit n]
      · simp [decValue, digitByte_toNat]
        omega
    · obtain ⟨ds, h1, _, h3, h4⟩ := ih (n / 10) (digitByte n :: acc) (by omega)
      refine ⟨ds ++ [digitByte n], by simp [h0, h1], by simp, ?_, ?_⟩
      · rw [allDigits_append, h3]
        simp [allDigits, digitByte_isDigit n]
      · rw [decValue_append, h4, digitByte_toNat]
        omega

theorem natDec_spec (n : Nat) :
    natDec n ≠ [] ∧ allDigits (natDec n) = true ∧ decValue (natDec n) = n := by
  obtain ⟨ds, h1, h2, h3, h4⟩ := natDecAux_spec (n + 1) n [] (by omega)
  simp only [List.append_nil] at h1
  rw [natDec, h1]
  exact ⟨h2, h3, h4⟩

theorem frac6_spec (n : Nat) :
    (frac6 n).length = 6 ∧ allDigits (frac6 n) = true ∧ decValue (frac6 n) = n % 10 ^ 6 := by
  refine ⟨rfl, ?_, ?_⟩
  · simp [frac6, allDigits, digitByte_isDigit]
  · simp only [frac6, decValue, List.foldl_cons, List.foldl_nil, digitByte_toNat]
    omega

theorem spanDigits_dot (ds rest : GoString) (h : allDigits ds = true) :
    spanDigits (ds ++ B '.' :: rest) = (ds, B '.' :: rest) := by
  induction ds with
  | nil => simp [spanDigits, show ¬ (B '0' ≤ B '.') by decide]
  | cons d ds ih =>
    simp only [allDigits, List.all_cons, Bool.and_eq_true, decide_eq_true_eq] at h
    have ih := ih (by simpa [allDigits] using h.2)
    simp only [List.cons_append, spanDigits]
    simp [h.1, ih]

theorem readFixed6_build (neg : Bool) (ds fr : GoString) (h1 : ds ≠ [])
    (h2 : allDigits ds = true) (f1 : fr.length = 6) (f2 : allDigits fr = true) :
    readFixed6 ((if neg then [B '-'] else []) ++ ds ++ [B '.'] ++ fr) =
      some (neg, decValue ds * 10 ^ 6 + decValue fr) := by
  have hspan := spanDigits_dot ds fr h2
  have hhead : startsWith (ds ++ B '.' :: fr) (bytes "-") = false := by
    cases ds with
    | nil => exact absurd rfl h1
    | cons d ds =>
      simp only [allDigits, List.all_cons, Bool.and_eq_true, decide_eq_true_eq] at h2
      have : d ≠ B '-' := by
        intro hh
        rw [hh] at h2
        exact absurd h2.1.1 (by decide)
      simp [show bytes "-" = [B '-'] by decide, startsWith_single, this]
  cases neg with
  | true =>
    have e1 : (if true = true then [B '-'] else []) ++ ds ++ [B '.'] ++ fr =
        B '-' :: (ds ++ B '.' :: fr) := by simp
    rw [e1]
    unfold readFixed6
    simp only [show bytes "-" = [B '-'] by decide, startsWith_single, beq_self_eq_true,
      if_true, List.drop_succ_cons, List.drop_zero, hspan]
    simp [h1, f1, f2]
  | false =>
    have e1 : (if false = true then [B '-'] else []) ++ ds ++ [B '.'] ++ fr =
        ds ++ B '.' :: fr := by simp
    rw [e1]
    unfold readFixed6
    simp only [hhead, Bool.false_eq_true, if_false]
    rw [hspan]
    simp [h1, f1, f2]

theorem readFixed6_sprintfF (neg : Bool) (m : Nat) (e : Int) :
    readFixed6 (sprintfF (.finite neg m e)) = some (neg, scaled6 m e) := by
  obtain ⟨h1, h2, h3⟩ := natDec_spec (scaled6 m e / 10 ^ 6)
  obtain ⟨f1, f2, f3⟩ := frac6_spec (scaled6 m e)
  have hval : scaled6 m e / 10 ^ 6 * 10 ^ 6 + scaled6 m e % 10 ^ 6 = scaled6 m e := by
    omega
  have hs : sprintfF (.finite neg m e) = (if neg then [B '-'] else []) ++
      natDec (scaled6 m e / 10 ^ 6) ++ [B '.'] ++ frac6 (scaled6 m e) := rfl
  rw [hs, readFixed6_build neg _ _ h1 h2 f1 f2, h3, f3, hval]

theorem roundHalfEven_near (num den : Nat) (h : 0 < den) :
    2 * num ≤ 2 * (roundHalfEven num den * den) + den ∧
      2 * (roundHalfEven num den * den) ≤ 2 * num + den := by
  have h1 := Nat.div_add_mod num den
  have h2 := Nat.mod_lt num h
  unfold roundHalfEven
  simp only []
  generalize num / den = q at *
  generalize num % den = r at *
  have h3 : q * den = den * q := Nat.mul_comm _ _
  split
  · rename_i hc
    rw [Nat.add_mul, h3]
    rcases hc with hc | ⟨hc, _⟩ <;> omega
  · rename_i hc
    rw [h3]
    have : ¬ (2 * r > den) := fun hh => hc (Or.inl hh)
    omega

/-- The numeral `%f` writes is the value rounded to the nearest millionth. -/
theorem scaled6_near (m : Nat) (e : Int) :
    |(m : ℚ) * (2 : ℚ) ^ e * 10 ^ 6 - (scaled6 m e : ℚ)| ≤ 1 / 2 := by
  unfold scaled6
  split
  · rename_i he
    obtain ⟨a, rfl⟩ := Int.eq_ofNat_of_zero_le he
    simp only [Int.toNat_ofNat, zpow_natCast]
    push_cast
    norm_num
  · rename_i he
    obtain ⟨b, hb⟩ : ∃ b : Nat, e = -(b : Int) := ⟨(-e).toNat, by omega⟩
    subst hb
    simp only [neg_neg, Int.toNat_ofNat, zpow_neg, zpow_natCast]
    have hden : (0 : ℚ) < (2 : ℚ) ^ b := by positivity
    obtain ⟨h1, h2⟩ := roundHalfEven_near (m * 10 ^ 6) (2 ^ b) (by positivity)
    have h1q : ((2 * (m * 10 ^ 6) : Nat) : ℚ) ≤
        ((2 * (roundHalfEven (m * 10 ^ 6) (2 ^ b) * 2 ^ b) + 2 ^ b : Nat) : ℚ) := by
      exact_mod_cast h1
    have h2q : ((2 * (roundHalfEven (m * 10 ^ 6) (2 ^ b) * 2 ^ b) : Nat) : ℚ) ≤
        ((2 * (m * 10 ^ 6) + 2 ^ b : Nat) : ℚ) := by
      exact_mod_cast h2
    push_cast at h1q h2q
    have key : (m : ℚ) * ((2 : ℚ) ^ b)⁻¹ * 10 ^ 6 -
        (roundHalfEven (m * 10 ^ 6) (2 ^ b) : ℚ) =
        ((m : ℚ) * 10 ^ 6 - (roundHalfEven (m * 10 ^ 6) (2 ^ b) : ℚ) * 2 ^ b) / 2 ^ b := by
      field_simp
      ring
    rw [key, abs_le]
    constructor
    · rw [le_div_iff₀ hden]
      linarith
    · rw [div_le_iff₀ hden]
      linarith

/-! ### The request URL (`apiCall`, lines 87 to 97) -/

/-- C1 as stated fails: a base URL with a query of its own keeps its keys in
the built query, here `q` and `units` next to `APPID`, `lat` and `lon`. -/
theorem query_has_other_keys_counterexample :
    Parse paramsWithQuery.BaseURL =
      .ok { Scheme := bytes "https", Host := bytes "api.example.com",
            Path := bytes "/data/2.5/", RawQuery := bytes "units=metric&q=" } ∧
    apiCallURL paramsWithQuery (bytes "weather") =
      .ok { Scheme := bytes "https", Host := bytes "api.example.com",
            Path := bytes "/data/2.5/",
            RawQuery := bytes "APPID=abc&lat=-20.272967&lon=30.934364&q=weather&units=metric" } ∧
    queryValues (bytes "APPID=abc&lat=-20.272967&lon=30.934364&q=weather&units=metric")
      (bytes "units") = [bytes "metric"] := by
  refine ⟨by decide, by decide, by decide⟩

theorem apiCallURL_of_parse (p : weatherParams) (path : GoString) (u0 u : URL)
    (h0 : Parse (p.BaseURL ++ path) = .ok u0) (hu : apiCallURL p path = .ok u) :
    u.RawQuery = Values.Encode
      (Values.Set (Values.Set (Values.Set u0.Query (bytes "APPID") p.APPID)
        (bytes "lat") (sprintfF p.Coord.Lat)) (bytes "lon") (sprintfF p.Coord.Lon)) := by
  simp only [apiCallURL, h0] at hu
  injection hu with hu
  rw [← hu]

/-- C1, amended: when `BaseURL + path` parses, the query string of the built
URL contains `APPID`, `lat` and `lon` exactly once each; every other key has
exactly the values it has in the query of `BaseURL + path`; so when
`BaseURL + path` has no query, the built query is `APPID=..&lat=..&lon=..`
and has no other key. -/
theorem query_has_three_keys_once (p : weatherParams) (path : GoString) (u0 : URL)
    (h0 : Parse (p.BaseURL ++ path) = .ok u0) :
    ∃ u, apiCallURL p path = .ok u ∧
      (queryValues u.RawQuery (bytes "APPID")).length = 1 ∧
      (queryValues u.RawQuery (bytes "lat")).length = 1 ∧
      (queryValues u.RawQuery (bytes "lon")).length = 1 ∧
      (∀ k, k ≠ bytes "APPID" → k ≠ bytes "lat" → k ≠ bytes "lon" →
        queryValues u.RawQuery k = queryValues u0.RawQuery k) ∧
      (u0.RawQuery = [] →
        u.RawQuery = bytes "APPID=" ++ QueryEscape p.APPID ++ bytes "&lat=" ++
          QueryEscape (sprintfF p.Coord.Lat) ++ bytes "&lon=" ++
          QueryEscape (sprintfF p.Coord.Lon) ∧
        ∀ k, k ≠ bytes "APPID" → k ≠ bytes "lat" → k ≠ bytes "lon" →
          queryValues u.RawQuery k = []) := by
  obtain ⟨u, hu, hq⟩ := apiCallURL_queryValues p path u0 h0
  have d1 : bytes "lat" ≠ bytes "lon" := by decide
  have d2 : bytes "APPID" ≠ bytes "lon" := by decide
  have d3 : bytes "APPID" ≠ bytes "lat" := by decide
  refine ⟨u, hu, by simp [hq, d2, d3], by simp [hq, d1], by simp [hq], ?_, ?_⟩
  · intro k h1 h2 h3
    simp [hq, h1, h2, h3]
  · intro hraw
    have hu2 := apiCallURL_of_parse p path u0 u h0 hu
    have hq0 : u0.Query = [] := by
      simp [URL.Query, hraw, ParseQuery, parseQueryLoop]
    refine ⟨by rw [hu2, hq0, Encode_three], ?_⟩
    intro k h1 h2 h3
    rw [hq k]
    simp [h1, h2, h3, hraw, queryValues, ParseQuery, parseQueryLoop, Values.lookup]

/-- C1, amended, at the example of the specification. -/
theorem query_has_three_keys_once_witness :
    ∃ u, apiCallURL exampleParams (bytes "weather") = .ok u ∧
      (queryValues u.RawQuery (bytes "APPID")).length = 1 ∧
      (queryValues u.RawQuery (bytes "lat")).length = 1 ∧
      (queryValues u.RawQuery (bytes "lon")).length = 1 :=
  have h0 : Parse (exampleParams.BaseURL ++ bytes "weather") =
      .ok { Scheme := bytes "https", Host := bytes "api.example.com",
            Path := bytes "/data/2.5/weather" } := by decide
  match query_has_three_keys_once exampleParams (bytes "weather") _ h0 with
  | ⟨u, hu, h1, h2, h3, _⟩ => ⟨u, hu, h1, h2, h3⟩

/-- C2 as stated fails: a NaN latitude (the flag accepts it) is written as
`NaN`, which is not a decimal fixed-point numeral. -/
theorem nan_latitude_counterexample :
    apiCallURL paramsNaN (bytes "weather") =
      .ok { Scheme := bytes "https", Host := bytes "api.example.com",
            Path := bytes "/data/2.5/weather",
            RawQuery := bytes "APPID=abc&lat=NaN&lon=30.934364" } ∧
    queryValues (bytes "APPID=abc&lat=NaN&lon=30.934364") (bytes "lat") = [bytes "NaN"] ∧
    readFixed6 (bytes "NaN") = none := by
  refine ⟨by decide, by decide, by decide⟩

/-- C2, amended: in the query of the URL that `apiCall` builds, `APPID`
decodes to the given key and `lat` and `lon` decode to `%f` of the
coordinates; for a finite coordinate that text is a decimal numeral with
exactly six fractional digits, with the sign of the coordinate, whose value is
the coordinate rounded to the nearest millionth.  The example of the
specification gives `APPID=abc&lat=-20.272967&lon=30.934364`. -/
theorem query_values_fixed_point (p : weatherParams) (path : GoString) (u : URL)
    (h : apiCallURL p path = .ok u) :
    queryValues u.RawQuery (bytes "APPID") = [p.APPID] ∧
    queryValues u.RawQuery (bytes "lat") = [sprintfF p.Coord.Lat] ∧
    queryValues u.RawQuery (bytes "lon") = [sprintfF p.Coord.Lon] ∧
    (∀ x, x = p.Coord.Lat ∨ x = p.Coord.Lon → ∀ neg m e, x = .finite neg m e →
      readFixed6 (sprintfF x) = some (neg, scaled6 m e) ∧
      |(m : ℚ) * (2 : ℚ) ^ e * 10 ^ 6 - (scaled6 m e : ℚ)| ≤ 1 / 2) ∧
    (apiCallURL exampleParams (bytes "weather")).map URL.RawQuery =
      .ok (bytes "APPID=abc&lat=-20.272967&lon=30.934364") := by
  have hp : ∃ u0, Parse (p.BaseURL ++ path) = .ok u0 := by
    cases hp : Parse (p.BaseURL ++ path) with
    | ok u0 => exact ⟨u0, rfl⟩
    | error e => simp [apiCallURL, hp] at h
  obtain ⟨u0, h0⟩ := hp
  obtain ⟨u1, hu, hq⟩ := apiCallURL_queryValues p path u0 h0
  rw [h] at hu
  injection hu with hu
  subst hu
  have d1 : bytes "lat" ≠ bytes "lon" := by decide
  have d2 : bytes "APPID" ≠ bytes "lon" := by decide
  have d3 : bytes "APPID" ≠ bytes "lat" := by decide
  refine ⟨by simp [hq, d2, d3], by simp [hq, d1], by simp [hq], ?_, by decide⟩
  intro x _ neg m e hx
  subst hx
  exact ⟨readFixed6_sprintfF neg m e, scaled6_near m e⟩

/-- C2, amended, at the example of the specification. -/
theorem query_values_fixed_point_witness :
    queryValues exampleURL.RawQuery (bytes "APPID") = [bytes "abc"] ∧
    queryValues exampleURL.RawQuery (bytes "lat") = [bytes "-20.272967"] ∧
    queryValues exampleURL.RawQuery (bytes "lon") = [bytes "30.934364"] :=
  have h := query_values_fixed_point exampleParams (bytes "weather") exampleURL (by decide)
  ⟨h.1, h.2.1, h.2.2.1⟩

/-- C9 as stated fails in both directions, because `apiCall` parses
`BaseURL + path`, not `BaseURL`: the base URL `https://x/%f` does not parse,
yet with the path `forecast` the request goes out; the base URL
`http://host:80` parses, yet with the path `weather` URL construction
fails. -/
theorem base_url_parse_counterexample :
    Parse (bytes "https://x/%f") = .error (.escape (bytes "%f")) ∧
    (apiCall netNotFound { exampleParams with BaseURL := bytes "https://x/%f" }
      (bytes "forecast") []).err = some (.status (bytes "404 Not Found")) ∧
    Parse (bytes "http://host:80") = .ok { Scheme := bytes "http", Host := bytes "host:80" } ∧
    apiCallURL { exampleParams with BaseURL := bytes "http://host:80" } (bytes "weather") =
      .error (.invalidPort (bytes ":80weather")) := by
  refine ⟨by decide, by decide, by decide, by decide⟩

/-- C9, amended: `apiCall` returns a URL-parse error and no bytes, before any
request is sent, exactly when `BaseURL + path` cannot be parsed as a URL; when
`BaseURL + path` parses, URL construction does not fail and `apiCall` returns
no URL-parse error. -/
theorem url_error_iff_concatenation_fails (net : Net) (p : weatherParams) (path : GoString)
    (log : List Event) :
    (∀ e, Parse (p.BaseURL ++ path) = .error e →
      apiCall net p path log = ⟨none, some (.url e), log⟩) ∧
    (∀ u0, Parse (p.BaseURL ++ path) = .ok u0 →
      (∃ u, apiCallURL p path = .ok u) ∧
      ∀ e, (apiCall net p path log).err ≠ some (.url e)) := by
  refine ⟨?_, ?_⟩
  · intro e he
    simp [apiCall, apiCallURL, he]
  · intro u0 h0
    refine ⟨⟨_, by simp only [apiCallURL, h0]; rfl⟩, ?_⟩
    intro e
    simp only [apiCall, apiCallURL, h0]
    repeat' split
    all_goals simp

/-- C9, amended, at the two base URLs of the counterexample. -/
theorem url_error_iff_concatenation_fails_witness :
    apiCall netNotFound { exampleParams with BaseURL := bytes "http://host:80" }
      (bytes "weather") [] = ⟨none, some (.url (.invalidPort (bytes ":80weather"))), []⟩ ∧
    ∃ u, apiCallURL { exampleParams with BaseURL := bytes "https://x/%f" }
      (bytes "forecast") = .ok u :=
  ⟨(url_error_iff_concatenation_fails netNotFound
      { exampleParams with BaseURL := bytes "http://host:80" } (bytes "weather") []).1 _
      (by decide),
    ((url_error_iff_concatenation_fails netNotFound
      { exampleParams with BaseURL := bytes "https://x/%f" } (bytes "forecast") []).2
      { Scheme := bytes "https", Host := bytes "x", Path := [0x2F, 0xFF] ++ bytes "orecast",
        RawPath := bytes "/%fforecast" } (by decide)).1⟩

/-! ### Decoding: which payloads give an error -/

theorem saveError_isSome (err : Option JSONError) (e : JSONError) :
    (saveError err e).isSome = true := by
  cases err <;> rfl

mutual
theorem decodeValue_err : ∀ (ty : Ty) (j : JSON) (v : Val) (err : Option JSONError),
    (decodeValue ty j v err).2.isSome = (err.isSome || badAt ty j)
  | ty, .null, v, err => by
    cases ty <;> simp [decodeValue, badAt]
  | ty, .bool _, v, err => by
    simp [decodeValue, badAt, saveError_isSome]
  | ty, .str s, v, err => by
    cases ty <;> simp [decodeValue, badAt, saveError_isSome]
  | ty, .num lit, v, err => by
    cases ty with
    | int => 
      simp only [decodeValue, badAt]
      cases parseInt lit <;> simp [saveError_isSome]
    | float64 =>
      simp only [decodeValue, badAt]
      cases parseFloat lit <;> simp [saveError_isSome]
    | _ => simp [decodeValue, badAt, saveError_isSome]
  | ty, .arr items, v, err => by
    cases ty with
    | slice elem =>
      cases items with
      | nil => simp [decodeValue, badAt, badAtElems]
      | cons j js =>
        simp only [decodeValue, badAt]
        exact decodeElems_err elem (j :: js) _ err
    | _ => simp [decodeValue, badAt, saveError_isSome]
  | ty, .obj members, v, err => by
    cases ty with
    | struct n fs =>
      simp only [decodeValue, badAt]
      exact decodeMembers_err fs members _ err
    | _ => simp [decodeValue, badAt, saveError_isSome]
theorem decodeElems_err : ∀ (elem : Ty) (items : List JSON) (backing : List Val)
    (err : Option JSONError),
    (decodeElems elem items backing err).2.isSome = (err.isSome || badAtElems elem items)
  | _, [], _, err => by simp [decodeElems, badAtElems]
  | elem, j :: js, backing, err => by
    simp only [decodeElems, badAtElems]
    rw [decodeElems_err elem js, decodeValue_err elem j]
    simp [Bool.or_assoc]
theorem decodeMembers_err : ∀ (fs : List FieldDecl) (ms : List (GoString × JSON))
    (vs : List Val) (err : Option JSONError),
    (decodeMembers fs ms vs err).2.isSome = (err.isSome || badAtMembers fs ms)
  | _, [], _, err => by simp [decodeMembers, badAtMembers]
  | fs, (key, j) :: ms, vs, err => by
    simp only [decodeMembers, badAtMembers]
    cases h : findField fs key with
    | none => simp [decodeMembers_err fs ms]
    | some i =>
      simp only []
      rw [decodeMembers_err fs ms, decodeValue_err _ j]
      simp [Bool.or_assoc]
end

theorem saveError_eq (err : Option JSONError) (e : JSONError) :
    saveError err e = match err with
      | some e0 => some e0
      | none => some e := by
  cases err <;> rfl

mutual
theorem decodeValue_val : ∀ (ty : Ty) (j : JSON) (v : Val) (err : Option JSONError),
    (decodeValue ty j v err).1 = (decodeValue ty j v none).1
  | ty, .null, v, err => by cases ty <;> simp [decodeValue]
  | _, .bool _, v, err => by simp [decodeValue]
  | ty, .str s, v, err => by cases ty <;> simp [decodeValue]
  | ty, .num lit, v, err => by
    cases ty with
    | int =>
      simp only [decodeValue]
      cases parseInt lit <;> simp
    | float64 =>
      simp only [decodeValue]
      cases parseFloat lit <;> simp
    | _ => simp [decodeValue]
  | ty, .arr items, v, err => by
    cases ty with
    | slice elem =>
      cases items with
      | nil => simp [decodeValue]
      | cons j js =>
        simp only [decodeValue]
        rw [decodeElems_val elem (j :: js) _ err]
    | _ => simp [decodeValue]
  | ty, .obj members, v, err => by
    cases ty with
    | struct n fs =>
      simp only [decodeValue]
      rw [decodeMembers_val fs members _ err]
    | _ => simp [decodeValue]
theorem decodeElems_val : ∀ (elem : Ty) (items : List JSON) (backing : List Val)
    (err : Option JSONError),
    (decodeElems elem items backing err).1 = (decodeElems elem items backing none).1
  | _, [], _, err => by simp [decodeElems]
  | elem, j :: js, backing, err => by
    simp only [decodeElems]
    rw [decodeElems_val elem js _ (decodeValue elem j _ err).2,
      decodeElems_val elem js _ (decodeValue elem j _ none).2, decodeValue_val elem j _ err]
theorem decodeMembers_val : ∀ (fs : List FieldDecl) (ms : List (GoString × JSON))
    (vs : List Val) (err : Option JSONError),
    (decodeMembers fs ms vs err).1 = (decodeMembers fs ms vs none).1
  | _, [], _, err => by simp [decodeMembers]
  | fs, (key, j) :: ms, vs, err => by
    simp only [decodeMembers]
    cases h : findField fs key with
    | none => simp only []; exact decodeMembers_val fs ms vs err
    | some i =>
      simp only []
      rw [decodeMembers_val fs ms _ (decodeValue _ j _ err).2,
        decodeMembers_val fs ms _ (decodeValue _ j _ none).2, decodeValue_val _ j _ err]
end

theorem decodeElems_fresh (elem : Ty) (items : List JSON) (err : Option JSONError) :
    (decodeElems elem items [] err).1 =
      items.map fun j => (decodeValue elem j elem.zero none).1 := by
  induction items generalizing err with
  | nil => simp [decodeElems]
  | cons j js ih =>
    simp only [decodeElems, List.headD_nil, List.tail_nil, List.map_cons]
    rw [ih, decodeValue_val]

theorem decodeMembers_length (fs : List FieldDecl) (ms : List (GoString × JSON)) :
    ∀ (vs : List Val) (err : Option JSONError),
      (decodeMembers fs ms vs err).1.length = vs.length := by
  induction ms with
  | nil => intro vs err; simp [decodeMembers]
  | cons m ms ih =>
    intro vs err
    obtain ⟨key, j⟩ := m
    simp only [decodeMembers]
    cases findField fs key with
    | none => exact ih vs err
    | some i => simp only []; rw [ih]; simp

theorem decodeMembers_untouched (fs : List FieldDecl) (i : Nat) (d : Val)
    (ms : List (GoString × JSON)) (h : noneSelects fs i ms) :
    ∀ (vs : List Val) (err : Option JSONError),
      (decodeMembers fs ms vs err).1.getD i d = vs.getD i d := by
  induction ms with
  | nil => intro vs err; simp [decodeMembers]
  | cons m ms ih =>
    intro vs err
    obtain ⟨key, j⟩ := m
    have hm : findField fs key ≠ some i := h (key, j) (by simp)
    have hms : noneSelects fs i ms := fun m hmem => h m (by simp [hmem])
    simp only [decodeMembers]
    cases hf : findField fs key with
    | none => exact ih hms vs err
    | some i2 =>
      simp only []
      rw [ih hms]
      have hne : i2 ≠ i := fun e => hm (by rw [hf, e])
      simp [List.getD_eq_getElem?_getD, List.getElem?_set, hne]

theorem decodeMembers_skip (fs : List FieldDecl) (key : GoString) (j : JSON)
    (hkey : findField fs key = none) (pre post : List (GoString × JSON)) :
    ∀ (vs : List Val) (err : Option JSONError),
      decodeMembers fs (pre ++ (key, j) :: post) vs err = decodeMembers fs (pre ++ post) vs err := by
  induction pre with
  | nil => intro vs err; simp [decodeMembers, hkey]
  | cons m pre ih =>
    intro vs err
    obtain ⟨k2, j2⟩ := m
    simp only [List.cons_append, decodeMembers]
    cases findField fs k2 with
    | none => exact ih vs err
    | some i => exact ih _ _

theorem decodeMembers_once (fs : List FieldDecl) (i : Nat) (d : Val) (key : GoString) (j : JSON)
    (hkey : findField fs key = some i) (pre post : List (GoString × JSON))
    (hpre : noneSelects fs i pre) (hpost : noneSelects fs i post) :
    ∀ (vs : List Val) (err : Option JSONError), i < vs.length →
      (decodeMembers fs (pre ++ (key, j) :: post) vs err).1.getD i d =
        (decodeValue (fieldTy fs i) j (vs.getD i (.int 0)) none).1 := by
  induction pre with
  | nil =>
    intro vs err hi
    simp only [List.nil_append, decodeMembers, hkey]
    rw [decodeMembers_untouched fs i d post hpost]
    rw [decodeValue_val]
    simp [List.getD_eq_getElem?_getD, List.getElem?_set, hi, fieldTy]
  | cons m pre ih =>
    intro vs err hi
    obtain ⟨k2, j2⟩ := m
    have hm : findField fs k2 ≠ some i := hpre (k2, j2) (by simp)
    have hpre2 : noneSelects fs i pre := fun m hmem => hpre m (by simp [hmem])
    simp only [List.cons_append, decodeMembers]
    cases hf : findField fs k2 with
    | none => exact ih hpre2 vs err hi
    | some i2 =>
      simp only [List.append_eq]
      rw [ih hpre2 _ _ (by simpa using hi)]
      have hne : i2 ≠ i := fun e => hm (by rw [hf, e])
      simp [List.getD_eq_getElem?_getD, List.getElem?_set, hne]

/-! ### Decoding the response body -/

theorem apiCall_answered (net : Net) (p : weatherParams) (path : GoString) (log : List Event)
    (u : URL) (body : GoString) (h : answered net p path log u body) :
    apiCall net p path log = ⟨some body, none, log ++ [.send u, .readAll, .close]⟩ := by
  obtain ⟨hu, hreq, resp, hdo, hs, hb⟩ := h
  simp [apiCall, hu, hreq, hdo, hs, hb]

theorem answered_netBody (p : weatherParams) (path : GoString) (log : List Event) (u : URL)
    (body : GoString) (hu : apiCallURL p path = .ok u) :
    answered (netBody body) p path log u body :=
  ⟨hu, rfl, _, rfl, rfl, rfl⟩

theorem currentWeather_answered (net : Net) (p : weatherParams) (log : List Event)
    (u : URL) (body : GoString) (h : answered net p (bytes "weather") log u body) :
    currentWeather net p log =
      match (Unmarshal body Ty.CurrentWeather Ty.CurrentWeather.zero).2 with
      | some err => ⟨none, some (.json err), log ++ [.send u, .readAll, .close]⟩
      | none => ⟨some (Unmarshal body Ty.CurrentWeather Ty.CurrentWeather.zero).1, none,
          log ++ [.send u, .readAll, .close]⟩ := by
  simp only [currentWeather, apiCall_answered net p _ log u body h, Option.getD_some]

theorem forecast_answered (net : Net) (p : weatherParams) (log : List Event)
    (u : URL) (body : GoString) (h : answered net p (bytes "forecast") log u body) :
    forecast net p log =
      match (Unmarshal body Ty.Forecast Ty.Forecast.zero).2 with
      | some err => ⟨none, some (.json err), log ++ [.send u, .readAll, .close]⟩
      | none => ⟨some (Unmarshal body Ty.Forecast Ty.Forecast.zero).1, none,
          log ++ [.send u, .readAll, .close]⟩ := by
  simp only [forecast, apiCall_answered net p _ log u body h, Option.getD_some]

/-- C4: when the body of a status-200 response is not well-formed JSON,
`currentWeather` and `forecast` each return the syntax error of
`json.Unmarshal` and a nil record. -/
theorem malformed_json_yields_error (net : Net) (p : weatherParams) (log : List Event)
    (u : URL) (body : GoString) (hbad : parseJSON body = none) :
    (answered net p (bytes "weather") log u body →
      currentWeather net p log =
        ⟨none, some (.json .syntax_), log ++ [.send u, .readAll, .close]⟩) ∧
    (answered net p (bytes "forecast") log u body →
      forecast net p log = ⟨none, some (.json .syntax_), log ++ [.send u, .readAll, .close]⟩) := by
  refine ⟨?_, ?_⟩
  · intro h
    rw [currentWeather_answered net p log u body h]
    simp [Unmarshal, hbad]
  · intro h
    rw [forecast_answered net p log u body h]
    simp [Unmarshal, hbad]

/-- C4 at a concrete input: the body `nope`, and a body cut off in the middle
of an object. -/
theorem malformed_json_yields_error_witness :
    currentWeather (netBody (bytes "nope")) exampleParams [] =
      ⟨none, some (.json .syntax_), [.send exampleURL, .readAll, .close]⟩ ∧
    parseJSON (bytes "\x7b\"coord\":\x7b\"lat\":1") = none :=
  ⟨(malformed_json_yields_error (netBody (bytes "nope")) exampleParams [] exampleURL
      (bytes "nope") rfl).1
      (answered_netBody exampleParams _ [] exampleURL _ (by decide)),
    rfl⟩

mutual
theorem decodeValue_noSyntax : ∀ (ty : Ty) (j : JSON) (v : Val) (err : Option JSONError),
    err ≠ some .syntax_ → (decodeValue ty j v err).2 ≠ some .syntax_
  | ty, .null, v, err, h => by cases ty <;> simpa [decodeValue] using h
  | _, .bool _, v, err, h => by
    cases err <;> simp_all [decodeValue, saveError]
  | ty, .str s, v, err, h => by
    cases ty <;> cases err <;> simp_all [decodeValue, saveError]
  | ty, .num lit, v, err, h => by
    cases ty with
    | int =>
      simp only [decodeValue]
      cases parseInt lit <;> cases err <;> simp_all [saveError]
    | float64 =>
      simp only [decodeValue]
      cases parseFloat lit <;> cases err <;> simp_all [saveError]
    | _ => cases err <;> simp_all [decodeValue, saveError]
  | ty, .arr items, v, err, h => by
    cases ty with
    | slice elem =>
      cases items with
      | nil => simpa [decodeValue] using h
      | cons j js =>
        simp only [decodeValue]
        exact decodeElems_noSyntax elem (j :: js) _ err h
    | _ => cases err <;> simp_all [decodeValue, saveError]
  | ty, .obj members, v, err, h => by
    cases ty with
    | struct n fs =>
      simp only [decodeValue]
      exact decodeMembers_noSyntax fs members _ err h
    | _ => cases err <;> simp_all [decodeValue, saveError]
theorem decodeElems_noSyntax : ∀ (elem : Ty) (items : List JSON) (backing : List Val)
    (err : Option JSONError),
    err ≠ some .syntax_ → (decodeElems elem items backing err).2 ≠ some .syntax_
  | _, [], _, err, h => by simpa [decodeElems] using h
  | elem, j :: js, backing, err, h => by
    simp only [decodeElems]
    exact decodeElems_noSyntax elem js _ _ (decodeValue_noSyntax elem j _ err h)
theorem decodeMembers_noSyntax : ∀ (fs : List FieldDecl) (ms : List (GoString × JSON))
    (vs : List Val) (err : Option JSONError),
    err ≠ some .syntax_ → (decodeMembers fs ms vs err).2 ≠ some .syntax_
  | _, [], _, err, h => by simpa [decodeMembers] using h
  | fs, (key, j) :: ms, vs, err, h => by
    simp only [decodeMembers]
    cases hf : findField fs key with
    | none => exact decodeMembers_noSyntax fs ms vs err h
    | some i => exact decodeMembers_noSyntax fs ms _ _ (decodeValue_noSyntax _ j _ err h)
end

theorem Unmarshal_parsed (body : GoString) (j : JSON) (ty : Ty) (v : Val)
    (hj : parseJSON body = some j) : Unmarshal body ty v = decodeValue ty j v none := by
  simp [Unmarshal, hj]

/-- After a successful parse, `Unmarshal` returns an error exactly when a
value of the wrong kind is met, and the error is an `UnmarshalTypeError`. -/
theorem Unmarshal_err (body : GoString) (j : JSON) (ty : Ty) (v : Val)
    (hj : parseJSON body = some j) :
    (badAt ty j = true → ∃ value type,
      (Unmarshal body ty v).2 = some (.unmarshalType value type)) ∧
    (badAt ty j = false → (Unmarshal body ty v).2 = none) := by
  rw [Unmarshal_parsed body j ty v hj]
  have h1 := decodeValue_err ty j v none
  have h2 := decodeValue_noSyntax ty j v none (by simp)
  refine ⟨?_, ?_⟩
  · intro hb
    rw [hb] at h1
    cases he : (decodeValue ty j v none).2 with
    | none => simp [he] at h1
    | some e =>
      cases e with
      | syntax_ => exact absurd he h2
      | unmarshalType value type => exact ⟨value, type, rfl⟩
  · intro hb
    rw [hb] at h1
    cases he : (decodeValue ty j v none).2 with
    | none => rfl
    | some e => simp [he] at h1

/-- C5 as stated fails: JSON `null` where `CurrentWeather.visibility` expects
an integer is well-formed JSON with a value of another type than the field's,
yet `currentWeather` returns no error and a record (the zero record). -/
theorem null_field_counterexample :
    parseJSON (bytes "\x7b\"visibility\":null\x7d") =
      some (.obj [(bytes "visibility", .null)]) ∧
    currentWeather (netBody (bytes "\x7b\"visibility\":null\x7d")) exampleParams [] =
      ⟨some Ty.CurrentWeather.zero, none, [.send exampleURL, .readAll, .close]⟩ :=
  ⟨rfl, rfl⟩

/-- C5, amended: for a status-200 body that is well-formed JSON,
`currentWeather` (and likewise `forecast`) returns an `UnmarshalTypeError` and
a nil record exactly when a non-null value of the wrong kind is met: in the
payload itself, in a member whose key selects a field of the record shape, or
in an element of an array decoded into a slice field, at any depth.  JSON
`null` is accepted for every field.  Otherwise it returns a record and no
error. -/
theorem type_mismatch_yields_error (net : Net) (p : weatherParams) (log : List Event)
    (u : URL) (body : GoString) (j : JSON) (hj : parseJSON body = some j) :
    (answered net p (bytes "weather") log u body →
      (badAt Ty.CurrentWeather j = true → ∃ value type, currentWeather net p log =
        ⟨none, some (.json (.unmarshalType value type)),
          log ++ [.send u, .readAll, .close]⟩) ∧
      (badAt Ty.CurrentWeather j = false → ∃ cur, currentWeather net p log =
        ⟨some cur, none, log ++ [.send u, .readAll, .close]⟩)) ∧
    (answered net p (bytes "forecast") log u body →
      (badAt Ty.Forecast j = true → ∃ value type, forecast net p log =
        ⟨none, some (.json (.unmarshalType value type)),
          log ++ [.send u, .readAll, .close]⟩) ∧
      (badAt Ty.Forecast j = false → ∃ fore, forecast net p log =
        ⟨some fore, none, log ++ [.send u, .readAll, .close]⟩)) := by
  refine ⟨?_, ?_⟩
  · intro h
    rw [currentWeather_answered net p log u body h]
    obtain ⟨h1, h2⟩ := Unmarshal_err body j Ty.CurrentWeather Ty.CurrentWeather.zero hj
    refine ⟨?_, ?_⟩
    · intro hb
      obtain ⟨value, type, he⟩ := h1 hb
      exact ⟨value, type, by rw [he]⟩
    · intro hb
      exact ⟨_, by rw [h2 hb]⟩
  · intro h
    rw [forecast_answered net p log u body h]
    obtain ⟨h1, h2⟩ := Unmarshal_err body j Ty.Forecast Ty.Forecast.zero hj
    refine ⟨?_, ?_⟩
    · intro hb
      obtain ⟨value, type, he⟩ := h1 hb
      exact ⟨value, type, by rw [he]⟩
    · intro hb
      exact ⟨_, by rw [h2 hb]⟩

/-- C5, amended, at the three examples of the claim: a string for
`visibility`, a non-integer number for `main.pressure`, a number for the
forecast's `cod`. -/
theorem type_mismatch_yields_error_witness :
    (∃ value type, currentWeather (netBody (bytes "\x7b\"visibility\":\"far\"\x7d"))
      exampleParams [] = ⟨none, some (.json (.unmarshalType value type)),
        [.send exampleURL, .readAll, .close]⟩) ∧
    badAt Ty.CurrentWeather (.obj [(bytes "main", .obj [(bytes "pressure",
      .num (bytes "1013.5"))])]) = true ∧
    badAt Ty.Forecast (.obj [(bytes "cod", .num (bytes "200"))]) = true :=
  ⟨((type_mismatch_yields_error (netBody (bytes "\x7b\"visibility\":\"far\"\x7d"))
      exampleParams [] exampleURL (bytes "\x7b\"visibility\":\"far\"\x7d")
      (.obj [(bytes "visibility", .str (bytes "far"))]) rfl).1
      (answered_netBody exampleParams _ [] exampleURL _ (by decide))).1 rfl,
    rfl, rfl⟩

theorem zeros_length (fs : List FieldDecl) : (Ty.zeros fs).length = fs.length := by
  induction fs with
  | nil => rfl
  | cons f fs ih =>
    obtain ⟨a, b, c, t⟩ := f
    simp [Ty.zeros, ih]

theorem zeros_getD (fs : List FieldDecl) (d : Val) :
    ∀ (i : Nat), i < fs.length → (Ty.zeros fs).getD i d = (fieldTy fs i).zero := by
  induction fs with
  | nil => intro i hi; simp at hi
  | cons f fs ih =>
    intro i hi
    obtain ⟨a, b, c, t⟩ := f
    cases i with
    | zero => simp [Ty.zeros, fieldTy, FieldDecl.ty]
    | succ i =>
      have := ih i (by simpa using hi)
      simpa [Ty.zeros, fieldTy] using this

theorem selects_Forecast_List (key : GoString) :
    selects Ty.Forecast "List" key = true ↔ findField Ty.Forecast.fields key = some 3 := by
  have h : Ty.Forecast.fields.findIdx? (fun f => f.1 == "List") = some 3 := by decide
  simp only [selects, h]
  cases findField Ty.Forecast.fields key with
  | none => simp
  | some i => simp

theorem selects_Item_Rain (key : GoString) :
    selects Ty.Item "Rain" key = true ↔ findField Ty.Item.fields key = some 7 := by
  have h : Ty.Item.fields.findIdx? (fun f => f.1 == "Rain") = some 7 := by decide
  simp only [selects, h]
  cases findField Ty.Item.fields key with
  | none => simp
  | some i => simp

/-- C6 as stated fails: in this well-formed forecast payload the `"list"`
array has two items, and a second member, `"LIST"`, selects the same field
(keys match without regard to case).  `forecast` returns no error and a record
whose `List` has one element, not two; that element is the first item of
`"list"` (`Dt` 1) overwritten by the item of `"LIST"` (`DtTxt` "x"). -/
theorem duplicate_list_key_counterexample :
    parseJSON (bytes ("\x7b\"list\":[\x7b\"dt\":1\x7d,\x7b\"dt\":2\x7d]," ++
        "\"LIST\":[\x7b\"dt_txt\":\"x\"\x7d]\x7d")) =
      some (.obj [(bytes "list", .arr [.obj [(bytes "dt", .num (bytes "1"))],
          .obj [(bytes "dt", .num (bytes "2"))]]),
        (bytes "LIST", .arr [.obj [(bytes "dt_txt", .str (bytes "x"))]])]) ∧
    (forecast (netBody (bytes ("\x7b\"list\":[\x7b\"dt\":1\x7d,\x7b\"dt\":2\x7d]," ++
        "\"LIST\":[\x7b\"dt_txt\":\"x\"\x7d]\x7d"))) exampleParams []).err = none ∧
    (forecast (netBody (bytes ("\x7b\"list\":[\x7b\"dt\":1\x7d,\x7b\"dt\":2\x7d]," ++
        "\"LIST\":[\x7b\"dt_txt\":\"x\"\x7d]\x7d"))) exampleParams []).val.map
        (fun fore => (fore.get Ty.Forecast "List").elems) =
      some [.struct [.int 1, Ty.Main.zero, .slice true [] [], Ty.Clouds.zero, Ty.Wind.zero,
        Ty.Sys.zero, .str (bytes "x"), Ty.Rain.zero]] :=
  ⟨rfl, rfl, rfl⟩

/-- C6, amended: when the forecast request is answered with a JSON object in
which exactly one member selects the field `List` (by the name `list` or by
that name without regard to case), that member is an array of `N` items, and
no value is of the wrong kind, `forecast` returns a record whose `List` has
length `N` and whose `i`-th element is the `i`-th item decoded into a zero
`Item`. -/
theorem forecast_list_in_order (net : Net) (p : weatherParams) (log : List Event) (u : URL)
    (body : GoString) (pre post : List (GoString × JSON)) (key : GoString) (items : List JSON)
    (hans : answered net p (bytes "forecast") log u body)
    (hj : parseJSON body = some (.obj (pre ++ (key, .arr items) :: post)))
    (hkey : selects Ty.Forecast "List" key = true)
    (hpre : ∀ m ∈ pre, selects Ty.Forecast "List" m.1 = false)
    (hpost : ∀ m ∈ post, selects Ty.Forecast "List" m.1 = false)
    (hgood : badAt Ty.Forecast (.obj (pre ++ (key, .arr items) :: post)) = false) :
    ∃ fore, forecast net p log = ⟨some fore, none, log ++ [.send u, .readAll, .close]⟩ ∧
      (fore.get Ty.Forecast "List").elems.length = items.length ∧
      ∀ i (hi : i < items.length), (fore.get Ty.Forecast "List").elems[i]? =
        some (decodeValue Ty.Item items[i] Ty.Item.zero none).1 := by
  have herr := (Unmarshal_err body _ Ty.Forecast Ty.Forecast.zero hj).2 hgood
  refine ⟨(Unmarshal body Ty.Forecast Ty.Forecast.zero).1, ?_, ?_⟩
  · rw [forecast_answered net p log u body hans, herr]
  · have hk := (selects_Forecast_List key).mp hkey
    have hpre2 : noneSelects Ty.Forecast.fields 3 pre := by
      intro m hm hsel
      have := hpre m hm
      rw [(selects_Forecast_List m.1).mpr hsel] at this
      exact absurd this (by simp)
    have hpost2 : noneSelects Ty.Forecast.fields 3 post := by
      intro m hm hsel
      have := hpost m hm
      rw [(selects_Forecast_List m.1).mpr hsel] at this
      exact absurd this (by simp)
    have hget : ∀ r : Val, r.get Ty.Forecast "List" = r.fields.getD 3 (.int 0) := by
      intro r
      have h : Ty.Forecast.fields.findIdx? (fun f => f.1 == "List") = some 3 := by decide
      simp only [Val.get, h]
    have hfields : (Unmarshal body Ty.Forecast Ty.Forecast.zero).1.fields =
        (decodeMembers Ty.Forecast.fields (pre ++ (key, .arr items) :: post)
          (Ty.zeros Ty.Forecast.fields) none).1 := by
      rw [Unmarshal_parsed body _ _ _ hj]
      rfl
    have hlist : (Unmarshal body Ty.Forecast Ty.Forecast.zero).1.get Ty.Forecast "List" =
        (decodeValue (.slice Ty.Item) (.arr items) (.slice true [] []) none).1 := by
      rw [hget, hfields, decodeMembers_once Ty.Forecast.fields 3 (.int 0) key (.arr items) hk
        pre post hpre2 hpost2 _ none (by decide)]
      rfl
    have helems : ((Unmarshal body Ty.Forecast Ty.Forecast.zero).1.get Ty.Forecast "List").elems =
        items.map fun j => (decodeValue Ty.Item j Ty.Item.zero none).1 := by
      rw [hlist]
      cases items with
      | nil => simp [decodeValue, Val.elems]
      | cons j js =>
        simp only [decodeValue, Val.elems, List.nil_append]
        exact decodeElems_fresh Ty.Item (j :: js) none
    rw [helems]
    refine ⟨by simp, ?_⟩
    intro i hi
    simp [List.getElem?_map, List.getElem?_eq_getElem hi]

/-- C6, amended, at a concrete input: a forecast payload with two list items
between two other members; the decoded `List` has the two items, in order. -/
theorem forecast_list_in_order_witness :
    ∃ fore, forecast (netBody (bytes
        "\x7b\"cod\":\"200\",\"list\":[\x7b\"dt\":1\x7d,\x7b\"dt\":2\x7d],\"cnt\":2\x7d"))
        exampleParams [] =
        ⟨some fore, none, [.send { exampleURL with Path := bytes "/data/2.5/forecast" },
          .readAll, .close]⟩ ∧
      (fore.get Ty.Forecast "List").elems.length = 2 ∧
      (fore.get Ty.Forecast "List").elems[0]? =
        some (.struct [.int 1, Ty.Main.zero, .slice true [] [], Ty.Clouds.zero, Ty.Wind.zero,
          Ty.Sys.zero, .str [], Ty.Rain.zero]) ∧
      (fore.get Ty.Forecast "List").elems[1]? =
        some (.struct [.int 2, Ty.Main.zero, .slice true [] [], Ty.Clouds.zero, Ty.Wind.zero,
          Ty.Sys.zero, .str [], Ty.Rain.zero]) :=
  match forecast_list_in_order (netBody (bytes
      "\x7b\"cod\":\"200\",\"list\":[\x7b\"dt\":1\x7d,\x7b\"dt\":2\x7d],\"cnt\":2\x7d"))
      exampleParams [] { exampleURL with Path := bytes "/data/2.5/forecast" } _
      [(bytes "cod", .str (bytes "200"))] [(bytes "cnt", .num (bytes "2"))] (bytes "list")
      [.obj [(bytes "dt", .num (bytes "1"))], .obj [(bytes "dt", .num (bytes "2"))]]
      (answered_netBody exampleParams _ [] _ _ (by decide)) rfl (by decide) (by decide)
      (by decide) rfl with
  | ⟨fore, h1, h2, h3⟩ => ⟨fore, h1, h2, h3 0 (by decide), h3 1 (by decide)⟩

theorem decodeValue_obj_skip (ty : Ty) (key : GoString) (j : JSON)
    (hkey : findField ty.fields key = none) (pre post : List (GoString × JSON)) (v : Val)
    (err : Option JSONError) :
    decodeValue ty (.obj (pre ++ (key, j) :: post)) v err =
      decodeValue ty (.obj (pre ++ post)) v err := by
  cases ty with
  | struct n fs =>
    simp only [decodeValue]
    rw [decodeMembers_skip fs key j hkey pre post]
  | _ => simp [decodeValue]

/-- C8 as stated fails: the key `VISIBILITY` is not the name of any field of
`CurrentWeather`, yet adding it to the payload changes the decoded record,
because `encoding/json` also matches keys to field names without regard to
case. -/
theorem case_insensitive_key_counterexample :
    bytes "VISIBILITY" ∉ Ty.CurrentWeather.fields.map (fun f => bytes f.tag) ∧
    (currentWeather (netBody (bytes "\x7b\"visibility\":1\x7d")) exampleParams []).val.map
      (Val.get Ty.CurrentWeather "Visibility") = some (.int 1) ∧
    (currentWeather (netBody (bytes "\x7b\"visibility\":1,\"VISIBILITY\":7\x7d"))
      exampleParams []).val.map (Val.get Ty.CurrentWeather "Visibility") = some (.int 7) :=
  ⟨by decide, rfl, rfl⟩

/-- C8, amended: in the record decoded from a JSON object, every field that
no key of the object selects (by its exact name or by its name without regard
to case) has its zero value, for every struct type; in particular a forecast
item with no key selecting `rain` has `Rain.ThreeH = 0`.  Adding to the
object a member whose key selects no field, wherever it is put and whatever
its value, leaves the result of `json.Unmarshal` unchanged, the error
included, and so the results of `currentWeather` and `forecast`. -/
theorem absent_fields_zero_extra_keys_ignored :
    (∀ (name : String) (fs : List FieldDecl) (ms : List (GoString × JSON)) (i : Nat),
      i < fs.length → noneSelects fs i ms →
      (decodeValue (.struct name fs) (.obj ms) (Ty.zero (.struct name fs)) none).1.fields[i]? =
        some (fieldTy fs i).zero) ∧
    (∀ ms : List (GoString × JSON), (∀ m ∈ ms, selects Ty.Item "Rain" m.1 = false) →
      ((decodeValue Ty.Item (.obj ms) Ty.Item.zero none).1.get Ty.Item "Rain").get
        Ty.Rain "ThreeH" = .float (.finite false 0 (-1074))) ∧
    (∀ (ty : Ty) (body body2 : GoString) (pre post : List (GoString × JSON)) (key : GoString)
      (j : JSON) (v : Val),
      parseJSON body = some (.obj (pre ++ post)) →
      parseJSON body2 = some (.obj (pre ++ (key, j) :: post)) →
      findField ty.fields key = none →
      Unmarshal body2 ty v = Unmarshal body ty v) ∧
    (∀ (net net2 : Net) (p : weatherParams) (log : List Event) (u : URL) (body body2 : GoString)
      (pre post : List (GoString × JSON)) (key : GoString) (j : JSON),
      parseJSON body = some (.obj (pre ++ post)) →
      parseJSON body2 = some (.obj (pre ++ (key, j) :: post)) →
      (findField Ty.CurrentWeather.fields key = none →
        answered net p (bytes "weather") log u body →
        answered net2 p (bytes "weather") log u body2 →
        currentWeather net2 p log = currentWeather net p log) ∧
      (findField Ty.Forecast.fields key = none →
        answered net p (bytes "forecast") log u body →
        answered net2 p (bytes "forecast") log u body2 →
        forecast net2 p log = forecast net p log)) := by
  refine ⟨?_, ?_, ?_, ?_⟩
  · intro name fs ms i hi hsel
    have hlen : i < ((decodeMembers fs ms (Ty.zeros fs) none).1).length := by
      rw [decodeMembers_length, zeros_length]
      exact hi
    have h := decodeMembers_untouched fs i (.int 0) ms hsel (Ty.zeros fs) none
    rw [zeros_getD fs _ i hi] at h
    simp only [decodeValue, Ty.zero, Val.fields]
    rw [List.getD_eq_getElem?_getD, List.getElem?_eq_getElem hlen] at h
    rw [List.getElem?_eq_getElem hlen]
    simpa using h
  · intro ms hsel
    have hns : noneSelects Ty.Item.fields 7 ms := by
      intro m hm hf
      have := hsel m hm
      rw [(selects_Item_Rain m.1).mpr hf] at this
      exact absurd this (by simp)
    have h := decodeMembers_untouched Ty.Item.fields 7 (.int 0) ms hns
      (Ty.zeros Ty.Item.fields) none
    have hget : ∀ r : Val, r.get Ty.Item "Rain" = r.fields.getD 7 (.int 0) := by
      intro r
      have h : Ty.Item.fields.findIdx? (fun f => f.1 == "Rain") = some 7 := by decide
      simp only [Val.get, h]
    have hfields : (decodeValue Ty.Item (.obj ms) Ty.Item.zero none).1.fields =
        (decodeMembers Ty.Item.fields ms (Ty.zeros Ty.Item.fields) none).1 := rfl
    rw [hget, hfields, h]
    rfl
  · intro ty body body2 pre post key j v h1 h2 hkey
    rw [Unmarshal_parsed body _ ty v h1, Unmarshal_parsed body2 _ ty v h2,
      decodeValue_obj_skip ty key j hkey]
  · intro net net2 p log u body body2 pre post key j h1 h2
    refine ⟨?_, ?_⟩
    · intro hkey ha ha2
      rw [currentWeather_answered net p log u body ha,
        currentWeather_answered net2 p log u body2 ha2,
        Unmarshal_parsed body _ _ _ h1, Unmarshal_parsed body2 _ _ _ h2,
        decodeValue_obj_skip Ty.CurrentWeather key j hkey]
    · intro hkey ha ha2
      rw [forecast_answered net p log u body ha, forecast_answered net2 p log u body2 ha2,
        Unmarshal_parsed body _ _ _ h1, Unmarshal_parsed body2 _ _ _ h2,
        decodeValue_obj_skip Ty.Forecast key j hkey]

/-- C8, amended, at a concrete input: a forecast item without `rain`, and a
current-conditions payload with and without the member `"extra":[1,2]`. -/
theorem absent_fields_zero_extra_keys_ignored_witness :
    ((decodeValue Ty.Item (.obj [(bytes "dt", .num (bytes "1"))]) Ty.Item.zero none).1.get
      Ty.Item "Rain").get Ty.Rain "ThreeH" = .float (.finite false 0 (-1074)) ∧
    currentWeather (netBody (bytes "\x7b\"extra\":[1,2],\"dt\":5\x7d")) exampleParams [] =
      currentWeather (netBody (bytes "\x7b\"dt\":5\x7d")) exampleParams [] :=
  ⟨absent_fields_zero_extra_keys_ignored.2.1 [(bytes "dt", .num (bytes "1"))] (by decide),
    (absent_fields_zero_extra_keys_ignored.2.2.2 (netBody (bytes "\x7b\"dt\":5\x7d"))
      (netBody (bytes "\x7b\"extra\":[1,2],\"dt\":5\x7d")) exampleParams [] exampleURL
      (bytes "\x7b\"dt\":5\x7d") (bytes "\x7b\"extra\":[1,2],\"dt\":5\x7d")
      [] [(bytes "dt", .num (bytes "5"))] (bytes "extra")
      (.arr [.num (bytes "1"), .num (bytes "2")]) rfl rfl).1 (by decide)
      (answered_netBody exampleParams _ [] exampleURL _ (by decide))
      (answered_netBody exampleParams _ [] exampleURL _ (by decide))⟩

/-! ### JSON strings: `appendString` and `unquote` -/

theorem byte_lt_iff (a b : Byte) : a < b ↔ a.toNat < b.toNat := by
  rw [UInt8.lt_def, BitVec.lt_def]; rfl

theorem byte_le_iff (a b : Byte) : a ≤ b ↔ a.toNat ≤ b.toNat := by
  rw [UInt8.le_def, BitVec.le_def]; rfl

theorem toNat_toUInt8 (b : Byte) : b.toNat.toUInt8 = b := by
  cases b with | mk v => revert v; decide

theorem toUInt8_of_eq (n : Nat) (b : Byte) (h : n = b.toNat) : n.toUInt8 = b := by
  rw [h, toNat_toUInt8]

theorem decodeRune_eq_tree (p0 : Byte) (rest : GoString) (h0 : ¬ p0.toNat < 0x80) :
    decodeRune (p0 :: rest) = decodeTree p0.toNat (rest.length + 1)
      (rest.getD 0 0).toNat (rest.getD 1 0).toNat (rest.getD 2 0).toNat := by
  simp only [decodeRune, decodeTree, if_neg h0, List.length_cons]

theorem decodeTree_valid (x len b1 b2 b3 c size : Nat) (hx : 0x80 ≤ x) (hx2 : x < 256)
    (h1 : b1 < 256) (h2 : b2 < 256) (h3 : b3 < 256)
    (hd : decodeTree x len b1 b2 b3 = (c, size)) (hv : ¬ (c = RuneError ∧ size = 1)) :
    2 ≤ size ∧ size ≤ len ∧ 0x80 ≤ c ∧ c ≤ 0x10FFFF ∧ ¬ (0xD800 ≤ c ∧ c ≤ 0xDFFF) ∧
    ((size = 2 ∧ c < 0x800 ∧ 0xC0 + c / 64 = x ∧ 0x80 + c % 64 = b1) ∨
     (size = 3 ∧ 0x800 ≤ c ∧ c < 0x10000 ∧ 0xE0 + c / 4096 = x ∧ 0x80 + c / 64 % 64 = b1 ∧
        0x80 + c % 64 = b2) ∨
     (size = 4 ∧ 0x10000 ≤ c ∧ 0xF0 + c / 262144 = x ∧ 0x80 + c / 4096 % 64 = b1 ∧
        0x80 + c / 64 % 64 = b2 ∧ 0x80 + c % 64 = b3)) := by
  unfold decodeTree at hd
  by_cases c1 : x < 0xC2 ∨ 0xF4 < x
  · rw [if_pos c1] at hd
    simp only [Prod.mk.injEq] at hd
    exact absurd ⟨hd.1.symm, hd.2.symm⟩ hv
  rw [if_neg c1] at hd
  simp only [] at hd
  by_cases e0 : x < 0xE0
  · -- two bytes
    have e1 : ¬ x = 0xE0 := by omega
    have e2 : ¬ x = 0xF0 := by omega
    have e3 : ¬ x = 0xED := by omega
    have e4 : ¬ x = 0xF4 := by omega
    simp only [e0, e1, e2, e3, e4, if_true, if_false] at hd
    by_cases c2 : len < 2
    · rw [if_pos c2] at hd
      simp only [Prod.mk.injEq] at hd
      exact absurd ⟨hd.1.symm, hd.2.symm⟩ hv
    rw [if_neg c2] at hd
    by_cases c3 : b1 < 0x80 ∨ 0xBF < b1
    · rw [if_pos c3] at hd
      simp only [Prod.mk.injEq] at hd
      exact absurd ⟨hd.1.symm, hd.2.symm⟩ hv
    rw [if_neg c3] at hd
    simp only [le_refl, if_true, Prod.mk.injEq] at hd
    obtain ⟨hc, hs⟩ := hd
    subst hc hs
    clear hv
    refine ⟨by omega, by omega, by omega, by omega, by omega, Or.inl ?_⟩
    refine ⟨rfl, by omega, by omega, by omega⟩
  by_cases e5 : x < 0xF0
  · -- three bytes
    have e2 : ¬ x = 0xF0 := by omega
    have e4 : ¬ x = 0xF4 := by omega
    simp only [e0, e5, e2, e4, if_true, if_false] at hd
    generalize hlo : (if x = 0xE0 then 0xA0 else 0x80) = lo at hd
    generalize hhi : (if x = 0xED then 0x9F else 0xBF) = hi at hd
    by_cases c2 : len < 3
    · rw [if_pos c2] at hd
      simp only [Prod.mk.injEq] at hd
      exact absurd ⟨hd.1.symm, hd.2.symm⟩ hv
    rw [if_neg c2] at hd
    by_cases c3 : b1 < lo ∨ hi < b1
    · rw [if_pos c3] at hd
      simp only [Prod.mk.injEq] at hd
      exact absurd ⟨hd.1.symm, hd.2.symm⟩ hv
    rw [if_neg c3, if_neg (by omega : ¬ 3 ≤ 2)] at hd
    by_cases c4 : b2 < 0x80 ∨ 0xBF < b2
    · rw [if_pos c4] at hd
      simp only [Prod.mk.injEq] at hd
      exact absurd ⟨hd.1.symm, hd.2.symm⟩ hv
    rw [if_neg c4, if_pos (le_refl 3)] at hd
    simp only [Prod.mk.injEq] at hd
    obtain ⟨hc, hs⟩ := hd
    subst hc hs
    have hb : (x = 0xE0 ∧ lo = 0xA0 ∧ hi = 0xBF) ∨ (x = 0xED ∧ lo = 0x80 ∧ hi = 0x9F) ∨
        (x ≠ 0xE0 ∧ x ≠ 0xED ∧ lo = 0x80 ∧ hi = 0xBF) := by
      rw [← hlo, ← hhi]
      split_ifs <;> omega
    clear hv hlo hhi
    refine ⟨by omega, by omega, by omega, by omega, by omega, Or.inr (Or.inl ?_)⟩
    exact ⟨rfl, by omega, by omega, by omega, by omega, by omega⟩
  · -- four bytes
    have e1 : ¬ x = 0xE0 := by omega
    have e3 : ¬ x = 0xED := by omega
    simp only [e0, e5, e1, e3, if_true, if_false] at hd
    generalize hlo : (if x = 0xF0 then 0x90 else 0x80) = lo at hd
    generalize hhi : (if x = 0xF4 then 0x8F else 0xBF) = hi at hd
    by_cases c2 : len < 4
    · rw [if_pos c2] at hd
      simp only [Prod.mk.injEq] at hd
      exact absurd ⟨hd.1.symm, hd.2.symm⟩ hv
    rw [if_neg c2] at hd
    by_cases c3 : b1 < lo ∨ hi < b1
    · rw [if_pos c3] at hd
      simp only [Prod.mk.injEq] at hd
      exact absurd ⟨hd.1.symm, hd.2.symm⟩ hv
    rw [if_neg c3, if_neg (by omega : ¬ 4 ≤ 2)] at hd
    by_cases c4 : b2 < 0x80 ∨ 0xBF < b2
    · rw [if_pos c4] at hd
      simp only [Prod.mk.injEq] at hd
      exact absurd ⟨hd.1.symm, hd.2.symm⟩ hv
    rw [if_neg c4, if_neg (by omega : ¬ 4 ≤ 3)] at hd
    by_cases c5 : b3 < 0x80 ∨ 0xBF < b3
    · rw [if_pos c5] at hd
      simp only [Prod.mk.injEq] at hd
      exact absurd ⟨hd.1.symm, hd.2.symm⟩ hv
    rw [if_neg c5] at hd
    simp only [Prod.mk.injEq] at hd
    obtain ⟨hc, hs⟩ := hd
    subst hc hs
    have hb : (x = 0xF0 ∧ lo = 0x90 ∧ hi = 0xBF) ∨ (x = 0xF4 ∧ lo = 0x80 ∧ hi = 0x8F) ∨
        (x ≠ 0xF0 ∧ x ≠ 0xF4 ∧ lo = 0x80 ∧ hi = 0xBF) := by
      rw [← hlo, ← hhi]
      split_ifs <;> omega
    clear hv hlo hhi
    refine ⟨by omega, by omega, by omega, by omega, by omega, Or.inr (Or.inr ?_)⟩
    exact ⟨rfl, by omega, by omega, by omega, by omega, by omega⟩

theorem decodeRune_valid (p0 : Byte) (rest : GoString) (c size : Nat)
    (h0 : ¬ p0 < 0x80) (hd : decodeRune (p0 :: rest) = (c, size))
    (hv : ¬ (c = RuneError ∧ size = 1)) :
    2 ≤ size ∧ size ≤ (p0 :: rest).length ∧ encodeRune c = (p0 :: rest).take size ∧
      0x80 ≤ c ∧ isSurrogate c = false := by
  rw [byte_lt_iff] at h0
  have h0' : ¬ p0.toNat < 0x80 := h0
  rw [decodeRune_eq_tree p0 rest h0'] at hd
  have hx := UInt8.toNat_lt p0
  have t := decodeTree_valid p0.toNat (rest.length + 1) _ _ _ c size (by omega) (by omega)
    (UInt8.toNat_lt _) (UInt8.toNat_lt _) (UInt8.toNat_lt _) hd hv
  obtain ⟨t1, t2, t3, t4, t5, t6⟩ := t
  refine ⟨t1, by simpa using t2, ?_, t3, ?_⟩
  · have hnot : ¬ (c > 0x10FFFF ∨ (0xD800 ≤ c ∧ c ≤ 0xDFFF)) := by omega
    rcases t6 with ⟨hs, hc, e0, e1⟩ | ⟨hs, hc1, hc2, e0, e1, e2⟩ | ⟨hs, hc, e0, e1, e2, e3⟩
    · subst hs
      obtain ⟨r1, tl, rfl⟩ : ∃ r1 tl, rest = r1 :: tl := by
        cases rest with
        | nil => simp at t2
        | cons r1 tl => exact ⟨r1, tl, rfl⟩
      simp only [List.getD_cons_zero] at e1
      simp only [encodeRune, if_neg (show ¬ c < 0x80 by omega), if_pos hc, List.take_succ_cons,
        List.take_zero]
      rw [toUInt8_of_eq _ p0 e0, toUInt8_of_eq _ r1 e1]
    · subst hs
      obtain ⟨r1, r2, tl, rfl⟩ : ∃ r1 r2 tl, rest = r1 :: r2 :: tl := by
        rcases rest with _ | ⟨r1, _ | ⟨r2, tl⟩⟩
        · simp at t2
        · simp at t2
        · exact ⟨r1, r2, tl, rfl⟩
      simp only [List.getD_cons_zero, List.getD_cons_succ] at e1 e2
      simp only [encodeRune, if_neg (show ¬ c < 0x80 by omega),
        if_neg (show ¬ c < 0x800 by omega), if_neg hnot, if_pos hc2, List.take_succ_cons,
        List.take_zero]
      rw [toUInt8_of_eq _ p0 e0, toUInt8_of_eq _ r1 e1, toUInt8_of_eq _ r2 e2]
    · subst hs
      obtain ⟨r1, r2, r3, tl, rfl⟩ : ∃ r1 r2 r3 tl, rest = r1 :: r2 :: r3 :: tl := by
        rcases rest with _ | ⟨r1, _ | ⟨r2, _ | ⟨r3, tl⟩⟩⟩
        · simp at t2
        · simp at t2
        · simp at t2
        · exact ⟨r1, r2, r3, tl, rfl⟩
      simp only [List.getD_cons_zero, List.getD_cons_succ] at e1 e2 e3
      simp only [encodeRune, if_neg (show ¬ c < 0x80 by omega),
        if_neg (show ¬ c < 0x800 by omega), if_neg hnot,
        if_neg (show ¬ c < 0x10000 by omega), List.take_succ_cons, List.take_zero]
      rw [toUInt8_of_eq _ p0 e0, toUInt8_of_eq _ r1 e1, toUInt8_of_eq _ r2 e2,
        toUInt8_of_eq _ r3 e3]
  · simp only [isSurrogate, Bool.and_eq_false_imp, decide_eq_true_eq, decide_eq_false_iff_not]
    omega

theorem decodeTree_local (x len b1 b2 b3 c size : Nat) (hx : 0x80 ≤ x) (hx2 : x < 256)
    (h1 : b1 < 256) (h2 : b2 < 256) (h3 : b3 < 256)
    (hd : decodeTree x len b1 b2 b3 = (c, size)) (hv : ¬ (c = RuneError ∧ size = 1))
    (len2 a1 a2 a3 : Nat) (hlen : size ≤ len2) (g1 : 1 < size → a1 = b1)
    (g2 : 2 < size → a2 = b2) (g3 : 3 < size → a3 = b3) :
    decodeTree x len2 a1 a2 a3 = (c, size) := by
  obtain ⟨t1, t2, t3, t4, t5, t6⟩ :=
    decodeTree_valid x len b1 b2 b3 c size hx hx2 h1 h2 h3 hd hv
  clear hd hv
  unfold decodeTree
  rcases t6 with ⟨hs, hc, e0, e1⟩ | ⟨hs, hc1, hc2, e0, e1, e2⟩ | ⟨hs, hc, e0, e1, e2, e3⟩
  · subst hs
    have := g1 (by omega)
    subst this
    rw [if_neg (by omega)]
    simp only [if_pos (show x < 0xE0 by omega), if_neg (show ¬ x = 0xE0 by omega),
      if_neg (show ¬ x = 0xF0 by omega), if_neg (show ¬ x = 0xED by omega),
      if_neg (show ¬ x = 0xF4 by omega)]
    rw [if_neg (by omega), if_neg (by omega), if_pos (le_refl 2)]
    congr 1
    omega
  · subst hs
    have := g1 (by omega)
    subst this
    have := g2 (by omega)
    subst this
    rw [if_neg (by omega)]
    simp only [if_neg (show ¬ x < 0xE0 by omega), if_pos (show x < 0xF0 by omega),
      if_neg (show ¬ x = 0xF0 by omega), if_neg (show ¬ x = 0xF4 by omega)]
    rw [if_neg (by omega), if_neg (by split_ifs <;> omega), if_neg (by omega),
      if_neg (by omega), if_pos (le_refl 3)]
    congr 1
    omega
  · subst hs
    have := g1 (by omega)
    subst this
    have := g2 (by omega)
    subst this
    have := g3 (by omega)
    subst this
    rw [if_neg (by omega)]
    simp only [if_neg (show ¬ x < 0xE0 by omega), if_neg (show ¬ x < 0xF0 by omega),
      if_neg (show ¬ x = 0xE0 by omega), if_neg (show ¬ x = 0xED by omega)]
    rw [if_neg (by omega), if_neg (by split_ifs <;> omega), if_neg (by omega),
      if_neg (by omega), if_neg (by omega), if_neg (by omega)]
    congr 1
    omega

/-- `utf8.DecodeRune` looks at the bytes of the first rune only. -/
theorem decodeRune_take (p0 : Byte) (rest Y : GoString) (c size : Nat)
    (h0 : ¬ p0 < 0x80) (hd : decodeRune (p0 :: rest) = (c, size))
    (hv : ¬ (c = RuneError ∧ size = 1)) :
    decodeRune ((p0 :: rest).take size ++ Y) = (c, size) := by
  obtain ⟨h2, hl, _, _, _⟩ := decodeRune_valid p0 rest c size h0 hd hv
  rw [byte_lt_iff] at h0
  have h0' : ¬ p0.toNat < 0x80 := h0
  have hx := UInt8.toNat_lt p0
  rw [decodeRune_eq_tree p0 rest h0'] at hd
  obtain ⟨n, rfl⟩ : ∃ n, size = n + 1 := ⟨size - 1, by omega⟩
  rw [List.take_succ_cons, List.cons_append, decodeRune_eq_tree p0 _ h0']
  simp only [List.length_cons] at hl
  have hget : ∀ i, i < n → (rest.take n ++ Y).getD i 0 = rest.getD i 0 := by
    intro i hi
    simp only [List.getD_eq_getElem?_getD]
    rw [List.getElem?_append_left (by simp; omega), List.getElem?_take_of_lt hi]
  apply decodeTree_local p0.toNat (rest.length + 1) _ _ _ c (n + 1) (by omega) (by omega)
    (UInt8.toNat_lt _) (UInt8.toNat_lt _) (UInt8.toNat_lt _) hd hv
  · simp
    omega
  · intro h; rw [hget 0 (by omega)]
  · intro h; rw [hget 1 (by omega)]
  · intro h; rw [hget 2 (by omega)]

set_option maxRecDepth 100000 in
theorem escapeASCII_cases (b : Byte) (hb : b < 0x80) :
    (escapeASCII b = [b] ∧ b ≠ 0x22 ∧ b ≠ 0x5C ∧ ¬ b < B ' ') ∨
    (b = 0x22 ∧ escapeASCII b = [0x5C, 0x22]) ∨
    (b = 0x5C ∧ escapeASCII b = [0x5C, 0x5C]) ∨
    (b = 8 ∧ escapeASCII b = [0x5C, B 'b']) ∨
    (b = 12 ∧ escapeASCII b = [0x5C, B 'f']) ∨
    (b = 10 ∧ escapeASCII b = [0x5C, B 'n']) ∨
    (b = 13 ∧ escapeASCII b = [0x5C, B 'r']) ∨
    (b = 9 ∧ escapeASCII b = [0x5C, B 't']) ∨
    (escapeASCII b = [0x5C, B 'u', B '0', B '0', lowerhex (b >>> 4), lowerhex (b &&& 0xF)] ∧
      ishex (lowerhex (b >>> 4)) = true ∧ ishex (lowerhex (b &&& 0xF)) = true ∧
      ((unhex (B '0')).toNat * 4096 + (unhex (B '0')).toNat * 256 +
        (unhex (lowerhex (b >>> 4))).toNat * 16 + (unhex (lowerhex (b &&& 0xF))).toNat) =
        b.toNat) := by
  cases b with | mk v => revert v; decide

theorem parseStringBody_quote (fuel : Nat) (rest : GoString) :
    parseStringBody (fuel + 1) (0x22 :: rest) = some ([], rest) := by
  simp [parseStringBody]

theorem parseStringBody_plain (fuel : Nat) (c : Byte) (s t rest : GoString)
    (h1 : c ≠ 0x22) (h2 : c ≠ 0x5C) (h3 : ¬ c < B ' ') (h4 : c < 0x80)
    (ih : parseStringBody fuel s = some (t, rest)) :
    parseStringBody (fuel + 1) (c :: s) = some (c :: t, rest) := by
  simp [parseStringBody, h1, h2, h3, h4, ih]

theorem parseStringBody_short (fuel : Nat) (e d : Byte) (s t rest : GoString)
    (he : (e = 0x22 ∧ d = 0x22) ∨ (e = 0x5C ∧ d = 0x5C) ∨ (e = B 'b' ∧ d = 8) ∨
      (e = B 'f' ∧ d = 12) ∨ (e = B 'n' ∧ d = 10) ∨ (e = B 'r' ∧ d = 13) ∨
      (e = B 't' ∧ d = 9))
    (ih : parseStringBody fuel s = some (t, rest)) :
    parseStringBody (fuel + 1) (0x5C :: e :: s) = some (d :: t, rest) := by
  rcases he with ⟨rfl, rfl⟩ | ⟨rfl, rfl⟩ | ⟨rfl, rfl⟩ | ⟨rfl, rfl⟩ | ⟨rfl, rfl⟩ | ⟨rfl, rfl⟩ |
    ⟨rfl, rfl⟩ <;> simp +decide [parseStringBody, ih]

theorem parseStringBody_u (fuel : Nat) (h1 h2 h3 h4 : Byte) (s t rest : GoString) (rr : Nat)
    (hh : ishex h1 = true ∧ ishex h2 = true ∧ ishex h3 = true ∧ ishex h4 = true)
    (hr : (unhex h1).toNat * 4096 + (unhex h2).toNat * 256 + (unhex h3).toNat * 16 +
      (unhex h4).toNat = rr)
    (hs : isSurrogate rr = false)
    (ih : parseStringBody fuel s = some (t, rest)) :
    parseStringBody (fuel + 1) (0x5C :: B 'u' :: h1 :: h2 :: h3 :: h4 :: s) =
      some (encodeRune rr ++ t, rest) := by
  have hg : getu4 (0x5C :: B 'u' :: h1 :: h2 :: h3 :: h4 :: s) = some rr := by
    simp [getu4, hh.1, hh.2.1, hh.2.2.1, hh.2.2.2, hr]
  rw [parseStringBody]
  simp [hg, hs, ih, show ¬ (B 'u' = 0x22 ∨ B 'u' = 0x5C ∨ B 'u' = B '/') by decide,
    show B 'u' ≠ B 'b' by decide, show B 'u' ≠ B 'f' by decide, show B 'u' ≠ B 'n' by decide,
    show B 'u' ≠ B 'r' by decide, show B 'u' ≠ B 't' by decide]

theorem parseStringBody_multi (fuel : Nat) (c : Byte) (s t rest : GoString) (rr size : Nat)
    (h4 : ¬ c < 0x80) (hd : decodeRune (c :: s) = (rr, size))
    (ih : parseStringBody fuel ((c :: s).drop size) = some (t, rest)) :
    parseStringBody (fuel + 1) (c :: s) = some (encodeRune rr ++ t, rest) := by
  have h1 : c ≠ 0x22 := by rintro rfl; exact h4 (by decide)
  have h2 : c ≠ 0x5C := by rintro rfl; exact h4 (by decide)
  have h3 : ¬ c < B ' ' := by
    rw [byte_lt_iff] at h4 ⊢
    have : (B ' ').toNat = 32 := rfl
    have : (0x80 : Byte).toNat = 128 := rfl
    omega
  simp [parseStringBody, h1, h2, h3, h4, hd, ih]

theorem parseStringBody_ascii (fuel : Nat) (b : Byte) (hb : b < 0x80) (X t rest : GoString)
    (ih : parseStringBody fuel X = some (t, rest)) :
    parseStringBody (fuel + 1) (escapeASCII b ++ X) = some (b :: t, rest) := by
  rcases escapeASCII_cases b hb with ⟨h, h1, h2, h3⟩ | ⟨rfl, h⟩ | ⟨rfl, h⟩ | ⟨rfl, h⟩ |
    ⟨rfl, h⟩ | ⟨rfl, h⟩ | ⟨rfl, h⟩ | ⟨rfl, h⟩ | ⟨h, g1, g2, g3⟩
  · rw [h]
    exact parseStringBody_plain fuel b X t rest h1 h2 h3 hb ih
  · rw [h]
    exact parseStringBody_short fuel _ _ X t rest (Or.inl ⟨rfl, rfl⟩) ih
  · rw [h]
    exact parseStringBody_short fuel _ _ X t rest (Or.inr (Or.inl ⟨rfl, rfl⟩)) ih
  · rw [h]
    exact parseStringBody_short fuel _ _ X t rest (Or.inr (Or.inr (Or.inl ⟨rfl, rfl⟩))) ih
  · rw [h]
    exact parseStringBody_short fuel _ _ X t rest
      (Or.inr (Or.inr (Or.inr (Or.inl ⟨rfl, rfl⟩)))) ih
  · rw [h]
    exact parseStringBody_short fuel _ _ X t rest
      (Or.inr (Or.inr (Or.inr (Or.inr (Or.inl ⟨rfl, rfl⟩))))) ih
  · rw [h]
    exact parseStringBody_short fuel _ _ X t rest
      (Or.inr (Or.inr (Or.inr (Or.inr (Or.inr (Or.inl ⟨rfl, rfl⟩)))))) ih
  · rw [h]
    exact parseStringBody_short fuel _ _ X t rest
      (Or.inr (Or.inr (Or.inr (Or.inr (Or.inr (Or.inr ⟨rfl, rfl⟩)))))) ih
  · rw [h]
    have hb' : b.toNat < 0x80 := by
      rw [byte_lt_iff] at hb
      exact hb
    have hs : isSurrogate b.toNat = false := by
      simp only [isSurrogate, Bool.and_eq_false_imp, decide_eq_true_eq,
        decide_eq_false_iff_not]
      omega
    have := parseStringBody_u fuel (B '0') (B '0') _ _ X t rest b.toNat
      ⟨by decide, by decide, g1, g2⟩ g3 hs ih
    simpa [encodeRune, hb', toNat_toUInt8] using this

theorem escapeASCII_length (b : Byte) : 1 ≤ (escapeASCII b).length := by
  unfold escapeASCII
  split_ifs <;> simp

/-- `unquote` reads back what `appendString` wrote for a valid UTF-8
string. -/
theorem parseStringBody_encode : ∀ (n : Nat) (s : GoString) (fuel : Nat) (rest : GoString),
    validUTF8Aux n s = true → (encodeStringAux n s).length < fuel →
    parseStringBody fuel (encodeStringAux n s ++ 0x22 :: rest) = some (s, rest) := by
  intro n
  induction n with
  | zero =>
    intro s fuel rest hv hf
    cases s with
    | nil =>
      obtain ⟨f, rfl⟩ : ∃ f, fuel = f + 1 := ⟨fuel - 1, by simp [encodeStringAux] at hf; omega⟩
      simp [encodeStringAux, parseStringBody_quote]
    | cons b s => simp [validUTF8Aux] at hv
  | succ n ih =>
    intro s fuel rest hv hf
    cases s with
    | nil =>
      obtain ⟨f, rfl⟩ : ∃ f, fuel = f + 1 := ⟨fuel - 1, by simp [encodeStringAux] at hf; omega⟩
      simp [encodeStringAux, parseStringBody_quote]
    | cons b s =>
      obtain ⟨f, rfl⟩ : ∃ f, fuel = f + 1 := ⟨fuel - 1, by omega⟩
      by_cases hb : b < 0x80
      · have hd : decodeRune (b :: s) = (b.toNat, 1) := by
          have hb' : b.toNat < 0x80 := by rw [byte_lt_iff] at hb; exact hb
          simp [decodeRune, hb']
        have hv' : validUTF8Aux n s = true := by
          have := hv
          simp [validUTF8Aux, hd] at this
          exact this.2
        simp only [encodeStringAux, if_pos hb, List.append_assoc, List.length_append] at hf ⊢
        have hl := escapeASCII_length b
        have := ih s f rest hv' (by omega)
        exact parseStringBody_ascii f b hb _ s rest this
      · obtain ⟨c, size, hd⟩ : ∃ c size, decodeRune (b :: s) = (c, size) := ⟨_, _, rfl⟩
        have hvalid : ¬ (c = RuneError ∧ size = 1) := by
          intro hh
          simp [validUTF8Aux, hd, hh] at hv
        have hv' : validUTF8Aux n ((b :: s).drop size) = true := by
          simpa [validUTF8Aux, hd, hvalid] using hv
        obtain ⟨h2, hl, henc, hc80, hsur⟩ := decodeRune_valid b s c size hb hd hvalid
        have hsplit : (b :: s).take size ++ (b :: s).drop size = b :: s :=
          List.take_append_drop _ _
        simp only [encodeStringAux, if_neg hb, hd, if_neg hvalid] at hf ⊢
        by_cases h28 : c = 0x2028 ∨ c = 0x2029
        · rw [if_pos h28] at hf ⊢
          have hih := ih ((b :: s).drop size) f rest hv' (by
            simp only [List.length_append, List.length_cons, List.length_nil] at hf
            omega)
          have hu : parseStringBody (f + 1) (0x5C :: B 'u' :: B '2' :: B '0' :: B '2' ::
              lowerhex (c % 16).toUInt8 :: (encodeStringAux n ((b :: s).drop size) ++
                0x22 :: rest)) = some (encodeRune c ++ (b :: s).drop size, rest) := by
            apply parseStringBody_u f _ _ _ _ _ _ rest c _ _ hsur hih
            · rcases h28 with rfl | rfl <;> decide
            · rcases h28 with rfl | rfl <;> decide
          rw [henc, hsplit] at hu
          simpa [show bytes "u202" = [B 'u', B '2', B '0', B '2'] by decide] using hu
        · rw [if_neg h28] at hf
          rw [if_neg h28, List.append_assoc]
          have hih := ih ((b :: s).drop size) f rest hv' (by
            simp only [List.length_append, List.length_take, List.length_cons] at hf hl
            omega)
          obtain ⟨k, rfl⟩ : ∃ k, size = k + 1 := ⟨size - 1, by omega⟩
          have hd2 := decodeRune_take b s (encodeStringAux n ((b :: s).drop (k + 1)) ++
            0x22 :: rest) c (k + 1) hb hd hvalid
          rw [List.take_succ_cons, List.cons_append] at hd2 ⊢
          have hdrop : (b :: (s.take k ++ (encodeStringAux n ((b :: s).drop (k + 1)) ++
              0x22 :: rest))).drop (k + 1) =
              encodeStringAux n ((b :: s).drop (k + 1)) ++ 0x22 :: rest := by
            have hk : (s.take k).length = k := by
              simp only [List.length_cons] at hl
              simp only [List.length_take]
              omega
            rw [List.drop_succ_cons, List.drop_append_of_le_length (by omega), 
              List.drop_of_length_le (by omega), List.nil_append]
          have := parseStringBody_multi f b _ ((b :: s).drop (k + 1)) rest c (k + 1) hb hd2
            (by rw [hdrop]; exact hih)
          rw [this, henc, hsplit]

/-- The quoted string at the start of the input is read back. -/
theorem parseStringBody_encodeString (s rest : GoString) (fuel : Nat)
    (hv : validUTF8 s = true) (hf : (encodeString s).length ≤ fuel + 1) :
    ∃ body, encodeString s = 0x22 :: body ∧
      parseStringBody fuel (body ++ rest) = some (s, rest) := by
  refine ⟨encodeStringAux s.length s ++ [0x22], by simp [encodeString], ?_⟩
  rw [List.append_assoc]
  apply parseStringBody_encode s.length s fuel rest hv
  simp [encodeString] at hf
  omega

theorem terminated_cases (rest : GoString) (h : terminated rest) :
    rest = [] ∨ ∃ c r, rest = c :: r ∧ ¬ (B '0' ≤ c ∧ c ≤ B '9') ∧ c ≠ B '-' ∧ c ≠ B '.' ∧
      c ≠ B 'e' ∧ c ≠ B 'E' ∧ c ≠ B '+' ∧ ¬ isSpace c = true := by
  cases rest with
  | nil => exact Or.inl rfl
  | cons c r =>
    refine Or.inr ⟨c, r, rfl, ?_⟩
    simp only [terminated] at h
    rcases h with rfl | rfl | rfl <;> decide

theorem spanDigits_append (s rest : GoString) (h : terminated rest) :
    spanDigits (s ++ rest) = ((spanDigits s).1, (spanDigits s).2 ++ rest) := by
  induction s with
  | nil =>
    rcases terminated_cases rest h with rfl | ⟨c, r, rfl, hc, _⟩
    · simp [spanDigits]
    · simp [spanDigits, hc]
  | cons d s ih =>
    simp only [List.cons_append, spanDigits]
    split
    · simp [ih]
    · simp

theorem takeSign_append (s rest : GoString) (h : terminated rest) :
    takeSign (s ++ rest) = ((takeSign s).1, (takeSign s).2 ++ rest) := by
  cases s with
  | nil =>
    rcases terminated_cases rest h with rfl | ⟨c, r, rfl, _, hc, _⟩
    · simp [takeSign]
    · simp [takeSign, hc]
  | cons d s =>
    simp only [List.cons_append, takeSign]
    split <;> simp

theorem takeInt_append (s rest int r : GoString) (h : terminated rest)
    (hs : takeInt s = some (int, r)) : takeInt (s ++ rest) = some (int, r ++ rest) := by
  simp only [takeInt, spanDigits_append s rest h] at hs ⊢
  cases hsp : spanDigits s with
  | mk ds r0 =>
    rw [hsp] at hs
    cases ds with
    | nil => simp at hs
    | cons d ds =>
      simp only [] at hs ⊢
      split at hs
      · rename_i hd
        simp only [Option.some.injEq, Prod.mk.injEq] at hs
        simp [hd, ← hs.1, ← hs.2]
      · rename_i hd
        simp only [Option.some.injEq, Prod.mk.injEq] at hs
        simp [hd, ← hs.1, ← hs.2]

theorem takeFrac_append (s rest frac r : GoString) (h : terminated rest)
    (hs : takeFrac s = some (frac, r)) : takeFrac (s ++ rest) = some (frac, r ++ rest) := by
  cases s with
  | nil =>
    simp only [takeFrac, Option.some.injEq, Prod.mk.injEq] at hs
    obtain ⟨rfl, rfl⟩ := hs
    rcases terminated_cases rest h with rfl | ⟨c, r, rfl, _, _, hc, _⟩
    · simp [takeFrac]
    · simp [takeFrac, hc]
  | cons c s =>
    simp only [List.cons_append, takeFrac] at hs ⊢
    split
    · rename_i hc
      rw [if_pos hc] at hs
      rw [spanDigits_append s rest h]
      cases hsp : spanDigits s with
      | mk ds r0 =>
        rw [hsp] at hs
        cases ds with
        | nil => simp at hs
        | cons d ds =>
          simp only [Option.some.injEq, Prod.mk.injEq] at hs ⊢
          exact ⟨hs.1, by rw [hs.2]⟩
    · rename_i hc
      rw [if_neg hc] at hs
      simp only [Option.some.injEq, Prod.mk.injEq] at hs ⊢
      exact ⟨hs.1, by rw [← hs.2]; rfl⟩

theorem takeExp_append (s rest ex r : GoString) (h : terminated rest)
    (hs : takeExp s = some (ex, r)) : takeExp (s ++ rest) = some (ex, r ++ rest) := by
  cases s with
  | nil =>
    simp only [takeExp, Option.some.injEq, Prod.mk.injEq] at hs
    obtain ⟨rfl, rfl⟩ := hs
    rcases terminated_cases rest h with rfl | ⟨c, r, rfl, _, _, _, hc1, hc2, _⟩
    · simp [takeExp]
    · simp [takeExp, hc1, hc2]
  | cons c s =>
    simp only [List.cons_append, takeExp] at hs ⊢
    split
    · rename_i hc
      rw [if_pos hc] at hs
      cases s with
      | nil =>
        simp [spanDigits] at hs
      | cons c1 s =>
        simp only [List.cons_append] at hs ⊢
        by_cases hc1 : c1 = B '+' ∨ c1 = B '-'
        · simp only [if_pos hc1] at hs ⊢
          rw [spanDigits_append s rest h]
          cases hsp : spanDigits s with
          | mk ds r0 =>
            rw [hsp] at hs
            cases ds with
            | nil => simp at hs
            | cons d ds =>
              simp only [Option.some.injEq, Prod.mk.injEq] at hs ⊢
              exact ⟨hs.1, by rw [hs.2]⟩
        · simp only [if_neg hc1] at hs ⊢
          have := spanDigits_append (c1 :: s) rest h
          rw [List.cons_append] at this
          rw [this]
          cases hsp : spanDigits (c1 :: s) with
          | mk ds r0 =>
            rw [hsp] at hs
            cases ds with
            | nil => simp at hs
            | cons d ds =>
              simp only [Option.some.injEq, Prod.mk.injEq] at hs ⊢
              exact ⟨hs.1, by rw [hs.2]⟩
    · rename_i hc
      rw [if_neg hc] at hs
      simp only [Option.some.injEq, Prod.mk.injEq] at hs ⊢
      exact ⟨hs.1, by rw [← hs.2]; rfl⟩

/-- A number literal is read in the same way when a terminator follows it. -/
theorem parseNumber_append (s rest lit r : GoString) (h : terminated rest)
    (hs : parseNumber s = some (lit, r)) :
    parseNumber (s ++ rest) = some (lit, r ++ rest) := by
  simp only [parseNumber] at hs ⊢
  rw [takeSign_append s rest h]
  simp only []
  cases h1 : takeInt (takeSign s).2 with
  | none => simp [h1] at hs
  | some p1 =>
    obtain ⟨int, s2⟩ := p1
    rw [h1] at hs
    rw [takeInt_append _ rest int s2 h h1]
    simp only [] at hs ⊢
    cases h2 : takeFrac s2 with
    | none => simp [h2] at hs
    | some p2 =>
      obtain ⟨frac, s3⟩ := p2
      rw [h2] at hs
      rw [takeFrac_append _ rest frac s3 h h2]
      simp only [] at hs ⊢
      cases h3 : takeExp s3 with
      | none => simp [h3] at hs
      | some p3 =>
        obtain ⟨ex, s4⟩ := p3
        rw [h3] at hs
        rw [takeExp_append _ rest ex s4 h h3]
        simp only [Option.some.injEq, Prod.mk.injEq] at hs ⊢
        exact ⟨hs.1, by rw [hs.2]⟩

theorem digitByte_ne_zero (n : Nat) (h : n % 10 ≠ 0) : digitByte n ≠ B '0' := by
  have h2 : n % 10 < 10 := Nat.mod_lt _ (by decide)
  unfold digitByte
  generalize n % 10 = r at h h2
  interval_cases r <;> first | exact absurd rfl h | decide

theorem natDecAux_head : ∀ (fuel n : Nat) (acc : GoString), n < fuel → n ≠ 0 →
    ∃ d ds, natDecAux fuel n acc = d :: ds ∧ d ≠ B '0' := by
  intro fuel
  induction fuel with
  | zero => intro n acc h; omega
  | succ fuel ih =>
    intro n acc h hn
    rw [natDecAux]
    by_cases h0 : n / 10 = 0
    · exact ⟨digitByte n, acc, by simp [h0], digitByte_ne_zero n (by omega)⟩
    · obtain ⟨d, ds, h1, h2⟩ := ih (n / 10) (digitByte n :: acc) (by omega) h0
      exact ⟨d, ds, by simp [h0, h1], h2⟩

theorem natDec_zero : natDec 0 = [B '0'] := by decide

theorem spanDigits_allDigits (ds : GoString) (h : allDigits ds = true) :
    spanDigits ds = (ds, []) := by
  induction ds with
  | nil => rfl
  | cons d ds ih =>
    simp only [allDigits, List.all_cons, Bool.and_eq_true, decide_eq_true_eq] at h
    have ih := ih (by simpa [allDigits] using h.2)
    simp [spanDigits, h.1, ih]

theorem takeInt_natDec (n : Nat) : takeInt (natDec n) = some (natDec n, []) := by
  obtain ⟨_, h2, _⟩ := natDec_spec n
  simp only [takeInt, spanDigits_allDigits _ h2]
  by_cases hn : n = 0
  · subst hn
    simp [natDec_zero]
  · obtain ⟨d, ds, h1, hd⟩ := natDecAux_head (n + 1) n [] (by omega) hn
    rw [natDec, h1]
    simp [hd]

theorem natDec_head_digit (n : Nat) :
    ∃ d ds, natDec n = d :: ds ∧ B '0' ≤ d ∧ d ≤ B '9' := by
  obtain ⟨h1, h2, _⟩ := natDec_spec n
  cases hd : natDec n with
  | nil => exact absurd hd h1
  | cons d ds =>
    rw [hd] at h2
    simp only [allDigits, List.all_cons, Bool.and_eq_true, decide_eq_true_eq] at h2
    exact ⟨d, ds, rfl, h2.1⟩

/-- The decimal numeral of an integer is a JSON number literal. -/
theorem parseNumber_formatInt (i : Int) : parseNumber (formatInt i) = some (formatInt i, []) := by
  obtain ⟨d, ds, hd, hd1, hd2⟩ := natDec_head_digit (if i < 0 then (-i).toNat else i.toNat)
  have hne : d ≠ B '-' := by
    rintro rfl
    exact absurd hd1 (by decide)
  by_cases hi : i < 0
  · simp only [hi, if_true] at hd
    have hs : takeSign (formatInt i) = ([B '-'], natDec (-i).toNat) := by
      simp [formatInt, hi, takeSign]
    unfold parseNumber
    rw [hs]
    simp only [takeInt_natDec]
    simp [takeFrac, takeExp, formatInt, hi]
  · simp only [hi, if_false] at hd
    have hs : takeSign (formatInt i) = ([], natDec i.toNat) := by
      simp [formatInt, hi, takeSign, hd, hne]
    unfold parseNumber
    rw [hs]
    simp only [takeInt_natDec]
    simp [takeFrac, takeExp, formatInt, hi]

/-- `strconv.ParseInt` reads back what `strconv.AppendInt` wrote, for every
value of a 64-bit `int`. -/
theorem parseInt_formatInt (i : Int) (h1 : -(2 : Int) ^ 63 ≤ i) (h2 : i < (2 : Int) ^ 63) :
    parseInt (formatInt i) = some i := by
  obtain ⟨d, ds, hd, hd1, hd2⟩ := natDec_head_digit (if i < 0 then (-i).toNat else i.toNat)
  have hne : d ≠ B '-' := by
    rintro rfl
    exact absurd hd1 (by decide)
  by_cases hi : i < 0
  · simp only [hi, if_true] at hd
    obtain ⟨n1, n2, n3⟩ := natDec_spec (-i).toNat
    have hs : startsWith (formatInt i) (bytes "-") = true := by
      simp [formatInt, hi, show bytes "-" = [B '-'] by decide, startsWith_single]
    have hv : -((-i).toNat : Int) = i := by omega
    simp only [parseInt, hs, if_true]
    simp [formatInt, hi, n1, n2, n3, hv, h1, h2]
    norm_num at h1 h2
    omega
  · simp only [hi, if_false] at hd
    obtain ⟨n1, n2, n3⟩ := natDec_spec i.toNat
    have hs : startsWith (formatInt i) (bytes "-") = false := by
      simp [formatInt, hi, show bytes "-" = [B '-'] by decide, hd, startsWith_single, hne]
    have hv : ((i.toNat : Nat) : Int) = i := by omega
    simp only [parseInt, hs]
    simp [formatInt, hi, n1, n2, n3, hv, h1, h2]
    norm_num at h1 h2
    omega

theorem skipSpace_cons (c : Byte) (s : GoString) (h : isSpace c = false) :
    skipSpace (c :: s) = c :: s := by
  simp [skipSpace, h]

theorem parseNumber_head (lit : GoString) (h : parseNumber lit = some (lit, [])) :
    ∃ c s, lit = c :: s ∧ (c = B '-' ∨ (B '0' ≤ c ∧ c ≤ B '9')) := by
  cases lit with
  | nil => simp [parseNumber, takeSign, takeInt, spanDigits] at h
  | cons c s =>
    refine ⟨c, s, rfl, ?_⟩
    by_cases hc : c = B '-'
    · exact Or.inl hc
    · right
      by_cases hd : B '0' ≤ c ∧ c ≤ B '9'
      · exact hd
      · simp [parseNumber, takeSign, hc, takeInt, spanDigits, hd] at h

theorem encodeString_head (s : GoString) :
    ∃ body, encodeString s = 0x22 :: body := ⟨_, by simp [encodeString]; rfl⟩

/-- The text of a printable value starts with a byte that is neither white
space nor a closing bracket. -/
theorem render_head (j : JSON) (hp : printable j = true) :
    ∃ c s, render j = c :: s ∧ isSpace c = false ∧ c ≠ B ']' := by
  cases j with
  | null => exact ⟨_, _, rfl, by decide, by decide⟩
  | bool b => cases b <;> exact ⟨_, _, rfl, by decide, by decide⟩
  | num lit =>
    simp only [printable, decide_eq_true_eq] at hp
    obtain ⟨c, s, rfl, hc⟩ := parseNumber_head lit hp
    refine ⟨c, s, rfl, ?_⟩
    rcases hc with rfl | ⟨h1, h2⟩
    · exact ⟨by decide, by decide⟩
    · rw [byte_le_iff] at h1 h2
      have e1 : (B '0').toNat = 48 := rfl
      have e2 : (B '9').toNat = 57 := rfl
      refine ⟨?_, ?_⟩
      · simp only [isSpace, Bool.or_eq_false_iff, beq_eq_false_iff_ne, ne_eq]
        refine ⟨⟨⟨?_, ?_⟩, ?_⟩, ?_⟩ <;> (rintro rfl; revert h1 h2; decide)
      · rintro rfl; revert h1 h2; decide
  | str s =>
    obtain ⟨body, hb⟩ := encodeString_head s
    exact ⟨_, _, by rw [render, hb], by decide, by decide⟩
  | arr items =>
    exact ⟨B '[', renderElems items ++ [B ']'], by simp [render], by decide, by decide⟩
  | obj members =>
    exact ⟨B '{', renderMembers members ++ [B '}'], by simp [render], by decide, by decide⟩

theorem renderElems_cons_cons (j j2 : JSON) (js : List JSON) :
    renderElems (j :: j2 :: js) = render j ++ [B ','] ++ renderElems (j2 :: js) := by
  simp [renderElems]

theorem renderMembers_cons_cons (k : GoString) (j : JSON) (m2 : GoString × JSON)
    (ms : List (GoString × JSON)) :
    renderMembers ((k, j) :: m2 :: ms) =
      encodeString k ++ [B ':'] ++ render j ++ [B ','] ++ renderMembers (m2 :: ms) := by
  simp [renderMembers]

theorem renderMembers_head (m : GoString × JSON) (ms : List (GoString × JSON)) :
    ∃ body, renderMembers (m :: ms) = 0x22 :: body := by
  obtain ⟨k, j⟩ := m
  obtain ⟨b, hb⟩ := encodeString_head k
  cases ms with
  | nil => exact ⟨_, by rw [renderMembers, hb]; rfl⟩
  | cons m2 ms => exact ⟨_, by rw [renderMembers_cons_cons, hb]; rfl⟩

theorem terminated_comma (r : GoString) : terminated (B ',' :: r) := Or.inl rfl
theorem terminated_bracket (r : GoString) : terminated (B ']' :: r) := Or.inr (Or.inl rfl)
theorem terminated_brace (r : GoString) : terminated (B '}' :: r) := Or.inr (Or.inr rfl)

theorem startsWith_head_ne (c d : Byte) (s p : GoString) (h : c ≠ d) :
    startsWith (c :: s) (d :: p) = false := by
  simp [startsWith, h]

theorem renderElems_head (j : JSON) (js : List JSON) (hp : printable j = true) :
    ∃ c s, renderElems (j :: js) = c :: s ∧ isSpace c = false ∧ c ≠ B ']' := by
  obtain ⟨c, s, hr, h1, h2⟩ := render_head j hp
  cases js with
  | nil => exact ⟨c, s, by rw [renderElems, hr], h1, h2⟩
  | cons j2 js => exact ⟨c, _, by rw [renderElems_cons_cons, hr]; rfl, h1, h2⟩

theorem renderElems_length_cons (j j2 : JSON) (js : List JSON) :
    (renderElems (j :: j2 :: js)).length =
      (render j).length + 1 + (renderElems (j2 :: js)).length := by
  rw [renderElems_cons_cons]; simp; omega

theorem renderMembers_length_cons (k : GoString) (j : JSON) (m2 : GoString × JSON)
    (ms : List (GoString × JSON)) :
    (renderMembers ((k, j) :: m2 :: ms)).length =
      (encodeString k).length + 1 + (render j).length + 1 + (renderMembers (m2 :: ms)).length := by
  rw [renderMembers_cons_cons]; simp; omega

theorem renderMembers_length_one (k : GoString) (j : JSON) :
    (renderMembers [(k, j)]).length = (encodeString k).length + 1 + (render j).length := by
  simp [renderMembers]; omega

/-- Reading a key: after the opening quote the scanner's string reader gets
the key back, with fuel for the whole remaining input. -/
theorem parseStringBody_key (k rest : GoString) (hv : validUTF8 k = true) :
    ∃ body, encodeString k = 0x22 :: body ∧
      parseStringBody ((body ++ rest).length + 1) (body ++ rest) = some (k, rest) := by
  obtain ⟨body, hb⟩ := encodeString_head k
  obtain ⟨body2, hb2, hparse⟩ := parseStringBody_encodeString k rest
    ((body ++ rest).length + 1) hv (by rw [hb]; simp; omega)
  rw [hb] at hb2
  injection hb2 with _ hb2
  subst hb2
  exact ⟨body, hb, hparse⟩

mutual
/-- The scanner reads the compact text of a printable value back as the
value, given fuel for its length and room for its depth. -/
theorem parseValue_render : ∀ (j : JSON) (fuel depth : Nat) (rest : GoString),
    printable j = true → depth + depthOf j ≤ maxNestingDepth → (render j).length ≤ fuel →
    terminated rest → parseValue fuel depth (render j ++ rest) = some (j, rest)
  | .null, fuel, depth, rest, _, _, hf, _ => by
    have hl : (render .null).length = 4 := rfl
    obtain ⟨f, rfl⟩ : ∃ f, fuel = f + 1 := ⟨fuel - 1, by omega⟩
    simp +decide [render, parseValue, show bytes "null" = [B 'n', B 'u', B 'l', B 'l'] by decide,
      startsWith]
  | .bool b, fuel, depth, rest, _, _, hf, _ => by
    have hl : 4 ≤ (render (.bool b)).length := by cases b <;> decide
    obtain ⟨f, rfl⟩ : ∃ f, fuel = f + 1 := ⟨fuel - 1, by omega⟩
    cases b
    · simp +decide [render, parseValue,
        show bytes "false" = [B 'f', B 'a', B 'l', B 's', B 'e'] by decide, startsWith]
    · simp +decide [render, parseValue,
        show bytes "true" = [B 't', B 'r', B 'u', B 'e'] by decide, startsWith]
  | .num lit, fuel, depth, rest, hp, _, hf, ht => by
    simp only [printable, decide_eq_true_eq] at hp
    obtain ⟨c, s, rfl, hc⟩ := parseNumber_head lit hp
    have hl : (render (.num (c :: s))).length = s.length + 1 := by simp [render]
    obtain ⟨f, rfl⟩ : ∃ f, fuel = f + 1 := ⟨fuel - 1, by omega⟩
    have hnum := parseNumber_append (c :: s) rest (c :: s) [] ht hp
    simp only [List.cons_append, List.nil_append] at hnum
    have hcs : c ≠ B '{' ∧ c ≠ B '[' ∧ c ≠ 0x22 ∧ c ≠ B 't' ∧ c ≠ B 'f' ∧ c ≠ B 'n' := by
      rcases hc with rfl | ⟨h1, h2⟩
      · decide
      · refine ⟨?_, ?_, ?_, ?_, ?_, ?_⟩ <;> (rintro rfl; revert h1 h2; decide)
    obtain ⟨h1, h2, h3, h4, h5, h6⟩ := hcs
    have e4 : startsWith (c :: (s ++ rest)) (bytes "true") = false :=
      startsWith_head_ne c (B 't') _ (bytes "rue") h4
    have e5 : startsWith (c :: (s ++ rest)) (bytes "false") = false :=
      startsWith_head_ne c (B 'f') _ (bytes "alse") h5
    have e6 : startsWith (c :: (s ++ rest)) (bytes "null") = false :=
      startsWith_head_ne c (B 'n') _ (bytes "ull") h6
    simp only [render, List.cons_append, parseValue, if_neg h1, if_neg h2, if_neg h3, e4, e5, e6,
      hnum, Option.map_some', Bool.false_eq_true, if_false]
  | .str s, fuel, depth, rest, hp, _, hf, _ => by
    simp only [printable] at hp
    have hl : 1 ≤ (render (.str s)).length := by simp [render, encodeString]
    obtain ⟨f, rfl⟩ : ∃ f, fuel = f + 1 := ⟨fuel - 1, by omega⟩
    obtain ⟨body, hb, hparse⟩ := parseStringBody_key s rest hp
    simp only [render, hb, List.cons_append, parseValue]
    rw [if_pos trivial, hparse]
    rfl
  | .arr [], fuel, depth, rest, _, hd, hf, _ => by
    have hl : (render (.arr [])).length = 2 := rfl
    obtain ⟨f, rfl⟩ : ∃ f, fuel = f + 1 := ⟨fuel - 1, by omega⟩
    have hd2 : ¬ maxNestingDepth < depth + 1 := by
      simp only [depthOf, depthElems] at hd; omega
    simp only [render, renderElems, List.cons_append, List.nil_append, List.append_nil,
      parseValue]
    simp +decide [hd2, skipSpace_cons (B ']') rest (by decide)]
  | .arr (j :: js), fuel, depth, rest, hp, hd, hf, _ => by
    simp only [printable] at hp
    have hpj : printable j = true := by
      simp only [printableElems, Bool.and_eq_true] at hp; exact hp.1
    have hl : (render (.arr (j :: js))).length = (renderElems (j :: js)).length + 2 := by
      simp [render]
    obtain ⟨f, rfl⟩ : ∃ f, fuel = f + 1 := ⟨fuel - 1, by omega⟩
    have hd2 : ¬ maxNestingDepth < depth + 1 := by
      simp only [depthOf] at hd; omega
    obtain ⟨c, s, hr, hc1, hc2⟩ := renderElems_head j js hpj
    have hrec := parseElems_render (j :: js) f (depth + 1) rest (by simp) hp
      (by simp only [depthOf] at hd; omega) (by omega)
    rw [hr] at hrec
    simp only [List.cons_append] at hrec
    simp only [render, hr, List.cons_append, List.nil_append, List.append_assoc, parseValue]
    simp +decide [hd2, skipSpace_cons c _ hc1, hc2, hrec]
  | .obj [], fuel, depth, rest, _, hd, hf, _ => by
    have hl : (render (.obj [])).length = 2 := rfl
    obtain ⟨f, rfl⟩ : ∃ f, fuel = f + 1 := ⟨fuel - 1, by omega⟩
    have hd2 : ¬ maxNestingDepth < depth + 1 := by
      simp only [depthOf, depthMembers] at hd; omega
    simp only [render, renderMembers, List.cons_append, List.nil_append, List.append_nil,
      parseValue]
    simp +decide [hd2, skipSpace_cons (B '}') rest (by decide)]
  | .obj (m :: ms), fuel, depth, rest, hp, hd, hf, _ => by
    simp only [printable] at hp
    have hl : (render (.obj (m :: ms))).length = (renderMembers (m :: ms)).length + 2 := by
      simp [render]
    obtain ⟨f, rfl⟩ : ∃ f, fuel = f + 1 := ⟨fuel - 1, by omega⟩
    have hd2 : ¬ maxNestingDepth < depth + 1 := by
      simp only [depthOf] at hd; omega
    obtain ⟨body, hr⟩ := renderMembers_head m ms
    have hrec := parseMembers_render (m :: ms) f (depth + 1) rest (by simp) hp
      (by simp only [depthOf] at hd; omega) (by omega)
    rw [hr] at hrec
    simp only [List.cons_append] at hrec
    simp only [render, hr, List.cons_append, List.nil_append, List.append_assoc, parseValue]
    simp +decide [hd2, skipSpace_cons (0x22 : Byte) _ (by decide), hrec]
/-- The scanner reads the elements of an array back, up to the closing
bracket. -/
theorem parseElems_render : ∀ (items : List JSON) (fuel depth : Nat) (rest : GoString),
    items ≠ [] → printableElems items = true → depth + depthElems items ≤ maxNestingDepth →
    (renderElems items).length + 1 ≤ fuel →
    parseElems fuel depth (renderElems items ++ B ']' :: rest) = some (items, rest)
  | [], _, _, _, h, _, _, _ => absurd rfl h
  | [j], fuel, depth, rest, _, hp, hd, hf => by
    obtain ⟨f, rfl⟩ : ∃ f, fuel = f + 1 := ⟨fuel - 1, by omega⟩
    simp only [printableElems, Bool.and_eq_true, and_true] at hp
    have hv := parseValue_render j f depth (B ']' :: rest) hp
      (by simp only [depthElems] at hd; omega)
      (by simp only [renderElems] at hf; omega) (terminated_bracket rest)
    simp only [renderElems, parseElems, hv, skipSpace_cons _ _ (show isSpace (B ']') = false by decide)]
    simp +decide
  | j :: j2 :: js, fuel, depth, rest, _, hp, hd, hf => by
    obtain ⟨f, rfl⟩ : ∃ f, fuel = f + 1 := ⟨fuel - 1, by omega⟩
    have hpj : printable j = true ∧ printableElems (j2 :: js) = true := by
      rw [printableElems, Bool.and_eq_true] at hp; exact hp
    have hpj2 : printable j2 = true := by
      have := hpj.2; rw [printableElems, Bool.and_eq_true] at this; exact this.1
    have hlen := renderElems_length_cons j j2 js
    have hdd : depthElems (j :: j2 :: js) = max (depthOf j) (depthElems (j2 :: js)) := by
      rw [depthElems]
    have hv := parseValue_render j f depth (B ',' :: (renderElems (j2 :: js) ++ B ']' :: rest))
      hpj.1 (by omega) (by omega) (terminated_comma _)
    have hrec := parseElems_render (j2 :: js) f depth rest (by simp) hpj.2 (by omega) (by omega)
    obtain ⟨c, s, hr, hc1, _⟩ := renderElems_head j2 js hpj2
    have hsk : skipSpace (renderElems (j2 :: js) ++ B ']' :: rest) =
        renderElems (j2 :: js) ++ B ']' :: rest := by
      rw [hr]; exact skipSpace_cons _ _ hc1
    rw [renderElems_cons_cons]
    simp only [List.append_assoc, List.cons_append, List.nil_append, parseElems, hv,
      skipSpace_cons _ _ (show isSpace (B ',') = false by decide)]
    simp +decide [hsk, hrec]
/-- The scanner reads the members of an object back, up to the closing
brace. -/
theorem parseMembers_render : ∀ (members : List (GoString × JSON)) (fuel depth : Nat)
    (rest : GoString),
    members ≠ [] → printableMembers members = true →
    depth + depthMembers members ≤ maxNestingDepth →
    (renderMembers members).length + 1 ≤ fuel →
    parseMembers fuel depth (renderMembers members ++ B '}' :: rest) = some (members, rest)
  | [], _, _, _, h, _, _, _ => absurd rfl h
  | [(k, j)], fuel, depth, rest, _, hp, hd, hf => by
    obtain ⟨f, rfl⟩ : ∃ f, fuel = f + 1 := ⟨fuel - 1, by omega⟩
    simp only [printableMembers, Bool.and_eq_true, and_true] at hp
    have hlen := renderMembers_length_one k j
    obtain ⟨c, s, hr, hc1, _⟩ := render_head j hp.2
    have hv := parseValue_render j f depth (B '}' :: rest) hp.2
      (by simp only [depthMembers] at hd; omega) (by omega) (terminated_brace rest)
    obtain ⟨body, hb, hkey⟩ := parseStringBody_key k
      (B ':' :: (render j ++ B '}' :: rest)) hp.1
    have hsk : skipSpace (render j ++ B '}' :: rest) = render j ++ B '}' :: rest := by
      rw [hr]; exact skipSpace_cons _ _ hc1
    simp only [renderMembers, hb, List.append_assoc, List.cons_append, List.nil_append,
      parseMembers]
    simp only [hkey, if_true]
    simp +decide [skipSpace_cons _ _ (show isSpace (B ':') = false by decide), hsk, hv,
      skipSpace_cons _ _ (show isSpace (B '}') = false by decide)]
  | (k, j) :: m2 :: ms, fuel, depth, rest, _, hp, hd, hf => by
    obtain ⟨f, rfl⟩ : ∃ f, fuel = f + 1 := ⟨fuel - 1, by omega⟩
    have hpj : (validUTF8 k = true ∧ printable j = true) ∧
        printableMembers (m2 :: ms) = true := by
      rw [printableMembers, Bool.and_eq_true, Bool.and_eq_true] at hp; exact hp
    have hlen := renderMembers_length_cons k j m2 ms
    have hdd : depthMembers ((k, j) :: m2 :: ms) = max (depthOf j) (depthMembers (m2 :: ms)) := by
      rw [depthMembers]
    obtain ⟨c, s, hr, hc1, _⟩ := render_head j hpj.1.2
    have hv := parseValue_render j f depth
      (B ',' :: (renderMembers (m2 :: ms) ++ B '}' :: rest))
      hpj.1.2 (by omega) (by omega) (terminated_comma _)
    have hrec := parseMembers_render (m2 :: ms) f depth rest (by simp) hpj.2 (by omega)
      (by omega)
    obtain ⟨body, hb, hkey⟩ := parseStringBody_key k
      (B ':' :: (render j ++ B ',' :: (renderMembers (m2 :: ms) ++ B '}' :: rest))) hpj.1.1
    have hsk : skipSpace (render j ++ B ',' :: (renderMembers (m2 :: ms) ++ B '}' :: rest)) =
        render j ++ B ',' :: (renderMembers (m2 :: ms) ++ B '}' :: rest) := by
      rw [hr]; exact skipSpace_cons _ _ hc1
    obtain ⟨body2, hr2⟩ := renderMembers_head m2 ms
    have hsk2 : skipSpace (renderMembers (m2 :: ms) ++ B '}' :: rest) =
        renderMembers (m2 :: ms) ++ B '}' :: rest := by
      rw [hr2]; exact skipSpace_cons _ _ (by decide)
    rw [renderMembers_cons_cons]
    simp only [hb, List.append_assoc, List.cons_append, List.nil_append, parseMembers]
    simp only [hkey, if_true]
    simp +decide [skipSpace_cons _ _ (show isSpace (B ':') = false by decide), hsk, hv,
      skipSpace_cons _ _ (show isSpace (B ',') = false by decide), hsk2, hrec]
end

/-! ### Reading back the shortest decimal of a float -/

theorem bitLenAux_spec : ∀ (fuel n : Nat), n ≤ fuel → 0 < n →
    0 < bitLenAux fuel n ∧ 2 ^ (bitLenAux fuel n - 1) ≤ n ∧ n < 2 ^ bitLenAux fuel n := by
  intro fuel
  induction fuel with
  | zero => intro n h h0; omega
  | succ fuel ih =>
    intro n h h0
    rw [bitLenAux, if_neg (by omega)]
    by_cases h2 : n / 2 = 0
    · have hn : n = 1 := by omega
      subst hn
      cases fuel <;> simp [bitLenAux]
    · obtain ⟨i1, i2, i3⟩ := ih (n / 2) (by omega) (by omega)
      refine ⟨by omega, ?_, ?_⟩
      · simp only [Nat.add_sub_cancel]
        obtain ⟨b, hb⟩ : ∃ b, bitLenAux fuel (n / 2) = b + 1 := ⟨_, (Nat.succ_pred_eq_of_pos i1).symm⟩
        rw [hb] at i2 ⊢
        simp only [Nat.add_sub_cancel] at i2
        rw [pow_succ]
        omega
      · rw [pow_succ]
        omega

theorem bitLen_spec (n : Nat) (h : 0 < n) :
    0 < bitLen n ∧ 2 ^ (bitLen n - 1) ≤ n ∧ n < 2 ^ bitLen n :=
  bitLenAux_spec n n (le_refl _) h

theorem geTwoPow_iff (num den : Nat) (k : Int) :
    geTwoPow num den k = true ↔ (den : ℚ) * (2 : ℚ) ^ k ≤ (num : ℚ) := by
  unfold geTwoPow
  by_cases hk : 0 ≤ k
  · obtain ⟨n, rfl⟩ := Int.eq_ofNat_of_zero_le hk
    simp only [hk, if_true, Int.toNat_ofNat, decide_eq_true_eq, zpow_natCast]
    exact_mod_cast Iff.rfl
  · obtain ⟨n, hn⟩ : ∃ n : Nat, k = -(n : Int) := ⟨(-k).toNat, by omega⟩
    subst hn
    simp only [hk, if_false, neg_neg, Int.toNat_ofNat, decide_eq_true_eq, zpow_neg, zpow_natCast]
    have hpos : (0 : ℚ) < 2 ^ n := by positivity
    rw [← div_eq_mul_inv, div_le_iff₀ hpos]
    exact_mod_cast Iff.rfl

theorem geTwoPow_mono (num den : Nat) (a b : Int) (hab : b ≤ a)
    (h : geTwoPow num den a = true) : geTwoPow num den b = true := by
  rw [geTwoPow_iff] at h ⊢
  have h2 : (2 : ℚ) ^ b ≤ 2 ^ a := zpow_le_zpow_right₀ (by norm_num) hab
  calc (den : ℚ) * 2 ^ b ≤ den * 2 ^ a := by gcongr
    _ ≤ num := h

theorem geTwoPow_scale (num den c : Nat) (k : Int) (hc : 0 < c) :
    geTwoPow (num * c) (den * c) k = geTwoPow num den k := by
  have hcq : (0 : ℚ) < c := by exact_mod_cast hc
  rw [Bool.eq_iff_iff, geTwoPow_iff, geTwoPow_iff]
  push_cast
  constructor
  · intro h
    have : (den : ℚ) * 2 ^ k * c ≤ num * c := by linarith
    exact le_of_mul_le_mul_right this hcq
  · intro h
    have : (den : ℚ) * 2 ^ k * c ≤ num * c := by gcongr
    linarith

/-- The binary exponent `roundFloat` finds is the one with
`2^k ≤ num / den < 2^(k+1)`. -/
theorem binaryExponent_spec (num den : Nat) (hn : 0 < num) (hd : 0 < den) :
    let k0 : Int := (bitLen num : Int) - (bitLen den : Int)
    let k : Int := if geTwoPow num den k0 then k0 else k0 - 1
    geTwoPow num den k = true ∧ geTwoPow num den (k + 1) = false := by
  obtain ⟨n0, n1, n2⟩ := bitLen_spec num hn
  obtain ⟨d0, d1, d2⟩ := bitLen_spec den hd
  obtain ⟨bn, hbn⟩ : ∃ b, bitLen num = b + 1 := ⟨_, (Nat.succ_pred_eq_of_pos n0).symm⟩
  obtain ⟨bd, hbd⟩ : ∃ b, bitLen den = b + 1 := ⟨_, (Nat.succ_pred_eq_of_pos d0).symm⟩
  rw [hbn] at n1 n2
  rw [hbd] at d1 d2
  simp only [Nat.add_sub_cancel] at n1 d1
  have n1q : (2 : ℚ) ^ (bn : Int) ≤ num := by rw [zpow_natCast]; exact_mod_cast n1
  have n2q : (num : ℚ) < 2 ^ ((bn : Int) + 1) := by
    rw [show ((bn : Int) + 1) = ((bn + 1 : Nat) : Int) by push_cast; rfl, zpow_natCast]
    exact_mod_cast n2
  have d1q : (2 : ℚ) ^ (bd : Int) ≤ den := by rw [zpow_natCast]; exact_mod_cast d1
  have d2q : (den : ℚ) < 2 ^ ((bd : Int) + 1) := by
    rw [show ((bd : Int) + 1) = ((bd + 1 : Nat) : Int) by push_cast; rfl, zpow_natCast]
    exact_mod_cast d2
  simp only [hbn, hbd]
  have hk0 : (((bn + 1 : Nat) : Int) - ((bd + 1 : Nat) : Int)) = (bn : Int) - bd := by
    push_cast; ring
  rw [hk0]
  have two : (0 : ℚ) < 2 := by norm_num
  by_cases hg : geTwoPow num den ((bn : Int) - bd) = true
  · simp only [hg, if_true, true_and]
    rw [Bool.eq_false_iff, Ne, geTwoPow_iff, not_le]
    have e : (2 : ℚ) ^ ((bn : Int) - bd + 1) * 2 ^ (bd : Int) = 2 ^ ((bn : Int) + 1) := by
      rw [← zpow_add₀ two.ne']; congr 1; ring
    have p1 : (0 : ℚ) < 2 ^ ((bn : Int) - bd + 1) := zpow_pos two _
    calc (num : ℚ) < 2 ^ ((bn : Int) + 1) := n2q
      _ = 2 ^ (bd : Int) * 2 ^ ((bn : Int) - bd + 1) := by rw [← e]; ring
      _ ≤ den * 2 ^ ((bn : Int) - bd + 1) := by gcongr
  · have hg2 : geTwoPow num den ((bn : Int) - bd) = false := by simpa using hg
    simp only [hg2, Bool.false_eq_true, if_false, sub_add_cancel, and_true]
    rw [geTwoPow_iff]
    have e : (2 : ℚ) ^ ((bd : Int) + 1) * 2 ^ ((bn : Int) - bd - 1) = 2 ^ (bn : Int) := by
      rw [← zpow_add₀ two.ne']; congr 1; ring
    have p1 : (0 : ℚ) < 2 ^ ((bn : Int) - bd - 1) := zpow_pos two _
    calc (den : ℚ) * 2 ^ ((bn : Int) - bd - 1) ≤ 2 ^ ((bd : Int) + 1) * 2 ^ ((bn : Int) - bd - 1) := by
          gcongr
      _ = 2 ^ (bn : Int) := e
      _ ≤ num := n1q

theorem binaryExponent_unique (num den : Nat) (k k2 : Int)
    (h1 : geTwoPow num den k = true) (h2 : geTwoPow num den (k + 1) = false)
    (g1 : geTwoPow num den k2 = true) (g2 : geTwoPow num den (k2 + 1) = false) : k = k2 := by
  by_contra hne
  rcases lt_or_gt_of_ne hne with h | h
  · have := geTwoPow_mono num den k2 (k + 1) (by omega) g1
    rw [this] at h2
    exact absurd h2 (by decide)
  · have := geTwoPow_mono num den k (k2 + 1) (by omega) h1
    rw [this] at g2
    exact absurd g2 (by decide)

theorem roundFloat_of_exponent (neg : Bool) (num den : Nat) (k : Int) (hn : 0 < num)
    (hd : 0 < den) (h1 : geTwoPow num den k = true) (h2 : geTwoPow num den (k + 1) = false) :
    roundFloat neg num den = roundAt neg num den k := by
  have hs := binaryExponent_spec num den hn hd
  simp only [] at hs
  have hk := binaryExponent_unique num den _ k hs.1 hs.2 h1 h2
  unfold roundFloat roundAt
  rw [if_neg (by omega)]
  simp only [hk]

theorem roundHalfEven_scale (num den c : Nat) (hc : 0 < c) :
    roundHalfEven (num * c) (den * c) = roundHalfEven num den := by
  unfold roundHalfEven
  simp only [Nat.mul_div_mul_right _ _ hc, Nat.mul_mod_mul_right]
  have e1 : 2 * (num % den * c) > den * c ↔ 2 * (num % den) > den := by
    rw [show 2 * (num % den * c) = (2 * (num % den)) * c by ring]
    exact Nat.mul_lt_mul_right hc
  have e2 : 2 * (num % den * c) = den * c ↔ 2 * (num % den) = den := by
    rw [show 2 * (num % den * c) = (2 * (num % den)) * c by ring]
    exact Nat.mul_left_inj (by omega)
  simp only [e1, e2]

theorem roundAt_scale (neg : Bool) (num den c : Nat) (k : Int) (hc : 0 < c) :
    roundAt neg (num * c) (den * c) k = roundAt neg num den k := by
  unfold roundAt
  have e1 : ∀ x, roundHalfEven (num * c) (den * c * x) = roundHalfEven num (den * x) := by
    intro x
    rw [show den * c * x = den * x * c by ring]
    exact roundHalfEven_scale _ _ _ hc
  have e2 : ∀ x, roundHalfEven (num * c * x) (den * c) = roundHalfEven (num * x) den := by
    intro x
    rw [show num * c * x = num * x * c by ring]
    exact roundHalfEven_scale _ _ _ hc
  simp only [e1, e2]

/-- What `roundFloat` returns depends on the quotient only. -/
theorem roundFloat_scale (neg : Bool) (num den c : Nat) (hd : 0 < den) (hc : 0 < c) :
    roundFloat neg (num * c) (den * c) = roundFloat neg num den := by
  by_cases hn : num = 0
  · subst hn
    simp [roundFloat]
  · have hn : 0 < num := Nat.pos_of_ne_zero hn
    have hs := binaryExponent_spec num den hn hd
    simp only [] at hs
    rw [roundFloat_of_exponent neg num den _ hn hd hs.1 hs.2,
      roundFloat_of_exponent neg (num * c) (den * c) _ (Nat.mul_pos hn hc) (Nat.mul_pos hd hc)
        (by rw [geTwoPow_scale _ _ _ _ hc]; exact hs.1)
        (by rw [geTwoPow_scale _ _ _ _ hc]; exact hs.2),
      roundAt_scale _ _ _ _ _ hc]

theorem roundHalfEven_one (m : Nat) : roundHalfEven m 1 = m := by
  simp [roundHalfEven, Nat.mod_one]

theorem roundHalfEven_exact (m c : Nat) (hc : 0 < c) : roundHalfEven (m * c) c = m := by
  have := roundHalfEven_scale m 1 c hc
  rw [Nat.one_mul] at this
  rw [this, roundHalfEven_one]

theorem bitLen_normal (m : Nat) (h1 : 2 ^ 52 ≤ m) (h2 : m < 2 ^ 53) : bitLen m = 53 := by
  obtain ⟨b0, b1, b2⟩ := bitLen_spec m (by omega)
  have u : 52 < bitLen m := by
    by_contra hc
    have : 2 ^ bitLen m ≤ 2 ^ 52 := Nat.pow_le_pow_right (by decide) (by omega)
    omega
  have l : bitLen m - 1 < 53 := by
    by_contra hc
    have : 2 ^ 53 ≤ 2 ^ (bitLen m - 1) := Nat.pow_le_pow_right (by decide) (by omega)
    omega
  omega

theorem bitLen_subnormal (m : Nat) (h0 : 0 < m) (h2 : m < 2 ^ 52) : bitLen m ≤ 52 := by
  obtain ⟨b0, b1, b2⟩ := bitLen_spec m h0
  by_contra hc
  have : 2 ^ 52 ≤ 2 ^ (bitLen m - 1) := Nat.pow_le_pow_right (by decide) (by omega)
  omega

theorem exponent_dyadic_neg (m s : Nat) (h0 : 0 < m) :
    geTwoPow m (2 ^ s) ((bitLen m : Int) - 1 - s) = true ∧
      geTwoPow m (2 ^ s) ((bitLen m : Int) - 1 - s + 1) = false := by
  obtain ⟨b0, b1, b2⟩ := bitLen_spec m h0
  obtain ⟨b, hb⟩ : ∃ b, bitLen m = b + 1 := ⟨_, (Nat.succ_pred_eq_of_pos b0).symm⟩
  rw [hb] at b1 b2 ⊢
  simp only [Nat.add_sub_cancel] at b1
  have two : (0 : ℚ) < 2 := by norm_num
  have b1q : (2 : ℚ) ^ (b : Int) ≤ m := by rw [zpow_natCast]; exact_mod_cast b1
  have b2q : (m : ℚ) < 2 ^ ((b : Int) + 1) := by
    rw [show ((b : Int) + 1) = ((b + 1 : Nat) : Int) by push_cast; rfl, zpow_natCast]
    exact_mod_cast b2
  have hs : ((2 ^ s : Nat) : ℚ) = (2 : ℚ) ^ (s : Int) := by rw [zpow_natCast]; push_cast; rfl
  constructor
  · rw [geTwoPow_iff, hs, ← zpow_add₀ two.ne']
    rw [show (s : Int) + (((b + 1 : Nat) : Int) - 1 - s) = b by push_cast; ring]
    exact b1q
  · rw [Bool.eq_false_iff, Ne, geTwoPow_iff, not_le, hs, ← zpow_add₀ two.ne']
    rw [show (s : Int) + (((b + 1 : Nat) : Int) - 1 - s + 1) = (b : Int) + 1 by push_cast; ring]
    exact b2q

theorem exponent_dyadic_pos (m e : Nat) (h0 : 0 < m) :
    geTwoPow (m * 2 ^ e) 1 ((bitLen m : Int) - 1 + e) = true ∧
      geTwoPow (m * 2 ^ e) 1 ((bitLen m : Int) - 1 + e + 1) = false := by
  obtain ⟨b0, b1, b2⟩ := bitLen_spec m h0
  obtain ⟨b, hb⟩ : ∃ b, bitLen m = b + 1 := ⟨_, (Nat.succ_pred_eq_of_pos b0).symm⟩
  rw [hb] at b1 b2 ⊢
  simp only [Nat.add_sub_cancel] at b1
  have two : (0 : ℚ) < 2 := by norm_num
  have b1q : (2 : ℚ) ^ (b : Int) ≤ m := by rw [zpow_natCast]; exact_mod_cast b1
  have b2q : (m : ℚ) < 2 ^ ((b : Int) + 1) := by
    rw [show ((b : Int) + 1) = ((b + 1 : Nat) : Int) by push_cast; rfl, zpow_natCast]
    exact_mod_cast b2
  have he : (((m * 2 ^ e : Nat)) : ℚ) = (m : ℚ) * (2 : ℚ) ^ (e : Int) := by
    rw [zpow_natCast]; push_cast; rfl
  have pe : (0 : ℚ) < 2 ^ (e : Int) := zpow_pos two _
  constructor
  · rw [geTwoPow_iff, he]
    rw [show (((b + 1 : Nat) : Int) - 1 + e) = (b : Int) + e by push_cast; ring,
      zpow_add₀ two.ne']
    push_cast
    rw [one_mul]
    gcongr
  · rw [Bool.eq_false_iff, Ne, geTwoPow_iff, not_le, he]
    rw [show (((b + 1 : Nat) : Int) - 1 + e + 1) = ((b : Int) + 1) + e by push_cast; ring,
      zpow_add₀ two.ne']
    push_cast
    rw [one_mul]
    gcongr

/-- The exact decimal expansion of a float in the representation of binary64
reads back as the float. -/
theorem roundFloat_expansion (neg : Bool) (m : Nat) (e : Int) (h0 : 0 < m)
    (hb : Float64.isBinary64 (.finite neg m e) = true) :
    roundFloat neg (expansion m e).1 (10 ^ (expansion m e).2) = some (.finite neg m e) := by
  simp only [Float64.isBinary64, Bool.or_eq_true, Bool.and_eq_true, decide_eq_true_eq] at hb
  by_cases he : 0 ≤ e
  · obtain ⟨n, rfl⟩ := Int.eq_ofNat_of_zero_le he
    have hnorm : 2 ^ 52 ≤ m ∧ m < 2 ^ 53 ∧ (n : Int) ≤ 971 := by
      rcases hb with ⟨⟨⟨h1, h2⟩, _⟩, h4⟩ | ⟨_, h⟩
      · exact ⟨h1, h2, h4⟩
      · omega
    obtain ⟨h1, h2, h3⟩ := hnorm
    have hx := exponent_dyadic_pos m n h0
    simp only [expansion, he, if_true, Int.toNat_ofNat, pow_zero]
    rw [roundFloat_of_exponent neg _ 1 _ (Nat.mul_pos h0 (by positivity)) (by decide) hx.1 hx.2]
    rw [bitLen_normal m h1 h2]
    have e1 : max ((((53 : Nat) : Int) - 1 + (n : Int)) - 52) (-1074) = (n : Int) := by omega
    unfold roundAt
    simp only [e1, Int.toNat_ofNat, Nat.one_mul, Int.natCast_nonneg, if_true,
      roundHalfEven_exact m (2 ^ n) (by positivity)]
    rw [if_neg (by omega), if_neg (by omega), if_neg (by omega)]
  · obtain ⟨s, hs⟩ : ∃ s : Nat, e = -(s : Int) := ⟨(-e).toNat, by omega⟩
    subst hs
    have hs0 : 0 < s := by omega
    have hx := exponent_dyadic_neg m s h0
    simp only [expansion, he, if_false, neg_neg, Int.toNat_ofNat]
    rw [show (10 : Nat) ^ s = 2 ^ s * 5 ^ s by rw [← Nat.mul_pow],
      roundFloat_scale neg m (2 ^ s) (5 ^ s) (by positivity) (by positivity),
      roundFloat_of_exponent neg m (2 ^ s) _ h0 (by positivity) hx.1 hx.2]
    have e1 : max (((bitLen m : Int) - 1 - s) - 52) (-1074) = -(s : Int) := by
      rcases hb with ⟨⟨⟨h1, h2⟩, h3⟩, _⟩ | ⟨h1, h2⟩
      · rw [bitLen_normal m h1 h2]; omega
      · have := bitLen_subnormal m h0 h1
        omega
    unfold roundAt
    simp only [e1, neg_neg, Int.toNat_ofNat, roundHalfEven_exact m (2 ^ s) (by positivity)]
    have hm53 : m ≠ 2 ^ 53 := by
      rcases hb with ⟨⟨⟨_, h2⟩, _⟩, _⟩ | ⟨h1, _⟩ <;> omega
    rw [if_neg (by omega)]
    simp only [if_neg he, hm53, if_false]

theorem shortestAux_readsBack (m : Nat) (e : Int) (E t : Nat)
    (hbase : readsBack m e t E 0 = true) :
    ∀ n, readsBack m e t (shortestAux m e E t n).1 (shortestAux m e E t n).2 = true := by
  intro n
  induction n with
  | zero => simpa [shortestAux] using hbase
  | succ i ih =>
    rw [shortestAux]
    by_cases h1 : readsBack m e t (E / 10 ^ (i + 1)) (i + 1) = true
    · by_cases h2 : (decide (E % 10 ^ (i + 1) ≠ 0) &&
          readsBack m e t (E / 10 ^ (i + 1) + 1) (i + 1)) = true
      · simp only [h1, h2, Bool.and_self, if_true]
        have h2b := Bool.and_eq_true_iff.1 h2
        split
        · exact h2b.2
        · exact h1
      · simp only [h1, h2, Bool.and_false, Bool.false_eq_true, if_false, if_true]
    · by_cases h2 : (decide (E % 10 ^ (i + 1) ≠ 0) &&
          readsBack m e t (E / 10 ^ (i + 1) + 1) (i + 1)) = true
      · have h2b := Bool.and_eq_true_iff.1 h2
        simp only [h1, h2, Bool.false_and, Bool.false_eq_true, if_false, if_true]
        exact h2b.2
      · simp only [h1, h2, Bool.false_and, Bool.false_eq_true, if_false]
        exact ih

/-- The digits `shortest` finds read back as the float: with `c` the digits
as a number and `i` the count of dropped digits, `c * 10^i / 10^t` rounds to
the float. -/
theorem shortest_readsBack (m : Nat) (e : Int) (h0 : 0 < m)
    (hb : Float64.isBinary64 (.finite false m e) = true) :
    ∃ c i t : Nat, 0 < c ∧
      shortest m e = (trimZeros (natDec c), ((natDec c).length : Int) + (i : Int) - (t : Int)) ∧
      roundFloat false (c * 10 ^ i) (10 ^ t) = some (.finite false m e) := by
  have hbase : readsBack m e (expansion m e).2 (expansion m e).1 0 = true := by
    simp only [readsBack, pow_zero, Nat.mul_one, decide_eq_true_eq]
    exact roundFloat_expansion false m e h0 hb
  have h := shortestAux_readsBack m e _ _ hbase ((natDec (expansion m e).1).length - 1)
  generalize hci : shortestAux m e (expansion m e).1 (expansion m e).2
    ((natDec (expansion m e).1).length - 1) = ci at h
  obtain ⟨c, i⟩ := ci
  simp only [readsBack, decide_eq_true_eq] at h
  refine ⟨c, i, (expansion m e).2, ?_, ?_, h⟩
  · rcases Nat.eq_zero_or_pos c with hc | hc
    · subst hc
      simp [roundFloat] at h
      omega
    · exact hc
  · simp only [shortest, hci]

theorem spanDigits_prefix (ds rest : GoString) (h : allDigits ds = true)
    (hr : ∀ c r, rest = c :: r → ¬ (B '0' ≤ c ∧ c ≤ B '9')) :
    spanDigits (ds ++ rest) = (ds, rest) := by
  induction ds with
  | nil =>
    cases rest with
    | nil => rfl
    | cons c r => simp [spanDigits, hr c r rfl]
  | cons d ds ih =>
    simp only [allDigits, List.all_cons, Bool.and_eq_true, decide_eq_true_eq] at h
    have ih := ih (by simpa [allDigits] using h.2)
    simp only [List.cons_append, spanDigits, if_pos h.1]
    rw [show ds.append rest = ds ++ rest from rfl, ih]

theorem expText_head (ex : Option (Bool × GoString)) :
    ∀ c r, expText ex = c :: r → c = B 'e' := by
  intro c r h
  cases ex with
  | none => simp [expText] at h
  | some p =>
    obtain ⟨eneg, ds⟩ := p
    simp only [expText, List.cons.injEq] at h
    exact h.1.symm

theorem fracText_head (frac : GoString) (ex : Option (Bool × GoString)) :
    ∀ c r, (if frac = [] then [] else B '.' :: frac) ++ expText ex = c :: r →
      c = B '.' ∨ c = B 'e' := by
  intro c r h
  by_cases hf : frac = []
  · simp only [hf, if_true, List.nil_append] at h
    exact Or.inr (expText_head ex c r h)
  · simp only [hf, if_false, List.cons_append, List.cons.injEq] at h
    exact Or.inl h.1.symm

theorem numText_eq (neg : Bool) (int frac : GoString) (ex : Option (Bool × GoString)) :
    numText neg int frac ex =
      (if neg then [B '-'] else []) ++
        (int ++ ((if frac = [] then [] else B '.' :: frac) ++ expText ex)) := by
  cases ex with
  | none => simp [numText, expText]
  | some p => simp [numText, expText]

theorem digit_ne_special (d : Byte) (h : B '0' ≤ d ∧ d ≤ B '9') :
    d ≠ B '-' ∧ d ≠ B '.' ∧ d ≠ B 'e' ∧ d ≠ B '+' := by
  refine ⟨?_, ?_, ?_, ?_⟩ <;> (rintro rfl; revert h; decide)

theorem expText_parts (ex : Option (Bool × GoString)) :
    startsWith (expText ex) (bytes ".") = false ∧
    (if startsWith ((expText ex).drop 1) (bytes "-") then
        -(decValue (if startsWith ((expText ex).drop 1) (bytes "-") ∨
            startsWith ((expText ex).drop 1) (bytes "+") then (expText ex).drop 2
          else (expText ex).drop 1) : Int)
      else (decValue (if startsWith ((expText ex).drop 1) (bytes "-") ∨
            startsWith ((expText ex).drop 1) (bytes "+") then (expText ex).drop 2
          else (expText ex).drop 1) : Int)) = expValue ex := by
  have b1 : bytes "." = [B '.'] := by decide
  have b2 : bytes "-" = [B '-'] := by decide
  have b3 : bytes "+" = [B '+'] := by decide
  rw [b1, b2, b3]
  cases ex with
  | none => simp [expText, expValue, startsWith, decValue]
  | some p =>
    obtain ⟨eneg, ds⟩ := p
    cases eneg
    · simp +decide [expText, expValue, startsWith]
    · simp +decide [expText, expValue, startsWith]

/-- What `parseFloat` computes from a number text. -/
theorem parseFloat_numText (neg : Bool) (int frac : GoString) (ex : Option (Bool × GoString))
    (hi : allDigits int = true) (hne : int ≠ []) (hf : allDigits frac = true) :
    parseFloat (numText neg int frac ex) =
      decimalFloat neg (decValue (int ++ frac)) (expValue ex - (frac.length : Int)) := by
  obtain ⟨d, ds, rfl⟩ : ∃ d ds, int = d :: ds := by
    cases int with
    | nil => exact absurd rfl hne
    | cons d ds => exact ⟨d, ds, rfl⟩
  have hd : B '0' ≤ d ∧ d ≤ B '9' := by
    simp only [allDigits, List.all_cons, Bool.and_eq_true, decide_eq_true_eq] at hi
    exact hi.1
  obtain ⟨hd1, _, _, _⟩ := digit_ne_special d hd
  have b2 : bytes "-" = [B '-'] := by decide
  have hneg : startsWith (numText neg (d :: ds) frac ex) (bytes "-") = neg := by
    rw [numText_eq, b2]
    cases neg <;> simp [startsWith, hd1]
  have hs1 : (if neg = true then (numText neg (d :: ds) frac ex).drop 1
      else numText neg (d :: ds) frac ex) =
      (d :: ds) ++ ((if frac = [] then [] else B '.' :: frac) ++ expText ex) := by
    rw [numText_eq]
    cases neg <;> simp
  have hspan := spanDigits_prefix (d :: ds)
    ((if frac = [] then [] else B '.' :: frac) ++ expText ex) hi
    (fun c r h => by
      rcases fracText_head frac ex c r h with rfl | rfl <;> decide)
  obtain ⟨e1, e2⟩ := expText_parts ex
  unfold parseFloat decimalFloat
  simp only [hneg, hs1, hspan]
  by_cases hfr : frac = []
  · subst hfr
    simp only [if_true, List.nil_append, e1, Bool.false_eq_true, if_false, e2, List.append_nil,
      List.length_nil]
  · have hspan2 := spanDigits_prefix frac (expText ex) hf
      (fun c r h => by rw [expText_head ex c r h]; decide)
    have hsw : startsWith (B '.' :: (frac ++ expText ex)) (bytes ".") = true := by
      rw [show bytes "." = [B '.'] by decide]
      simp [startsWith]
    simp only [hfr, if_false, hsw, if_true, List.cons_append, List.drop_succ_cons, List.drop_zero,
      hspan2, e2]

theorem takeExp_expText (ex : Option (Bool × GoString))
    (hex : ∀ eneg ds, ex = some (eneg, ds) → ds ≠ [] ∧ allDigits ds = true) :
    takeExp (expText ex) = some (expText ex, []) := by
  cases ex with
  | none => simp [expText, takeExp]
  | some p =>
    obtain ⟨eneg, ds⟩ := p
    obtain ⟨h1, h2⟩ := hex eneg ds rfl
    obtain ⟨d, ds2, rfl⟩ : ∃ d ds2, ds = d :: ds2 := by
      cases ds with
      | nil => exact absurd rfl h1
      | cons d ds2 => exact ⟨d, ds2, rfl⟩
    have hsp := spanDigits_allDigits _ h2
    cases eneg
    · simp +decide [expText, takeExp, hsp]
    · simp +decide [expText, takeExp, hsp]

theorem takeFrac_fracText (frac : GoString) (ex : Option (Bool × GoString))
    (hf : allDigits frac = true) :
    takeFrac ((if frac = [] then [] else B '.' :: frac) ++ expText ex) =
      some ((if frac = [] then [] else B '.' :: frac), expText ex) := by
  by_cases hfr : frac = []
  · subst hfr
    simp only [if_true, List.nil_append]
    cases h : expText ex with
    | nil => simp [takeFrac]
    | cons c r =>
      have := expText_head ex c r h
      subst this
      simp +decide [takeFrac]
  · have hspan2 := spanDigits_prefix frac (expText ex) hf
      (fun c r h => by rw [expText_head ex c r h]; decide)
    obtain ⟨d, ds2, rfl⟩ : ∃ d ds2, frac = d :: ds2 := by
      cases frac with
      | nil => exact absurd rfl hfr
      | cons d ds2 => exact ⟨d, ds2, rfl⟩
    simp only [hfr, if_false, List.cons_append, takeFrac, if_true]
    rw [← List.cons_append, hspan2]

/-- The scanner takes a number text as one number literal. -/
theorem parseNumber_numText (neg : Bool) (int frac : GoString) (ex : Option (Bool × GoString))
    (hi : allDigits int = true)
    (hint : int = [B '0'] ∨ ∃ d ds, int = d :: ds ∧ d ≠ B '0')
    (hf : allDigits frac = true)
    (hex : ∀ eneg ds, ex = some (eneg, ds) → ds ≠ [] ∧ allDigits ds = true) :
    parseNumber (numText neg int frac ex) = some (numText neg int frac ex, []) := by
  obtain ⟨d, ds, rfl, hd0⟩ : ∃ d ds, int = d :: ds ∧ (d = B '0' → ds = []) := by
    rcases hint with rfl | ⟨d, ds, rfl, hd⟩
    · exact ⟨_, _, rfl, fun _ => rfl⟩
    · exact ⟨d, ds, rfl, fun h => absurd h hd⟩
  have hd : B '0' ≤ d ∧ d ≤ B '9' := by
    simp only [allDigits, List.all_cons, Bool.and_eq_true, decide_eq_true_eq] at hi
    exact hi.1
  obtain ⟨hd1, _, _, _⟩ := digit_ne_special d hd
  have hsign : takeSign (numText neg (d :: ds) frac ex) =
      ((if neg then [B '-'] else []),
        (d :: ds) ++ ((if frac = [] then [] else B '.' :: frac) ++ expText ex)) := by
    rw [numText_eq]
    cases neg <;> simp [takeSign, hd1]
  have hspan := spanDigits_prefix (d :: ds)
    ((if frac = [] then [] else B '.' :: frac) ++ expText ex) hi
    (fun c r h => by
      rcases fracText_head frac ex c r h with rfl | rfl <;> decide)
  have hint2 : takeInt ((d :: ds) ++ ((if frac = [] then [] else B '.' :: frac) ++ expText ex)) =
      some (d :: ds, (if frac = [] then [] else B '.' :: frac) ++ expText ex) := by
    simp only [takeInt, hspan]
    by_cases h0 : d = B '0'
    · rw [if_pos h0, hd0 h0]
      simp
    · rw [if_neg h0]
  unfold parseNumber
  rw [hsign]
  simp only [hint2, takeFrac_fracText frac ex hf, takeExp_expText ex hex]
  rw [numText_eq]
  simp

theorem roundFloat_cross (neg : Bool) (n1 d1 n2 d2 : Nat) (h1 : 0 < d1) (h2 : 0 < d2)
    (h : n1 * d2 = n2 * d1) : roundFloat neg n1 d1 = roundFloat neg n2 d2 := by
  rw [← roundFloat_scale neg n1 d1 d2 h1 h2, ← roundFloat_scale neg n2 d2 d1 h2 h1, h,
    Nat.mul_comm d1 d2]

theorem decimalFloat_eq (neg : Bool) (c y a t : Nat) (x : Int)
    (h : (y : Int) + x = (a : Int) - (t : Int)) :
    decimalFloat neg (c * 10 ^ y) x = roundFloat neg (c * 10 ^ a) (10 ^ t) := by
  unfold decimalFloat
  by_cases hx : 0 ≤ x
  · obtain ⟨n, rfl⟩ := Int.eq_ofNat_of_zero_le hx
    rw [if_pos hx, Int.toNat_ofNat]
    apply roundFloat_cross _ _ _ _ _ (by decide) (by positivity)
    have ha : a = y + n + t := by omega
    subst ha
    rw [pow_add, pow_add]
    ring
  · obtain ⟨n, hn⟩ : ∃ n : Nat, x = -(n : Int) := ⟨(-x).toNat, by omega⟩
    subst hn
    rw [if_neg hx, neg_neg, Int.toNat_ofNat]
    apply roundFloat_cross _ _ _ _ _ (by positivity) (by positivity)
    have ha : y + t = a + n := by omega
    calc c * 10 ^ y * 10 ^ t = c * 10 ^ (y + t) := by rw [pow_add]; ring
      _ = c * 10 ^ (a + n) := by rw [ha]
      _ = c * 10 ^ a * 10 ^ n := by rw [pow_add]; ring

theorem roundAt_sign (neg : Bool) (n d : Nat) (k : Int) :
    roundAt neg n d k = (roundAt false n d k).map (Float64.withSign neg) := by
  unfold roundAt
  simp only [apply_ite (Option.map (Float64.withSign neg)), Option.map_none', Option.map_some',
    Float64.withSign]

theorem roundFloat_sign (neg : Bool) (n d m : Nat) (e : Int) (hd : 0 < d)
    (h : roundFloat false n d = some (.finite false m e)) :
    roundFloat neg n d = some (.finite neg m e) := by
  by_cases hn : n = 0
  · subst hn
    simp only [roundFloat, if_true, Option.some.injEq, Float64.finite.injEq, true_and] at h ⊢
    exact h
  · have hn : 0 < n := Nat.pos_of_ne_zero hn
    have hs := binaryExponent_spec n d hn hd
    simp only [] at hs
    rw [roundFloat_of_exponent _ n d _ hn hd hs.1 hs.2] at h ⊢
    rw [roundAt_sign, h]
    rfl

theorem trimZeros_spec (l : GoString) :
    ∃ z, l = trimZeros l ++ List.replicate z (B '0') := by
  have h := List.takeWhile_append_dropWhile (· == B '0') l.reverse
  have h2 : l = (l.reverse.dropWhile (· == B '0')).reverse ++
      (l.reverse.takeWhile (· == B '0')).reverse := by
    rw [← List.reverse_append, h, List.reverse_reverse]
  have h3 : l.reverse.takeWhile (· == B '0') =
      List.replicate (l.reverse.takeWhile (· == B '0')).length (B '0') := by
    rw [List.eq_replicate_iff]
    refine ⟨rfl, ?_⟩
    intro b hb
    have := List.mem_takeWhile_imp hb
    simpa using this
  refine ⟨(l.reverse.takeWhile (· == B '0')).length, ?_⟩
  rw [trimZeros]
  conv_lhs => rw [h2, h3, List.reverse_replicate]

theorem decValue_zeros (k : Nat) : decValue (List.replicate k (B '0')) = 0 := by
  induction k with
  | zero => rfl
  | succ k ih =>
    rw [List.replicate_succ', decValue_append, ih]
    rfl

theorem decValue_append_zeros (l : GoString) (z : Nat) :
    decValue (l ++ List.replicate z (B '0')) = decValue l * 10 ^ z := by
  induction z with
  | zero => simp
  | succ z ih =>
    rw [List.replicate_succ', ← List.append_assoc, decValue_append, ih, pow_succ]
    have : (B '0').toNat - 48 = 0 := rfl
    rw [this]
    ring

theorem decValue_zeros_append (k : Nat) (l : GoString) :
    decValue (List.replicate k (B '0') ++ l) = decValue l := by
  have h := decValue_zeros k
  simp only [decValue, List.foldl_append] at h ⊢
  rw [h]

theorem allDigits_zeros (k : Nat) : allDigits (List.replicate k (B '0')) = true := by
  simp only [allDigits, List.all_eq_true]
  intro x hx
  rw [List.eq_of_mem_replicate hx]
  decide

theorem allDigits_take (l : GoString) (n : Nat) (h : allDigits l = true) :
    allDigits (l.take n) = true ∧ allDigits (l.drop n) = true := by
  have := allDigits_append (l.take n) (l.drop n)
  rw [List.take_append_drop, h] at this
  simpa using this.symm

/-- The digits `shortest` keeps: they start with the first digit of the
number, which is not zero, and the number is their value times a power of
ten. -/
theorem trimZeros_natDec (c : Nat) (hc : 0 < c) :
    ∃ d r z, trimZeros (natDec c) = d :: r ∧ d ≠ B '0' ∧
      allDigits (d :: r) = true ∧ c = decValue (d :: r) * 10 ^ z ∧
      (natDec c).length = (d :: r).length + z := by
  obtain ⟨z, hz⟩ := trimZeros_spec (natDec c)
  obtain ⟨_, h2, h3⟩ := natDec_spec c
  obtain ⟨d, ds, hd, hd0⟩ := natDecAux_head (c + 1) c [] (by omega) (by omega)
  have hd : natDec c = d :: ds := hd
  cases ht : trimZeros (natDec c) with
  | nil =>
    rw [ht, List.nil_append, hd] at hz
    cases z with
    | zero => simp at hz
    | succ z =>
      rw [List.replicate_succ, List.cons.injEq] at hz
      exact absurd hz.1 hd0
  | cons d2 r =>
    rw [ht] at hz
    have hdd : d2 = d := by
      rw [hd, List.cons_append, List.cons.injEq] at hz
      exact hz.1.symm
    subst hdd
    refine ⟨d2, r, z, rfl, hd0, ?_, ?_, ?_⟩
    · rw [hz, allDigits_append] at h2
      simp only [Bool.and_eq_true] at h2
      exact h2.1
    · rw [← decValue_append_zeros, ← hz, h3]
    · rw [hz]
      simp only [List.length_append, List.length_cons, List.length_replicate]

theorem numText_plain (int frac : GoString) (hf : frac ≠ []) :
    numText false int frac none = int ++ B '.' :: frac := by
  simp [numText, hf]

theorem numText_whole (int : GoString) : numText false int [] none = int := by
  simp [numText]

/-- The text of `fmtF` is a number text whose digits and exponent give the
value `0.d1d2...dn * 10^dp`. -/
theorem fmtF_shape (d : Byte) (r : GoString) (dp : Int) (hd0 : d ≠ B '0')
    (hds : allDigits (d :: r) = true) :
    ∃ (int frac : GoString) (y : Nat), fmtF (d :: r) dp = numText false int frac none ∧
      allDigits int = true ∧ (int = [B '0'] ∨ ∃ d2 r2, int = d2 :: r2 ∧ d2 ≠ B '0') ∧
      allDigits frac = true ∧ decValue (int ++ frac) = decValue (d :: r) * 10 ^ y ∧
      (y : Int) + (expValue none - (frac.length : Int)) = dp - ((d :: r).length : Int) := by
  by_cases h1 : dp ≤ 0
  · obtain ⟨k, hk⟩ : ∃ k : Nat, dp = -(k : Int) := ⟨(-dp).toNat, by omega⟩
    subst hk
    refine ⟨[B '0'], List.replicate k (B '0') ++ d :: r, 0, ?_, by decide, Or.inl rfl, ?_, ?_, ?_⟩
    · rw [numText_plain _ _ (by simp)]
      have e1 : ¬ (0 : Int) < -(k : Int) := by omega
      have e2 : -(k : Int) < ((d :: r).length : Int) := by
        simp only [List.length_cons]; omega
      have e3 : (-(k : Int)).toNat = 0 := by omega
      simp only [fmtF, if_neg e1, if_pos e2, neg_neg, Int.toNat_ofNat, e3, List.drop_zero]
    · rw [allDigits_append, allDigits_zeros, hds]; rfl
    · rw [show [B '0'] ++ (List.replicate k (B '0') ++ d :: r) =
        List.replicate (k + 1) (B '0') ++ d :: r by rw [List.replicate_succ]; rfl,
        decValue_zeros_append]
      simp
    · simp only [expValue, List.length_append, List.length_replicate, List.length_cons]
      push_cast
      ring
  · obtain ⟨p, hp⟩ : ∃ p : Nat, dp = (p : Int) := ⟨dp.toNat, by omega⟩
    subst hp
    have hp0 : 0 < p := by omega
    have e1 : (0 : Int) < (p : Int) := by omega
    by_cases h2 : p < (d :: r).length
    · have e2 : (p : Int) < ((d :: r).length : Int) := by exact_mod_cast h2
      obtain ⟨a1, a2⟩ := allDigits_take (d :: r) p hds
      have hdrop : (d :: r).drop p ≠ [] := by
        intro h
        have := congrArg List.length h
        simp only [List.length_drop, List.length_nil] at this
        omega
      refine ⟨(d :: r).take p, (d :: r).drop p, 0, ?_, a1, Or.inr ?_, a2, ?_, ?_⟩
      · rw [numText_plain _ _ hdrop]
        have e3 : p - (d :: r).length = 0 := by omega
        have e4 : (-(p : Int)).toNat = 0 := by omega
        simp only [fmtF, if_pos e1, if_pos e2, Int.toNat_ofNat, e3, e4, List.replicate_zero,
          List.append_nil, List.nil_append]
      · obtain ⟨q, rfl⟩ : ∃ q, p = q + 1 := ⟨p - 1, by omega⟩
        exact ⟨d, r.take q, rfl, hd0⟩
      · rw [List.take_append_drop]; simp
      · simp only [expValue, List.length_drop]
        push_cast [Nat.cast_sub (le_of_lt h2)]
        ring
    · have e2 : ¬ (p : Int) < ((d :: r).length : Int) := by
        intro h; exact h2 (by exact_mod_cast h)
      have htake : (d :: r).take p = d :: r := List.take_of_length_le (by omega)
      refine ⟨d :: r ++ List.replicate (p - (d :: r).length) (B '0'), [],
        p - (d :: r).length, ?_, ?_, Or.inr ⟨d, _, rfl, hd0⟩, rfl, ?_, ?_⟩
      · rw [numText_whole]
        simp only [fmtF, if_pos e1, if_neg e2, Int.toNat_ofNat, htake, List.append_nil]
      · rw [allDigits_append, allDigits_zeros, hds]; rfl
      · rw [List.append_nil, decValue_append_zeros]
      · simp only [expValue, List.length_nil]
        push_cast [Nat.cast_sub (not_lt.1 h2)]
        ring

theorem expDigits_spec (mag : Nat) :
    (if mag < 10 then [digitByte mag] else natDec mag) ≠ [] ∧
      allDigits (if mag < 10 then [digitByte mag] else natDec mag) = true ∧
      decValue (if mag < 10 then [digitByte mag] else natDec mag) = mag := by
  by_cases h : mag < 10
  · simp only [h, if_true]
    refine ⟨by simp, ?_, ?_⟩
    · have := digitByte_isDigit mag
      simp [allDigits, this.1, this.2]
    · simp only [decValue, List.foldl_cons, List.foldl_nil, Nat.zero_mul, Nat.zero_add,
        digitByte_toNat]
      omega
  · simp only [h, if_false]
    exact natDec_spec mag

/-- The text of `fmtE` is a number text whose digits and exponent give the
value `0.d1d2...dn * 10^dp`. -/
theorem fmtE_shape (d : Byte) (r : GoString) (dp : Int) (hd0 : d ≠ B '0')
    (hds : allDigits (d :: r) = true) :
    ∃ (int frac : GoString) (ex : Bool × GoString),
      fmtE (d :: r) dp = numText false int frac (some ex) ∧
      allDigits int = true ∧ (int = [B '0'] ∨ ∃ d2 r2, int = d2 :: r2 ∧ d2 ≠ B '0') ∧
      allDigits frac = true ∧ (ex.2 ≠ [] ∧ allDigits ex.2 = true) ∧
      decValue (int ++ frac) = decValue (d :: r) * 10 ^ 0 ∧
      ((0 : Nat) : Int) + (expValue (some ex) - (frac.length : Int)) =
        dp - ((d :: r).length : Int) := by
  obtain ⟨x1, x2, x3⟩ := expDigits_spec (dp - 1).natAbs
  obtain ⟨a1, a2⟩ := allDigits_take (d :: r) 1 hds
  refine ⟨[d], r, (decide (dp - 1 < 0), if (dp - 1).natAbs < 10 then [digitByte (dp - 1).natAbs]
      else natDec (dp - 1).natAbs), ?_, a1, Or.inr ⟨d, [], rfl, hd0⟩, a2, ⟨x1, x2⟩, by simp, ?_⟩
  · have hlen : (1 < (d :: r).length) ↔ r ≠ [] := by
      cases r <;> simp
    by_cases hr : r = []
    · subst hr
      by_cases hlt : (dp - 1).natAbs < 10 <;> by_cases hneg : dp - 1 < 0 <;>
        simp [fmtE, numText, hlt, hneg]
    · have h1 : 1 < (d :: r).length := hlen.2 hr
      have h0 : 0 < r.length := List.length_pos.2 hr
      by_cases hlt : (dp - 1).natAbs < 10 <;> by_cases hneg : dp - 1 < 0 <;>
        simp [fmtE, numText, hlt, hneg, hr, h0]
  · simp only [expValue, x3, decide_eq_true_eq, List.length_cons]
    by_cases hneg : dp - 1 < 0
    · simp only [hneg, if_true]
      have habs : |dp - 1| = -(dp - 1) := abs_of_neg hneg
      push_cast
      omega
    · simp only [hneg, if_false]
      have habs : |dp - 1| = dp - 1 := abs_of_nonneg (by omega)
      push_cast
      omega

theorem numText_sign (neg : Bool) (int frac : GoString) (ex : Option (Bool × GoString)) :
    (if neg then [B '-'] else []) ++ numText false int frac ex = numText neg int frac ex := by
  cases neg <;> simp [numText]

/-- A number text whose value rounds to a float is a number literal that
`parseFloat` reads as the float. -/
theorem numText_readsBack (neg : Bool) (int frac : GoString) (ex : Option (Bool × GoString))
    (y a t c m : Nat) (e : Int)
    (hi : allDigits int = true)
    (hint : int = [B '0'] ∨ ∃ d ds, int = d :: ds ∧ d ≠ B '0')
    (hf : allDigits frac = true)
    (hex : ∀ eneg ds, ex = some (eneg, ds) → ds ≠ [] ∧ allDigits ds = true)
    (hval : decValue (int ++ frac) = c * 10 ^ y)
    (hexp : (y : Int) + (expValue ex - (frac.length : Int)) = (a : Int) - (t : Int))
    (hr : roundFloat false (c * 10 ^ a) (10 ^ t) = some (.finite false m e)) :
    parseNumber (numText neg int frac ex) = some (numText neg int frac ex, []) ∧
      parseFloat (numText neg int frac ex) = some (.finite neg m e) := by
  refine ⟨parseNumber_numText neg int frac ex hi hint hf hex, ?_⟩
  have hne : int ≠ [] := by
    rcases hint with rfl | ⟨d, ds, rfl, _⟩ <;> simp
  rw [parseFloat_numText neg int frac ex hi hne hf, hval, decimalFloat_eq neg c y a t _ hexp]
  exact roundFloat_sign neg _ _ m e (by positivity) hr

/-- The number `encoding/json` writes for a finite float in the
representation of binary64 is a JSON number literal that `strconv.ParseFloat`
reads back as the same float. -/
theorem formatFloat_readsBack (neg : Bool) (m : Nat) (e : Int)
    (hb : Float64.isBinary64 (.finite neg m e) = true) :
    parseNumber (formatFloat neg m e) = some (formatFloat neg m e, []) ∧
      parseFloat (formatFloat neg m e) = some (.finite neg m e) := by
  by_cases hm : m = 0
  · subst hm
    have he : e = -1074 := by
      simp only [Float64.isBinary64, Bool.or_eq_true, Bool.and_eq_true, decide_eq_true_eq] at hb
      rcases hb with ⟨⟨⟨h1, _⟩, _⟩, _⟩ | ⟨_, h⟩
      · exact absurd h1 (by decide)
      · exact h
    subst he
    cases neg <;> exact ⟨by decide, by decide⟩
  · have h0 : 0 < m := Nat.pos_of_ne_zero hm
    have hb2 : Float64.isBinary64 (.finite false m e) = true := hb
    obtain ⟨c, i, t, hc, hsh, hrb⟩ := shortest_readsBack m e h0 hb2
    obtain ⟨d, r, z, ht, hd0, hds, hcz, hlen⟩ := trimZeros_natDec c hc
    rw [ht, hlen] at hsh
    have hrb2 : roundFloat false (decValue (d :: r) * 10 ^ (z + i)) (10 ^ t) =
        some (.finite false m e) := by
      rw [pow_add, ← Nat.mul_assoc, ← hcz]
      exact hrb
    have hdp : ((((d :: r).length + z : Nat) : Int) + (i : Int) - (t : Int)) -
        ((d :: r).length : Int) = ((z + i : Nat) : Int) - (t : Int) := by
      push_cast; ring
    simp only [formatFloat, if_neg hm, hsh]
    by_cases hu : (ltDyadic m e 4722366482869645 (-72) ||
        !ltDyadic m e 7629394531250000 17) = true
    · rw [if_pos hu]
      obtain ⟨int, frac, ex, h1, h2, h3, h4, h5, h6, h7⟩ := fmtE_shape d r
        ((((d :: r).length + z : Nat) : Int) + (i : Int) - (t : Int)) hd0 hds
      rw [h1, numText_sign]
      exact numText_readsBack neg int frac (some ex) 0 (z + i) t _ m e h2 h3 h4
        (fun eneg ds h => by
          simp only [Option.some.injEq] at h
          subst h
          exact h5) h6 (by rw [h7, hdp]) hrb2
    · rw [if_neg hu]
      obtain ⟨int, frac, y, h1, h2, h3, h4, h6, h7⟩ := fmtF_shape d r
        ((((d :: r).length + z : Nat) : Int) + (i : Int) - (t : Int)) hd0 hds
      rw [h1, numText_sign]
      exact numText_readsBack neg int frac none y (z + i) t _ m e h2 h3 h4
        (fun eneg ds h => by simp at h) h6 (by rw [h7, hdp]) hrb2

/-! ### Decoding what was encoded -/

theorem findIdx_mid (p : FieldDecl → Bool) (pre post : List FieldDecl) (f : FieldDecl)
    (hpre : ∀ g ∈ pre, p g = false) (hf : p f = true) :
    (pre ++ f :: post).findIdx? p = some pre.length := by
  induction pre with
  | nil => simp [List.findIdx?_cons, hf]
  | cons g pre ih =>
    have hg : p g = false := hpre g (List.mem_cons_self _ _)
    have := ih (fun x hx => hpre x (List.mem_cons_of_mem _ hx))
    simp [List.findIdx?_cons, hg, this]

theorem findField_mid (pre post : List FieldDecl) (f : FieldDecl)
    (h : ∀ g ∈ pre, bytes g.tag ≠ bytes f.tag) :
    findField (pre ++ f :: post) (bytes f.tag) = some pre.length := by
  unfold findField
  rw [findIdx_mid _ pre post f (fun g hg => by simpa using h g hg) (by simp)]

theorem getD_mid {α : Type} (pre post : List α) (x d : α) :
    (pre ++ x :: post).getD pre.length d = x := by
  induction pre with
  | nil => rfl
  | cons a pre ih => simpa using ih

theorem set_mid {α : Type} (pre post : List α) (x y : α) :
    (pre ++ x :: post).set pre.length y = pre ++ y :: post := by
  induction pre with
  | nil => rfl
  | cons a pre ih => simp [ih]

theorem zeros_cons (f : FieldDecl) (fs : List FieldDecl) :
    Ty.zeros (f :: fs) = f.ty.zero :: Ty.zeros fs := by
  obtain ⟨a, b, c, d⟩ := f
  rw [Ty.zeros]; rfl

mutual
/-- An encodable value is encoded as a printable JSON value, no deeper than
its type, from which the decoder rebuilds the value in a fresh variable. -/
theorem encode_decode : ∀ (v : Val) (ty : Ty), ty.plainTags = true → encodable ty v = true →
    ∃ j, encode ty v = .ok j ∧ printable j = true ∧ depthOf j ≤ ty.depth ∧
      ∀ err, decodeValue ty j ty.zero err = (v.visible, err)
  | .int i, ty, _, he => by
    cases ty <;> simp only [encodable, Bool.false_eq_true] at he
    simp only [decide_eq_true_eq] at he
    refine ⟨.num (formatInt i), by simp [encode], ?_, by simp [depthOf], ?_⟩
    · simp [printable, parseNumber_formatInt]
    · intro err
      simp [decodeValue, parseInt_formatInt i he.1 he.2, Val.visible]
  | .float f, ty, _, he => by
    cases ty <;> simp only [encodable, Bool.false_eq_true] at he
    simp only [Bool.and_eq_true] at he
    cases f with
    | inf _ => simp [Float64.isFinite] at he
    | nan => simp [Float64.isFinite] at he
    | finite neg m e =>
      obtain ⟨h1, h2⟩ := formatFloat_readsBack neg m e he.2
      refine ⟨.num (formatFloat neg m e), by simp [encode], ?_, by simp [depthOf], ?_⟩
      · simp [printable, h1]
      · intro err
        simp [decodeValue, h2, Val.visible]
  | .str s, ty, _, he => by
    cases ty <;> simp only [encodable, Bool.false_eq_true] at he
    refine ⟨.str s, by simp [encode], ?_, by simp [depthOf], ?_⟩
    · simp [printable, he]
    · intro err
      simp [decodeValue, Val.visible]
  | .slice isNil es spare, ty, hp, he => by
    cases ty <;> simp only [encodable, Bool.false_eq_true] at he
    rename_i elem
    simp only [Bool.and_eq_true, Bool.or_eq_true, Bool.not_eq_true', List.isEmpty_iff] at he
    simp only [Ty.plainTags] at hp
    obtain ⟨js, h1, hlen, h2, h3, h4⟩ := encodeElems_decode es elem hp he.2
    cases isNil with
    | true =>
      have hes : es = [] := by simpa using he.1
      subst hes
      refine ⟨.null, by simp [encode], by simp [printable], by simp [depthOf], ?_⟩
      intro err
      simp [decodeValue, Val.visible, Val.visibles]
    | false =>
      refine ⟨.arr js, by simp [encode, h1], by simpa [printable] using h2,
        by simp only [depthOf, Ty.depth]; omega, ?_⟩
      intro err
      cases js with
      | nil =>
        have hes : es = [] := by
          cases es with
          | nil => rfl
          | cons a as => simp at hlen
        subst hes
        simp [decodeValue, Val.visible, Val.visibles, Ty.zero]
      | cons j js =>
        simp [decodeValue, Val.visible, Ty.zero, h4]
  | .struct vs, ty, hp, he => by
    cases ty <;> simp only [encodable, Bool.false_eq_true] at he
    rename_i name fs
    simp only [Ty.plainTags] at hp
    obtain ⟨ms, h1, h2, h3, h4⟩ := encodeFields_decode vs [] fs [] rfl hp
      (fun f hf => absurd hf (List.not_mem_nil _)) he
    refine ⟨.obj ms, by simp [encode, h1], by simpa [printable] using h2,
      by simp only [depthOf, Ty.depth]; omega, ?_⟩
    intro err
    have := h4 err
    simp only [List.nil_append] at this
    simp [decodeValue, Val.visible, Ty.zero, this]
/-- The elements of a slice. -/
theorem encodeElems_decode : ∀ (vs : List Val) (elem : Ty), elem.plainTags = true →
    encodableElems elem vs = true →
    ∃ js, encodeElems elem vs = .ok js ∧ js.length = vs.length ∧ printableElems js = true ∧
      depthElems js ≤ elem.depth ∧
      ∀ err, decodeElems elem js [] err = (Val.visibles vs, err)
  | [], elem, _, _ =>
    ⟨[], by simp [encodeElems], rfl, by simp [printableElems], by simp [depthElems],
      fun err => by simp [decodeElems, Val.visibles]⟩
  | v :: vs, elem, hp, he => by
    simp only [encodableElems, Bool.and_eq_true] at he
    obtain ⟨j, h1, h2, h3, h4⟩ := encode_decode v elem hp he.1
    obtain ⟨js, g1, glen, g2, g3, g4⟩ := encodeElems_decode vs elem hp he.2
    refine ⟨j :: js, by simp [encodeElems, h1, g1], by simp [glen],
      by simp [printableElems, h2, g2], by simp only [depthElems]; omega, ?_⟩
    intro err
    simp [decodeElems, h4, g4, Val.visibles]
/-- The fields of a struct from `post` on, the fields of `pre` being done. -/
theorem encodeFields_decode : ∀ (vs : List Val) (pre post : List FieldDecl) (done : List Val),
    done.length = pre.length → Ty.plainFields post = true →
    (∀ f ∈ pre, ∀ g ∈ post, bytes f.tag ≠ bytes g.tag) → encodableFields post vs = true →
    ∃ ms, encodeFields post vs = .ok ms ∧ printableMembers ms = true ∧
      depthMembers ms ≤ Ty.depthFields post ∧
      ∀ err, decodeMembers (pre ++ post) ms (done ++ Ty.zeros post) err =
        (done ++ Val.visibles vs, err)
  | [], pre, post, done, hl, hp, hd, he => by
    cases post with
    | nil =>
      exact ⟨[], by simp [encodeFields], by simp [printableMembers], by simp [depthMembers],
        fun err => by simp [decodeMembers, Val.visibles, Ty.zeros]⟩
    | cons f fs => simp [encodableFields] at he
  | v :: vs, pre, post, done, hl, hp, hd, he => by
    cases post with
    | nil => simp [encodableFields] at he
    | cons f fs =>
      obtain ⟨goName, tag, omitEmpty, ty⟩ := f
      simp only [encodableFields, Bool.and_eq_true] at he
      simp only [Ty.plainFields, Bool.and_eq_true, Bool.not_eq_true', List.all_eq_true,
        decide_eq_true_eq] at hp
      obtain ⟨⟨⟨⟨ho, htag⟩, hdist⟩, hty⟩, hfs⟩ := hp
      subst ho
      obtain ⟨j, h1, h2, h3, h4⟩ := encode_decode v ty hty he.1
      obtain ⟨ms, g1, g2, g3, g4⟩ := encodeFields_decode vs (pre ++ [(goName, tag, false, ty)]) fs
        (done ++ [v.visible]) (by simp [hl]) hfs
        (by
          intro a ha g hg
          rcases List.mem_append.1 ha with ha | ha
          · exact hd a ha g (List.mem_cons_of_mem _ hg)
          · simp only [List.mem_singleton] at ha
            subst ha
            exact hdist g hg) he.2
      refine ⟨(bytes tag, j) :: ms, by simp [encodeFields, h1, g1],
        by simp [printableMembers, htag, h2, g2], by simp only [depthMembers, Ty.depthFields]; omega,
        ?_⟩
      intro err
      have hfind : findField (pre ++ (goName, tag, false, ty) :: fs) (bytes tag) =
          some pre.length :=
        findField_mid pre fs (goName, tag, false, ty)
          (fun g hg => hd g hg _ (List.mem_cons_self _ _))
      have hget : (pre ++ (goName, tag, false, ty) :: fs).getD pre.length
          ("", "", false, .int) = (goName, tag, false, ty) := getD_mid _ _ _ _
      have hget2 : (done ++ ty.zero :: Ty.zeros fs).getD pre.length (.int 0) = ty.zero := by
        rw [← hl]; exact getD_mid _ _ _ _
      have hset : (done ++ ty.zero :: Ty.zeros fs).set pre.length v.visible =
          done ++ v.visible :: Ty.zeros fs := by
        rw [← hl]; exact set_mid _ _ _ _
      have g4e := g4 err
      simp only [List.append_assoc, List.singleton_append] at g4e
      simp only [decodeMembers, hfind, hget, Ty.zeros, FieldDecl.ty, hget2, h4, hset, g4e,
        Val.visibles]
end

theorem parseJSON_render (j : JSON) (hp : printable j = true)
    (hd : depthOf j ≤ maxNestingDepth) : parseJSON (render j) = some j := by
  obtain ⟨c, s, hr, hc, _⟩ := render_head j hp
  have hv := parseValue_render j ((render j).length + 1) 0 [] hp (by omega) (by omega) trivial
  rw [List.append_nil] at hv
  unfold parseJSON
  rw [show skipSpace (render j) = render j by rw [hr]; exact skipSpace_cons _ _ hc, hv]
  simp [skipSpace]

/-- What `json.Marshal` writes for an encodable value, `json.Unmarshal` reads
into a fresh variable as the value. -/
theorem Unmarshal_Marshal (ty : Ty) (v : Val) (hp : ty.plainTags = true)
    (hd : ty.depth ≤ maxNestingDepth) (he : encodable ty v = true) :
    ∃ data, Marshal ty v = .ok data ∧ Unmarshal data ty ty.zero = (v.visible, none) := by
  obtain ⟨j, h1, h2, h3, h4⟩ := encode_decode v ty hp he
  refine ⟨render j, by simp [Marshal, h1], ?_⟩
  simp [Unmarshal, parseJSON_render j h2 (by omega), h4]

set_option maxRecDepth 100000 in
/-- C7 as stated fails for two kinds of record.  A record with a NaN reading
is not encoded at all: `json.Marshal` returns an `UnsupportedValueError`.  A
record whose name is not valid UTF-8 (the one byte 0xFF) is encoded with the
escape of U+FFFD in its place, and `currentWeather` decodes that text to a
record whose name is the three bytes of U+FFFD, not the byte 0xFF. -/
theorem round_trip_counterexample :
    Marshal Ty.CurrentWeather recordNaN = .error .unsupportedValue ∧
    Marshal Ty.CurrentWeather recordBadName = .ok textBadName ∧
    currentWeather (netBody textBadName) exampleParams [] =
      ⟨some recordReplaced, none, [.send exampleURL, .readAll, .close]⟩ ∧
    Val.get Ty.CurrentWeather "Name" recordBadName = .str [0xFF] ∧
    Val.get Ty.CurrentWeather "Name" recordReplaced = .str [0xEF, 0xBF, 0xBD] := by
  have henc : encode Ty.CurrentWeather recordReplaced = .ok jsonReplaced := rfl
  obtain ⟨j, h1, _, _, h4⟩ :=
    encode_decode recordReplaced Ty.CurrentWeather (by decide) (by decide)
  rw [henc] at h1
  injection h1 with h1
  subst h1
  have hparse : parseJSON textBadName = some jsonReplaced := rfl
  have hun : Unmarshal textBadName Ty.CurrentWeather Ty.CurrentWeather.zero =
      (recordReplaced, none) := by
    simp only [Unmarshal, hparse]
    exact h4 none
  refine ⟨rfl, rfl, ?_, rfl, rfl⟩
  rw [currentWeather_answered _ _ _ _ _
    (answered_netBody exampleParams _ [] exampleURL _ (by decide)), hun]
  rfl

/-- C7, amended: for every `CurrentWeather` record whose ints are in the range
of 64 bits, whose strings are valid UTF-8 and whose floats are finite
(`encodable`), `json.Marshal` succeeds, `json.Unmarshal` of its output into a fresh
`CurrentWeather` returns no error and the record itself (without the spare
capacity of its slice), and so does `currentWeather` when the server answers
with that output. -/
theorem marshal_round_trip (r : Val) (he : encodable Ty.CurrentWeather r = true) :
    ∃ data, Marshal Ty.CurrentWeather r = .ok data ∧
      Unmarshal data Ty.CurrentWeather Ty.CurrentWeather.zero = (r.visible, none) ∧
      ∀ (net : Net) (p : weatherParams) (log : List Event) (u : URL),
        answered net p (bytes "weather") log u data →
        currentWeather net p log =
          ⟨some r.visible, none, log ++ [.send u, .readAll, .close]⟩ := by
  obtain ⟨data, h1, h2⟩ := Unmarshal_Marshal Ty.CurrentWeather r (by decide) (by decide) he
  refine ⟨data, h1, h2, ?_⟩
  intro net p log u ha
  rw [currentWeather_answered net p log u data ha, h2]

set_option maxRecDepth 100000 in
theorem marshal_round_trip_witness :
    encodable Ty.CurrentWeather sampleRecord = true ∧
    ∃ data, Marshal Ty.CurrentWeather sampleRecord = .ok data ∧
      Unmarshal data Ty.CurrentWeather Ty.CurrentWeather.zero = (sampleRecord.visible, none) ∧
      ∀ (net : Net) (p : weatherParams) (log : List Event) (u : URL),
        answered net p (bytes "weather") log u data →
        currentWeather net p log =
          ⟨some sampleRecord.visible, none, log ++ [.send u, .readAll, .close]⟩ :=
  ⟨by decide, marshal_round_trip sampleRecord (by decide)⟩

end WeatherGo
